import Mathlib

/-!
# tg-auth-proxy: the ticket, its signature, the allow-list and the access decision

A shallow embedding of `auth.go`.  Every definition below follows one function of
the source (or one function of the Go standard library that the source calls, in
which case the doc comment says so and the definition follows the documented
behaviour of that function).

Modelling conventions.

* A Go `string` is a Lean `String`: the model covers strings that are valid UTF-8.
  Go compares strings byte by byte; for valid UTF-8 that is the order of the code
  points, which is what `stringLess` implements.
* A Go `map` is the list of its entries, in the (unspecified) order in which a
  `range` loop would enumerate them.  A Go map never holds a key twice; theorems
  that depend on this carry the hypothesis `GoMap.NodupKeys`.
* `time.Time` is the instant in nanoseconds since the Unix epoch, `time.Duration`
  is a number of nanoseconds.  `time.Now()` is the parameter `now`.  The seconds
  counter of a `time.Time` is an `int64`: `time.Unix` wraps around, `Time.Sub` and
  `Time.Add` saturate, as in package `time`.
* A `float64` is the rational number it stands for; `roundFloat64` rounds a rational
  to the nearest `float64`, a tie going to the even mantissa (IEEE 754).  The values of
  `Duration.Seconds` lie far inside the exponent range of `float64`, so overflow and
  subnormal numbers are not modelled.
* HMAC-SHA256 (`crypto/hmac`, `crypto/sha256`) is the parameter `hmacSHA256`.
* `int` is 64 bits wide.
* The codec of the session cookie (`json.Marshal`, `json.Unmarshal`, `url.QueryEscape`,
  `url.QueryUnescape`) works on the bytes of a Go string, a `List Byte`; `toBytes` gives
  the UTF-8 bytes of a Lean `String`.  The cookie is the `http.Cookie` value handed to
  `http.SetCookie`; how a browser stores and returns it is outside the model.
-/

namespace TgAuthProxy

/-! ## Go maps -/

/-- A Go map, as the list of its entries in enumeration order. -/
abbrev GoMap (κ ν : Type) := List (κ × ν)

namespace GoMap

variable {κ ν : Type} [DecidableEq κ]

/-- The comma-ok lookup `v, exists := m[k]`. -/
def lookup : GoMap κ ν → κ → Option ν
  | [], _ => none
  | (k', v) :: rest, k => if k' = k then some v else lookup rest k

/-- The assignment `m[k] = v`. -/
def store : GoMap κ ν → κ → ν → GoMap κ ν
  | [], k, v => [(k, v)]
  | (k', v') :: rest, k, v => if k' = k then (k, v) :: rest else (k', v') :: store rest k v

/-- The builtin `delete(m, k)`. -/
def remove (m : GoMap κ ν) (k : κ) : GoMap κ ν :=
  m.filter (fun e => decide (e.1 ≠ k))

/-- The keys of the map, in enumeration order. -/
def keys (m : GoMap κ ν) : List κ := m.map Prod.fst

/-- No key occurs twice: the invariant of every Go map. -/
def NodupKeys (m : GoMap κ ν) : Prop := (keys m).Nodup

instance NodupKeys.decidable (m : GoMap κ ν) : Decidable (NodupKeys m) :=
  inferInstanceAs (Decidable (keys m).Nodup)

end GoMap

/-! ## Strings: comparison, sorting, joining, formatting -/

/-- Lexicographic comparison of two code point sequences. -/
def lexLess : List Char → List Char → Bool
  | [], [] => false
  | [], _ :: _ => true
  | _ :: _, [] => false
  | a :: as, b :: bs =>
    if a.toNat < b.toNat then true
    else if b.toNat < a.toNat then false
    else lexLess as bs

/-- Go's `a < b` on strings. -/
def stringLess (a b : String) : Bool := lexLess a.data b.data

/-- The order `sort.Strings` sorts by: `a` may stand before `b` when `b < a` is false. -/
def stringLE (a b : String) : Prop := stringLess b a = false

instance stringLE.decidable : DecidableRel stringLE :=
  fun a b => inferInstanceAs (Decidable (stringLess b a = false))

/-- The function `sort.Strings`: the slice in increasing order. -/
def sortStrings (xs : List String) : List String := List.insertionSort stringLE xs

/-- The function `strings.Join(elems, sep)`. -/
def Join : List String → String → String
  | [], _ => ""
  | [e], _ => e
  | e :: rest, sep => rest.foldl (fun b s => b ++ sep ++ s) e

/-- The call `fmt.Sprintf("%s=%s", k, v)`. -/
def SprintfKV (k v : String) : String := k ++ "=" ++ v

/-- The function `strings.HasPrefix`, on code point sequences. -/
def hasPrefixChars : List Char → List Char → Bool
  | _, [] => true
  | [], _ :: _ => false
  | c :: cs, p :: ps => if c = p then hasPrefixChars cs ps else false

/-- The function `strings.TrimPrefix(s, p)`: `s` without the leading `p`, or `s` itself. -/
def TrimPrefix (s p : String) : String :=
  if hasPrefixChars s.data p.data then ⟨s.data.drop p.data.length⟩ else s

/-- The function `unicode.IsSpace`. -/
def isSpace (c : Char) : Bool :=
  let n := c.toNat
  (9 ≤ n ∧ n ≤ 13) ∨ n = 32 ∨ n = 133 ∨ n = 160 ∨ n = 5760 ∨ (8192 ≤ n ∧ n ≤ 8202) ∨
    n = 8232 ∨ n = 8233 ∨ n = 8239 ∨ n = 8287 ∨ n = 12288

/-- The function `strings.TrimSpace`: leading and trailing white space removed. -/
def TrimSpace (s : String) : String :=
  ⟨((s.data.dropWhile isSpace).reverse.dropWhile isSpace).reverse⟩

/-- The scan of `strings.FieldsFunc`: `cur` is the field being read (its characters in
reverse), `none` between fields; `acc` holds the finished fields, last one first. -/
def fieldsScan (f : Char → Bool) : List Char → Option (List Char) → List String → List String
  | [], none, acc => acc.reverse
  | [], some cur, acc => (String.mk cur.reverse :: acc).reverse
  | c :: cs, none, acc =>
    if f c then fieldsScan f cs none acc else fieldsScan f cs (some [c]) acc
  | c :: cs, some cur, acc =>
    if f c then fieldsScan f cs none (String.mk cur.reverse :: acc)
    else fieldsScan f cs (some (c :: cur)) acc

/-- The function `strings.FieldsFunc(s, f)`. -/
def FieldsFunc (s : String) (f : Char → Bool) : List String := fieldsScan f s.data none []

/-! ## Numbers: `strconv.ParseInt` -/

/-- The value of a decimal digit. -/
def digitVal (c : Char) : Option Nat :=
  if 48 ≤ c.toNat ∧ c.toNat ≤ 57 then some (c.toNat - 48) else none

/-- The digits of an unsigned decimal number, most significant first. -/
def parseDigits : List Char → Nat → Option Nat
  | [], acc => some acc
  | c :: cs, acc =>
    match digitVal c with
    | none => none
    | some d => parseDigits cs (acc * 10 + d)

/-- The call `strconv.ParseInt(s, 10, 0)` on a 64-bit platform; `none` stands for every
error (syntax or range): the source only tests `err == nil`. -/
def ParseInt (s : String) : Option Int :=
  match s.data with
  | [] => none
  | c :: cs =>
    let neg : Bool := c = '-'
    let ds := if c = '+' ∨ c = '-' then cs else c :: cs
    match ds with
    | [] => none
    | _ :: _ =>
      match parseDigits ds 0 with
      | none => none
      | some un =>
        if neg then (if un > 2 ^ 63 then none else some (-(un : Int)))
        else (if un ≥ 2 ^ 63 then none else some (un : Int))

/-! ## Bytes and `hex.EncodeToString` -/

/-- A byte. -/
abbrev Byte := Fin 256

/-- The table `hextable` of `encoding/hex`. -/
def hextable : List Char := "0123456789abcdef".data

/-- One hexadecimal digit. -/
def hexDigit (n : Nat) : Char := hextable.getD n '0'

/-- The function `hex.EncodeToString`: two digits per byte, high nibble first. -/
def EncodeToString (src : List Byte) : String :=
  ⟨src.foldr (fun b rest => hexDigit (b.val / 16) :: hexDigit (b.val % 16) :: rest) []⟩

/-- The keyed hash `hmac.New(sha256.New, key)` applied to a message: a parameter. -/
abbrev HMAC := List Byte → String → List Byte

/-! ## Time -/

/-- A `time.Duration`: nanoseconds. -/
abbrev Duration := Int

/-- A `time.Time`: the instant, in nanoseconds since the Unix epoch. -/
abbrev Time := Int

/-- The least `time.Duration`. -/
def minDuration : Duration := -(2 ^ 63)

/-- The greatest `time.Duration`. -/
def maxDuration : Duration := 2 ^ 63 - 1

/-- The constant `time.Second`. -/
def Second : Duration := 1000000000

/-- Seconds from January 1 of year 1 to the Unix epoch (`unixToInternal` of package `time`). -/
def unixToInternal : Int := 62135596800

/-- Two's complement wrap-around of a 64-bit signed integer. -/
def wrapInt64 (x : Int) : Int := (x + 2 ^ 63) % 2 ^ 64 - 2 ^ 63

/-- The call `time.Unix(sec, 0)`.  Package `time` keeps the seconds since year 1 in an
`int64`: `sec + unixToInternal` wraps around for `sec` near the top of the range. -/
def Unix (sec : Int) : Time := (wrapInt64 (sec + unixToInternal) - unixToInternal) * Second

/-- The zero value `time.Time{}`: January 1 of year 1, 00:00:00 UTC. -/
def zeroTime : Time := -unixToInternal * Second

/-- The method `Time.Sub`: the difference `t - u`, or the greatest (least) duration when
the difference does not fit. -/
def Sub (t u : Time) : Duration :=
  if t - u > maxDuration then maxDuration
  else if t - u < minDuration then minDuration
  else t - u

/-- Rounding of a rational number to the nearest integer, a tie going to the even one. -/
def roundEven (x : ℚ) : Int :=
  if x - ⌊x⌋ < 1 / 2 then ⌊x⌋
  else if 1 / 2 < x - ⌊x⌋ then ⌊x⌋ + 1
  else if ⌊x⌋ % 2 = 0 then ⌊x⌋ else ⌊x⌋ + 1

/-- The `float64` nearest to a positive rational `q`: with `2^e ≤ q < 2^(e+1)`, the nearest
multiple of `2^(e-52)`, which has a mantissa of 53 bits. -/
def roundPos (q : ℚ) : ℚ :=
  roundEven (q / 2 ^ (Int.log 2 q - 52)) * 2 ^ (Int.log 2 q - 52)

/-- The `float64` nearest to a rational: the result of a conversion to `float64` and of
every arithmetic operation on `float64` values. -/
def roundFloat64 (q : ℚ) : ℚ :=
  if 0 < q then roundPos q else if q < 0 then -roundPos (-q) else 0

/-- The method `Duration.Seconds`: `float64(sec) + float64(nsec)/1e9` with `sec := d / Second`
and `nsec := d % Second`, every conversion and operation rounded to `float64`. -/
def Seconds (d : Duration) : ℚ :=
  roundFloat64 (roundFloat64 ((Int.tdiv d Second : Int) : ℚ) +
    roundFloat64 (roundFloat64 ((Int.tmod d Second : Int) : ℚ) / 1000000000))

/-! ## The ticket -/

/-- The struct `AuthTicket`. -/
structure AuthTicket where
  parameters : GoMap String String
  deriving DecidableEq

namespace AuthTicket

/-- The method `UserID`. -/
def UserID (t : AuthTicket) : Int :=
  match GoMap.lookup t.parameters "id" with
  | some s =>
    match ParseInt s with
    | some val => val
    | none => 0
  | none => 0

/-- The method `UserName`. -/
def UserName (t : AuthTicket) : String :=
  match GoMap.lookup t.parameters "username" with
  | some s => s
  | none => ""

/-- The method `AuthDate`. -/
def AuthDate (t : AuthTicket) : Time :=
  match GoMap.lookup t.parameters "auth_date" with
  | some s =>
    match ParseInt s with
    | some val => Unix val
    | none => zeroTime
  | none => zeroTime

/-- The loop of `dataCheckString`: one line per entry other than `hash`. -/
def dataCheckStringParts (t : AuthTicket) : List String :=
  t.parameters.foldl
    (fun parts e => if e.1 ≠ "hash" then parts ++ [SprintfKV e.1 e.2] else parts) []

/-- The method `dataCheckString`. -/
def dataCheckString (t : AuthTicket) : String :=
  Join (sortStrings (dataCheckStringParts t)) "\n"

/-- The method `hash`. -/
def hash (t : AuthTicket) : String :=
  match GoMap.lookup t.parameters "hash" with
  | some s => s
  | none => ""

/-- The method `CheckSignature`.  Writing to a hash never returns an error, so the branch
`panic(err)` of the source is never taken. -/
def CheckSignature (hmacSHA256 : HMAC) (t : AuthTicket) (secret : List Byte) : Bool :=
  let dataCheckString := t.dataCheckString
  let actualHash := t.hash
  let expectedHash := EncodeToString (hmacSHA256 secret dataCheckString)
  decide (actualHash = expectedHash)

/-- The field names kept by `sanitizeParameters`. -/
def recognized : List String :=
  ["id", "first_name", "last_name", "username", "photo_url", "auth_date", "hash"]

/-- The method `sanitizeParameters`: the loop visits every key of the map once and deletes
the key it visits unless it is a recognized name. -/
def sanitizeParameters (t : AuthTicket) : AuthTicket :=
  ⟨(GoMap.keys t.parameters).foldl
    (fun m k => if k ∈ recognized then m else GoMap.remove m k) t.parameters⟩

/-- The method `areParametersWellFormed`. -/
def areParametersWellFormed (t : AuthTicket) : Bool :=
  if (GoMap.lookup t.parameters "id").isNone then false
  else if (GoMap.lookup t.parameters "username").isNone then false
  else if (GoMap.lookup t.parameters "auth_date").isNone then false
  else if (GoMap.lookup t.parameters "hash").isNone then false
  else true

end AuthTicket

/-! ## The ticket of a login request -/

/-- The type `url.Values`: a Go map from a name to the list of its values. -/
abbrev Values := GoMap String (List String)

/-- The statement `m[key] = append(m[key], value)`, by which `url.ParseQuery` fills the map. -/
def Values.add (m : Values) (key value : String) : Values :=
  GoMap.store m key ((GoMap.lookup m key).getD [] ++ [value])

/-- The method `URL.Query` of `net/url`, from the decoded `name=value` pairs of the query
string in the order in which they are written: every value is appended under its name. -/
def Query (pairs : List (String × String)) : Values :=
  pairs.foldl (fun m p => Values.add m p.1 p.2) []

/-- A run-time panic. -/
inductive Panic where
  | indexOutOfRange
  deriving DecidableEq

/-- The loop `for k, v := range query { parameters[k] = v[0] }`. -/
def firstValues : Values → GoMap String String → Except Panic (GoMap String String)
  | [], parameters => .ok parameters
  | (_, []) :: _, _ => .error .indexOutOfRange
  | (k, v0 :: _) :: rest, parameters => firstValues rest (GoMap.store parameters k v0)

/-- The function `AuthTicketFromURL`; `query` is the value of `req.URL.Query()`, in the
order in which the loop enumerates it; `.ok none` is the nil ticket. -/
def AuthTicketFromURL (query : Values) : Except Panic (Option AuthTicket) :=
  match firstValues query [] with
  | .error e => .error e
  | .ok parameters =>
    let ticket := (AuthTicket.mk parameters).sanitizeParameters
    if !ticket.areParametersWellFormed then .ok none
    else .ok (some ticket)

/-! ## The allow-list -/

/-- The struct `AllowedUsers`: two sets, each as the list of its members. -/
structure AllowedUsers where
  UserIDs : List Int
  UserNames : List String
  deriving DecidableEq

/-- The assignment `set[x] = struct{}{}`. -/
def setAdd {α : Type} [DecidableEq α] (s : List α) (x : α) : List α :=
  if x ∈ s then s else s ++ [x]

/-- The separator test passed to `strings.FieldsFunc` by `NewAllowedUsers`. -/
def isSeparator (c : Char) : Bool := c = ',' || c = ';' || c = ' '

/-- The body of the loop of `NewAllowedUsers`. -/
def addAllowedUser (users : AllowedUsers) (str : String) : AllowedUsers :=
  let str := TrimSpace str
  match ParseInt str with
  | some i => { users with UserIDs := setAdd users.UserIDs i }
  | none =>
    let str := TrimPrefix str "@"
    let str := TrimPrefix str "t.me/"
    let str := TrimPrefix str "http://t.me/"
    let str := TrimPrefix str "https://t.me/"
    { users with UserNames := setAdd users.UserNames str }

/-- The function `NewAllowedUsers`. -/
def NewAllowedUsers (raw : String) : AllowedUsers :=
  (FieldsFunc raw isSeparator).foldl addAllowedUser ⟨[], []⟩

/-- The method `IsAllowed`. -/
def AllowedUsers.IsAllowed (users : AllowedUsers) (t : AuthTicket) : Bool :=
  if t.UserID ∈ users.UserIDs then true
  else if t.UserName ∈ users.UserNames then true
  else false

/-! ## The access decision -/

/-- The struct `AuthService`. -/
structure AuthService where
  allowedUsers : AllowedUsers
  secret : List Byte
  botName : String
  maxAuthAge : Duration

/-- The type `CheckAccessResult`, constants in the order of the source. -/
inductive CheckAccessResult where
  | NoAccess
  | HasAccess
  | NoTicket
  | TicketExpired
  deriving DecidableEq

open CheckAccessResult

/-- The method `CheckAccess`; `none` is the nil ticket, `now` the value of `time.Now()`. -/
def AuthService.CheckAccess (hmacSHA256 : HMAC) (now : Time) (svc : AuthService)
    (ticket : Option AuthTicket) : CheckAccessResult :=
  match ticket with
  | none => NoTicket
  | some t =>
    if !(t.CheckSignature hmacSHA256 svc.secret) then NoTicket
    else
      let age := Sub now t.AuthDate
      if Seconds age > Seconds svc.maxAuthAge then TicketExpired
      else if !(svc.allowedUsers.IsAllowed t) then NoAccess
      else HasAccess

/-! ## The signature in the words of the specification -/

/-- The data-check string as the specification describes it: the lines `name=value` of
every field except `hash`, sorted lexicographically as whole strings, joined by newlines. -/
def dataCheckStringSpec (t : AuthTicket) : String :=
  String.intercalate "\n"
    (List.insertionSort (fun a b : String => a ≤ b)
      ((t.parameters.filter (fun e => decide (e.1 ≠ "hash"))).map (fun e => e.1 ++ "=" ++ e.2)))

/-- The lowercase hexadecimal encoding of a byte sequence as the specification means it:
two digits per byte, the digits being those of `Nat.digitChar`. -/
def lowerHexSpec (bs : List Byte) : String :=
  ⟨(bs.map (fun b => [Nat.digitChar (b.val / 16), Nat.digitChar (b.val % 16)])).flatten⟩

/-- The first value given for a name among the `name=value` pairs of a query string. -/
def firstValueOf (pairs : List (String × String)) (name : String) : Option String :=
  (pairs.find? (fun p => decide (p.1 = name))).map Prod.snd

/-- The tokens of a configuration string as the specification describes them: the maximal
runs of characters other than the separators, that is, the non-empty pieces between
separators. -/
def tokensSpec (raw : String) : List String :=
  ((raw.data.splitOnP isSeparator).filter (fun piece => decide (piece ≠ []))).map String.mk

/-- The handle of a token: the token without one leading `@`, then without one leading
`t.me/`, then `http://t.me/`, then `https://t.me/`. -/
def handleOf (token : String) : String :=
  TrimPrefix (TrimPrefix (TrimPrefix (TrimPrefix token "@") "t.me/") "http://t.me/")
    "https://t.me/"

/-- The recognized names other than `hash`, in increasing order. -/
def signedNames : List String :=
  ["auth_date", "first_name", "id", "last_name", "photo_url", "username"]

/-- The first character of `a` is smaller than the first character of `b`. -/
def headLess (a b : String) : Bool :=
  match a.data, b.data with
  | c :: _, d :: _ => decide (c.toNat < d.toNat)
  | _, _ => false

/-- The lines of a normalized ticket in the order of their names. -/
def canonicalLines (t : AuthTicket) : List String :=
  signedNames.filterMap (fun k => (GoMap.lookup t.parameters k).map (SprintfKV k))

/-- What `strings.Join` writes after an element: each later element behind a separator. -/
def joinTail (rest : List String) (sep : String) : String :=
  rest.foldl (fun b s => b ++ sep ++ s) ""

/-- What `strings.Join` writes before an element: the earlier elements, each followed by a
separator. -/
def joinHead : List String → String → String
  | [], _ => ""
  | e :: rest, sep => e ++ joinTail rest sep ++ sep

/-! ## A decimal integer in the words of the specification -/

/-- The decimal digits, each at the place of its value. -/
def decimalDigits : List Char := ['0', '1', '2', '3', '4', '5', '6', '7', '8', '9']

/-- A natural number in decimal writing, in the words of the specification: one or more
decimal digits, read in base ten. -/
def decimalNat (body : List Char) : Option Nat :=
  if body ≠ [] ∧ ∀ c ∈ body, c ∈ decimalDigits then
    some (Nat.ofDigits 10 (body.reverse.map (fun c => decimalDigits.indexOf c)))
  else none

/-- An integer that fits in 64 bits. -/
def inInt64 (v : Int) : Option Int :=
  if -(2 ^ 63) ≤ v ∧ v ≤ 2 ^ 63 - 1 then some v else none

/-- A decimal integer in the words of the specification: an optional sign `-` or `+`, then
a natural number in decimal writing; the integer has to fit in 64 bits. -/
def decimalSpec (s : String) : Option Int :=
  if s.data.head? = some '-' then (decimalNat s.data.tail).bind (fun n => inInt64 (-(n : Int)))
  else if s.data.head? = some '+' then (decimalNat s.data.tail).bind (fun n => inInt64 (n : Int))
  else (decimalNat s.data).bind (fun n => inInt64 (n : Int))

/-- A well-formed ticket of user 7 with a given `username`. -/
def handleTicket (username : String) : AuthTicket :=
  ⟨[("id", "7"), ("username", username), ("auth_date", "1700000000"), ("hash", "00")]⟩

/-! ## Fixtures for the examples -/

/-- A stand-in for HMAC-SHA256 in the examples: the key followed by the code points of the
message, each reduced modulo 256.  It is not a secure keyed hash. -/
def sampleHMAC : HMAC := fun key msg => key ++ msg.data.map (fun c => Fin.ofNat c.toNat)

/-- The ticket with the given fields (none of them `hash`) and the `hash` that the holder
of `secret` computes for them. -/
def signTicket (hmacSHA256 : HMAC) (secret : List Byte) (fields : GoMap String String) :
    AuthTicket :=
  ⟨fields ++ [("hash", EncodeToString (hmacSHA256 secret (AuthTicket.mk fields).dataCheckString))]⟩

/-- The secret of the examples. -/
def sampleSecret : List Byte := [1, 2, 3]

/-- A service with a window of fourteen days (the value `main` passes) and the allow-list
of the specification. -/
def sampleService : AuthService :=
  ⟨NewAllowedUsers "123, @alice; https://t.me/bob", sampleSecret, "bot", 14 * 24 * 3600 * Second⟩

/-- A signed ticket of user 123, issued at Unix time 1700000000. -/
def sampleTicket : AuthTicket :=
  signTicket sampleHMAC sampleSecret
    [("id", "123"), ("first_name", "Alice"), ("username", "alice"), ("auth_date", "1700000000")]

/-- A signed ticket of a user who is not on the allow-list of `sampleService`. -/
def strangerTicket : AuthTicket :=
  signTicket sampleHMAC sampleSecret
    [("id", "77"), ("username", "mallory"), ("auth_date", "1700000000")]

/-- The ticket `sampleTicket` with another `id` and the old `hash`. -/
def forgedTicket : AuthTicket := ⟨GoMap.store sampleTicket.parameters "id" "124"⟩

/-- Ten minutes after the sample tickets were issued. -/
def sampleNow : Time := 1700000600 * Second

/-- A signed ticket of user 123 whose `auth_date` is not a number. -/
def undatedTicket : AuthTicket :=
  signTicket sampleHMAC sampleSecret
    [("id", "123"), ("username", "alice"), ("auth_date", "yesterday")]

/-- The sample service with the greatest window a `time.Duration` can hold. -/
def widestService : AuthService :=
  ⟨NewAllowedUsers "123, @alice; https://t.me/bob", sampleSecret, "bot", maxDuration⟩

/-- A signed ticket of user 123 issued at Unix time -7523372037 (in the year 1731). -/
def ancientTicket : AuthTicket :=
  signTicket sampleHMAC sampleSecret
    [("id", "123"), ("username", "alice"), ("auth_date", "-7523372037")]

/-- The instant 854775807 nanoseconds after Unix time 1700000000: the issue time of
`ancientTicket` plus the greatest duration plus one second. -/
def oddNow : Time := 1700000000 * Second + 854775807

/-- The pairs of the query string `id=5&x=y&id=6&username=al&hash=xx&auth_date=100`. -/
def samplePairs : List (String × String) :=
  [("id", "5"), ("x", "y"), ("id", "6"), ("username", "al"), ("hash", "xx"), ("auth_date", "100")]

/-- A field mapping extended with extra fields: each extra field is assigned in turn. -/
def extendWith (m extras : GoMap String String) : GoMap String String :=
  extras.foldl (fun acc e => GoMap.store acc e.1 e.2) m

/-- The sample fields in another order of enumeration. -/
def shuffledFields : GoMap String String :=
  [("auth_date", "1700000000"), ("username", "alice"), ("id", "123"), ("first_name", "Alice")]

/-- Two fields whose names are not recognized. -/
def extraFields : GoMap String String := [("is_admin", "1"), ("lang", "en")]

/-- A well-formed ticket of the user alice whose `id` is not a number. -/
def oddIdTicket : AuthTicket :=
  ⟨[("id", "abc"), ("username", "alice"), ("auth_date", "1700000000"), ("hash", "00")]⟩

/-- A signed ticket of user 123 issued one hour after `sampleNow`. -/
def futureTicket : AuthTicket :=
  signTicket sampleHMAC sampleSecret
    [("id", "123"), ("username", "alice"), ("auth_date", "1700004200")]

/-- The prefixes that `NewAllowedUsers` removes from a handle, and the empty prefix. -/
def handlePrefixes : List String := ["", "@", "t.me/", "http://t.me/", "https://t.me/"]

/-- A normalized handle: it begins with none of `@`, `t.me/`, `http://t.me/`,
`https://t.me/`. -/
def isNormalizedHandle (h : String) : Bool :=
  !(hasPrefixChars h.data "@".data) && !(hasPrefixChars h.data "t.me/".data) &&
    !(hasPrefixChars h.data "http://t.me/".data) && !(hasPrefixChars h.data "https://t.me/".data)

/-- A well-formed ticket whose `username` is empty. -/
def namelessTicket : AuthTicket :=
  ⟨[("id", "77"), ("username", ""), ("auth_date", "1700000000"), ("hash", "00")]⟩

/-- The string holds no newline character. -/
def noNewline (s : String) : Bool := !(s.data.contains '\n')

/-- What `strings.Join` with the newline separator writes after an element, as characters. -/
def tailChars : List String → List Char
  | [] => []
  | y :: ys => '\n' :: (y.data ++ tailChars ys)

/-- A signed ticket with a `last_name`. -/
def twoNameTicket : AuthTicket :=
  signTicket sampleHMAC sampleSecret
    [("id", "5"), ("first_name", "A"), ("last_name", "B"), ("username", "u"), ("auth_date", "1")]

/-- The fields of `twoNameTicket` with the line of `last_name` moved into the value of
`id`, and the `hash` of `twoNameTicket`. -/
def mergedTicket : AuthTicket :=
  ⟨[("id", "5\nlast_name=B"), ("first_name", "A"), ("username", "u"), ("auth_date", "1"),
    ("hash", twoNameTicket.hash)]⟩

/-! ## Strings as bytes: UTF-8

The cookie codec works on the bytes of a Go string.  Here a Go string is the list of its
bytes; `toBytes s` is the Go string whose text is the Lean string `s`. -/

/-- The byte with the given value. -/
def byte (n : Nat) : Byte := ⟨n % 256, Nat.mod_lt _ (by decide)⟩

/-- The bytes of one rune in a Go string (`utf8.EncodeRune`). -/
def EncodeRune (c : Char) : List Byte :=
  let n := c.toNat
  if n < 128 then [byte n]
  else if n < 2048 then [byte (192 + n / 64), byte (128 + n % 64)]
  else if n < 65536 then [byte (224 + n / 4096), byte (128 + n / 64 % 64), byte (128 + n % 64)]
  else [byte (240 + n / 262144), byte (128 + n / 4096 % 64), byte (128 + n / 64 % 64),
    byte (128 + n % 64)]

/-- The bytes of a sequence of runes. -/
def encodeRunes : List Char → List Byte
  | [] => []
  | c :: cs => EncodeRune c ++ encodeRunes cs

/-- The Go string whose text is `s`. -/
def toBytes (s : String) : List Byte := encodeRunes s.data

/-- The table `first` with `acceptRanges` of package `utf8`: for a leading byte of a
sequence of more than one byte, the length of the sequence and the bounds of its second
byte; `none` for every other byte. -/
def leadInfo (p0 : Nat) : Option (Nat × Nat × Nat) :=
  if 194 ≤ p0 ∧ p0 ≤ 223 then some (2, 128, 191)
  else if p0 = 224 then some (3, 160, 191)
  else if 225 ≤ p0 ∧ p0 ≤ 236 then some (3, 128, 191)
  else if p0 = 237 then some (3, 128, 159)
  else if 238 ≤ p0 ∧ p0 ≤ 239 then some (3, 128, 191)
  else if p0 = 240 then some (4, 144, 191)
  else if 241 ≤ p0 ∧ p0 ≤ 243 then some (4, 128, 191)
  else if p0 = 244 then some (4, 128, 143)
  else none

/-- A continuation byte. -/
def isCont (b : Nat) : Bool := 128 ≤ b && b ≤ 191

/-- The function `utf8.DecodeRune` on a string that is not empty: the first rune and its
width; the rune `none` with width 1 stands for `(RuneError, 1)`, an invalid byte. -/
def DecodeRune (p0 : Byte) (rest : List Byte) : Option Char × Nat :=
  if p0.val < 128 then (some (Char.ofNat p0.val), 1)
  else
    match leadInfo p0.val, rest with
    | some (2, lo, hi), b1 :: _ =>
      if lo ≤ b1.val ∧ b1.val ≤ hi then
        (some (Char.ofNat (p0.val % 32 * 64 + b1.val % 64)), 2)
      else (none, 1)
    | some (3, lo, hi), b1 :: b2 :: _ =>
      if lo ≤ b1.val ∧ b1.val ≤ hi ∧ isCont b2.val then
        (some (Char.ofNat (p0.val % 16 * 4096 + b1.val % 64 * 64 + b2.val % 64)), 3)
      else (none, 1)
    | some (4, lo, hi), b1 :: b2 :: b3 :: _ =>
      if lo ≤ b1.val ∧ b1.val ≤ hi ∧ isCont b2.val ∧ isCont b3.val then
        (some (Char.ofNat (p0.val % 8 * 262144 + b1.val % 64 * 4096 + b2.val % 64 * 64 +
          b3.val % 64)), 4)
      else (none, 1)
    | _, _ => (none, 1)

/-- The loop `for i < len(s) { r, size := utf8.DecodeRuneInString(s[i:]); ...; i += size }`:
the runes of a Go string, each with the bytes it was read from.  Every round consumes at
least one byte, so `fuel = len(s)` rounds suffice. -/
def decodeRunesLoop : Nat → List Byte → List (Option Char × List Byte)
  | 0, _ => []
  | _ + 1, [] => []
  | fuel + 1, p0 :: rest =>
    let (r, size) := DecodeRune p0 rest
    (r, (p0 :: rest).take size) :: decodeRunesLoop fuel ((p0 :: rest).drop size)

/-- The runes of a Go string, each with the bytes it was read from. -/
def decodeRunes (s : List Byte) : List (Option Char × List Byte) := decodeRunesLoop s.length s

/-- The rune `utf8.RuneError`, U+FFFD. -/
def RuneError : Char := Char.ofNat 65533

/-! ## `url.QueryEscape` and `url.QueryUnescape` -/

/-- The digits of `upperhex` in package `net/url`. -/
def upperhex (n : Nat) : Byte :=
  if n < 10 then byte (48 + n) else byte (55 + n)

/-- The function `shouldEscape` of `net/url` in the mode of a query component: every byte
but letters, digits, `-`, `_`, `.` and `~` is escaped. -/
def shouldEscape (c : Byte) : Bool :=
  !((97 ≤ c.val && c.val ≤ 122) || (65 ≤ c.val && c.val ≤ 90) || (48 ≤ c.val && c.val ≤ 57) ||
    c.val = 45 || c.val = 95 || c.val = 46 || c.val = 126)

/-- The function `url.QueryEscape`: a space becomes `+`, an escaped byte becomes `%XX`. -/
def QueryEscape : List Byte → List Byte
  | [] => []
  | c :: rest =>
    if c.val = 32 then byte 43 :: QueryEscape rest
    else if shouldEscape c then
      byte 37 :: upperhex (c.val / 16) :: upperhex (c.val % 16) :: QueryEscape rest
    else c :: QueryEscape rest

/-- The function `ishex` of `net/url`. -/
def ishex (c : Byte) : Bool :=
  (48 ≤ c.val && c.val ≤ 57) || (97 ≤ c.val && c.val ≤ 102) || (65 ≤ c.val && c.val ≤ 70)

/-- The function `unhex` of `net/url`. -/
def unhex (c : Byte) : Nat :=
  if 48 ≤ c.val ∧ c.val ≤ 57 then c.val - 48
  else if 97 ≤ c.val ∧ c.val ≤ 102 then c.val - 97 + 10
  else if 65 ≤ c.val ∧ c.val ≤ 70 then c.val - 65 + 10
  else 0

/-- The function `url.QueryUnescape`: `none` is the error for a `%` that is not followed by
two hexadecimal digits. -/
def QueryUnescape : List Byte → Option (List Byte)
  | [] => some []
  | c :: rest =>
    if c.val = 37 then
      match rest with
      | h1 :: h2 :: rest' =>
        if ishex h1 ∧ ishex h2 then
          (QueryUnescape rest').map (fun out => byte (unhex h1 * 16 + unhex h2) :: out)
        else none
      | _ => none
    else if c.val = 43 then (QueryUnescape rest).map (fun out => byte 32 :: out)
    else (QueryUnescape rest).map (fun out => c :: out)

/-! ## `json.Marshal` of a `map[string]string` -/

/-- The characters `json.Marshal` writes with an escape (HTML escaping is on): the quote,
the backslash, the control characters, `<`, `>`, `&`, U+2028 and U+2029. -/
def needsEscape (c : Char) : Bool :=
  c = '"' || c = '\\' || c.toNat < 32 || c = '<' || c = '>' || c = '&' ||
    c.toNat = 8232 || c.toNat = 8233

/-- The escape `json.Marshal` writes for such a character.  (Go 1.22 and later write `\b`
and `\f` where earlier versions write `\u0008` and `\u000c`; both read back the same.) -/
def escapeChars (c : Char) : List Char :=
  if c = '"' ∨ c = '\\' then ['\\', c]
  else if c = '\n' then ['\\', 'n']
  else if c = '\r' then ['\\', 'r']
  else if c = '\t' then ['\\', 't']
  else if c.toNat < 128 then ['\\', 'u', '0', '0', hexDigit (c.toNat / 16), hexDigit (c.toNat % 16)]
  else ['\\', 'u', '2', '0', '2', hexDigit (c.toNat % 16)]

/-- What `json.Marshal` writes for one rune of a string: the six characters `\ufffd` for
an invalid byte, the escape for a character that needs one, and otherwise the bytes of the
rune as they are. -/
def encodeSpan (span : Option Char × List Byte) : List Byte :=
  match span.1 with
  | none => encodeRunes ['\\', 'u', 'f', 'f', 'f', 'd']
  | some c => if needsEscape c then encodeRunes (escapeChars c) else span.2

/-- The concatenation of what is written for each rune. -/
def encodeSpans : List (Option Char × List Byte) → List Byte
  | [] => []
  | span :: rest => encodeSpan span ++ encodeSpans rest

/-- The JSON string literal `json.Marshal` writes for a Go string. -/
def appendString (s : List Byte) : List Byte :=
  byte 34 :: (encodeSpans (decodeRunes s) ++ [byte 34])

/-- Go's `a < b` on strings, byte by byte. -/
def bytesLess : List Byte → List Byte → Bool
  | [], [] => false
  | [], _ :: _ => true
  | _ :: _, [] => false
  | a :: as, b :: bs =>
    if a.val < b.val then true
    else if b.val < a.val then false
    else bytesLess as bs

/-- The order in which `json.Marshal` writes the entries of a map: by key. -/
def keyLE (a b : List Byte × List Byte) : Prop := bytesLess b.1 a.1 = false

instance keyLE.decidable : DecidableRel keyLE :=
  fun a b => inferInstanceAs (Decidable (bytesLess b.1 a.1 = false))

/-- One member of the object: `"key":"value"`. -/
def encodeMember (e : List Byte × List Byte) : List Byte :=
  appendString e.1 ++ byte 58 :: appendString e.2

/-- The members of the object, with commas between them. -/
def encodeMembers : List (List Byte × List Byte) → List Byte
  | [] => []
  | [e] => encodeMember e
  | e :: rest => encodeMember e ++ byte 44 :: encodeMembers rest

/-- The function `json.Marshal` on a `map[string]string` that is not nil: the object of
its entries, sorted by key.  It never returns an error. -/
def jsonMarshal (m : GoMap (List Byte) (List Byte)) : List Byte :=
  byte 123 :: (encodeMembers (List.insertionSort keyLE m) ++ [byte 125])

/-! ## `json.Unmarshal` into a `map[string]string` -/

/-- Where the reader stands inside a JSON string literal. -/
inductive StrState where
  | plain (acc : List Char)
  | esc (acc : List Char)
  | hex (acc : List Char) (high : Option Nat) (value count : Nat)
  | high (acc : List Char) (h : Nat)
  | highEsc (acc : List Char) (h : Nat)
  deriving DecidableEq

/-- The outcome of reading one character of a string literal. -/
inductive StrStep where
  | more (s : StrState)
  | done (s : String)
  | fail
  deriving DecidableEq

/-- The value of a hexadecimal digit, of either case. -/
def hexVal (c : Char) : Option Nat :=
  let n := c.toNat
  if 48 ≤ n ∧ n ≤ 57 then some (n - 48)
  else if 97 ≤ n ∧ n ≤ 102 then some (n - 87)
  else if 65 ≤ n ∧ n ≤ 70 then some (n - 55)
  else none

/-- The character a one-letter escape stands for. -/
def simpleEscape (c : Char) : Option Char :=
  if c = '"' then some '"'
  else if c = '\\' then some '\\'
  else if c = '/' then some '/'
  else if c = 'b' then some (Char.ofNat 8)
  else if c = 'f' then some (Char.ofNat 12)
  else if c = 'n' then some '\n'
  else if c = 'r' then some '\r'
  else if c = 't' then some '\t'
  else none

/-- A character of the string outside an escape: the quote ends the literal, a control
character is a syntax error. -/
def plainStep (acc : List Char) (c : Char) : StrStep :=
  if c = '"' then .done ⟨acc⟩
  else if c = '\\' then .more (.esc acc)
  else if c.toNat < 32 then .fail
  else .more (.plain (acc ++ [c]))

/-- The character after a backslash. -/
def escStep (acc : List Char) (c : Char) : StrStep :=
  if c = 'u' then .more (.hex acc none 0 0)
  else
    match simpleEscape c with
    | some d => .more (.plain (acc ++ [d]))
    | none => .fail

/-- The value of an escape `\uXXXX` that does not complete a surrogate pair: a high
surrogate waits for its partner, a low surrogate alone becomes U+FFFD. -/
def unitStep (acc : List Char) (rr : Nat) : StrStep :=
  if 55296 ≤ rr ∧ rr < 56320 then .more (.high acc rr)
  else if 56320 ≤ rr ∧ rr < 57344 then .more (.plain (acc ++ [RuneError]))
  else .more (.plain (acc ++ [Char.ofNat rr]))

/-- One character of a string literal. -/
def strStep : StrState → Char → StrStep
  | .plain acc, c => plainStep acc c
  | .esc acc, c => escStep acc c
  | .hex acc high value count, c =>
    match hexVal c with
    | none => .fail
    | some d =>
      if count < 3 then .more (.hex acc high (value * 16 + d) (count + 1))
      else
        let rr := value * 16 + d
        match high with
        | none => unitStep acc rr
        | some h =>
          if 56320 ≤ rr ∧ rr < 57344 then
            .more (.plain (acc ++ [Char.ofNat ((h - 55296) * 1024 + (rr - 56320) + 65536)]))
          else unitStep (acc ++ [RuneError]) rr
  | .high acc h, c =>
    if c = '\\' then .more (.highEsc acc h) else plainStep (acc ++ [RuneError]) c
  | .highEsc acc h, c =>
    if c = 'u' then .more (.hex acc (some h) 0 0) else escStep (acc ++ [RuneError]) c

/-- Where the reader stands in the JSON text. -/
inductive JState where
  | start
  | objOpen (m : GoMap String String)
  | inKey (m : GoMap String String) (s : StrState)
  | afterKey (m : GoMap String String) (key : String)
  | beforeValue (m : GoMap String String) (key : String)
  | inValue (m : GoMap String String) (key : String) (s : StrState)
  | valueNull (m : GoMap String String) (key : String) (n : Nat)
  | afterValue (m : GoMap String String)
  | afterComma (m : GoMap String String)
  | topNull (n : Nat)
  | done (m : GoMap String String)
  | fail
  deriving DecidableEq

/-- The white space of JSON. -/
def isJSONSpace (c : Char) : Bool := c = ' ' || c = '\t' || c = '\r' || c = '\n'

/-- The letters of the literal `null`. -/
def nullLetters : List Char := ['n', 'u', 'l', 'l']

/-- One character of the JSON text.  The text must be an object whose values are strings
or `null` (which leaves the empty string), or the literal `null` (which leaves the map
empty); everything else ends in `fail`: it is a syntax error, or a value that does not
fit a `map[string]string`, and `json.Unmarshal` returns an error for both. -/
def jsonStep : JState → Char → JState
  | .start, c =>
    if isJSONSpace c then .start
    else if c = '{' then .objOpen []
    else if c = 'n' then .topNull 1
    else .fail
  | .objOpen m, c =>
    if isJSONSpace c then .objOpen m
    else if c = '"' then .inKey m (.plain [])
    else if c = '}' then .done m
    else .fail
  | .inKey m s, c =>
    match strStep s c with
    | .more s' => .inKey m s'
    | .done key => .afterKey m key
    | .fail => .fail
  | .afterKey m key, c =>
    if isJSONSpace c then .afterKey m key
    else if c = ':' then .beforeValue m key
    else .fail
  | .beforeValue m key, c =>
    if isJSONSpace c then .beforeValue m key
    else if c = '"' then .inValue m key (.plain [])
    else if c = 'n' then .valueNull m key 1
    else .fail
  | .inValue m key s, c =>
    match strStep s c with
    | .more s' => .inValue m key s'
    | .done value => .afterValue (GoMap.store m key value)
    | .fail => .fail
  | .valueNull m key n, c =>
    if nullLetters.get? n = some c then
      (if n = 3 then .afterValue (GoMap.store m key "") else .valueNull m key (n + 1))
    else .fail
  | .afterValue m, c =>
    if isJSONSpace c then .afterValue m
    else if c = ',' then .afterComma m
    else if c = '}' then .done m
    else .fail
  | .afterComma m, c =>
    if isJSONSpace c then .afterComma m
    else if c = '"' then .inKey m (.plain [])
    else .fail
  | .topNull n, c =>
    if nullLetters.get? n = some c then (if n = 3 then .done [] else .topNull (n + 1))
    else .fail
  | .done m, c => if isJSONSpace c then .done m else .fail
  | .fail, _ => .fail

/-- The runes `json.Unmarshal` reads: an invalid byte counts as U+FFFD. -/
def runesOf (data : List Byte) : List Char :=
  (decodeRunes data).map (fun span => span.1.getD RuneError)

/-- The function `json.Unmarshal(data, &parameters)` for an empty `map[string]string`;
`none` stands for every error. -/
def jsonUnmarshal (data : List Byte) : Option (GoMap String String) :=
  match (runesOf data).foldl jsonStep .start with
  | .done m => some m
  | _ => none

/-! ## The ticket of a cookie -/

/-- The bytes of the fields of a ticket. -/
def rawParameters (m : GoMap String String) : GoMap (List Byte) (List Byte) :=
  m.map (fun e => (toBytes e.1, toBytes e.2))

/-- The body of the method `String`, on the bytes of the fields: the JSON object of the
fields, URL-escaped.  (The branch `panic(err)` is never taken.) -/
def ticketString (parameters : GoMap (List Byte) (List Byte)) : List Byte :=
  QueryEscape (jsonMarshal parameters)

/-- The method `String`. -/
def AuthTicket.String (t : AuthTicket) : List Byte := ticketString (rawParameters t.parameters)

/-- The function `AuthTicketFromCookie`; `cookie` is the value of the cookie named `.auth`
of the request, `none` when the request has no such cookie. -/
def AuthTicketFromCookie (cookie : Option (List Byte)) : Option AuthTicket :=
  match cookie with
  | none => none
  | some value =>
    match QueryUnescape value with
    | none => none
    | some str =>
      match jsonUnmarshal str with
      | none => none
      | some parameters =>
        let ticket := (AuthTicket.mk parameters).sanitizeParameters
        if !ticket.areParametersWellFormed then none
        else some ticket

/-! ## The session cookie and the login handler -/

/-- The constant `AuthCookieName`. -/
def AuthCookieName : String := ".auth"

/-- The fields of `http.Cookie` that the source sets; `Expires` is the zero time and
`MaxAge` is 0 when they are not set. -/
structure Cookie where
  Name : String
  Value : List Byte
  Path : String
  Expires : Time
  MaxAge : Int
  HttpOnly : Bool
  deriving DecidableEq

/-- The method `addSec` of package `time` on the seconds counter `ext` (an `int64`, seconds
since the year 1) of a time without monotonic clock reading: the sum, or the greatest
(least) value of the counter when the sum overflows. -/
def addSec (ext d : Int) : Int :=
  let sum := wrapInt64 (ext + d)
  if decide (sum > ext) = decide (d > 0) then sum
  else if d > 0 then 2 ^ 63 - 1
  else -(2 ^ 63 - 1)

/-- The method `Time.Add` on a time without monotonic clock reading (the times that
`time.Unix` and `time.Time{}` give): the nanoseconds are added and carried over, the seconds
are added by `addSec`. -/
def Add (t : Time) (d : Duration) : Time :=
  let ext := t / 1000000000 + unixToInternal
  let dsec := Int.tdiv d 1000000000
  let nsec := t % 1000000000 + Int.tmod d 1000000000
  if nsec ≥ 1000000000 then
    (addSec ext (dsec + 1) - unixToInternal) * 1000000000 + (nsec - 1000000000)
  else if nsec < 0 then
    (addSec ext (dsec - 1) - unixToInternal) * 1000000000 + (nsec + 1000000000)
  else (addSec ext dsec - unixToInternal) * 1000000000 + nsec

/-- The method `Login`: the cookie it hands to `http.SetCookie`. -/
def AuthService.Login (svc : AuthService) (ticket : AuthTicket) : Cookie :=
  { Name := AuthCookieName
    Value := ticket.String
    Path := "/"
    Expires := Add ticket.AuthDate svc.maxAuthAge
    MaxAge := 0
    HttpOnly := true }

/-- The method `Logout`: the cookie it hands to `http.SetCookie`. -/
def AuthService.Logout (_svc : AuthService) : Cookie :=
  { Name := AuthCookieName
    Value := []
    Path := ""
    Expires := zeroTime
    MaxAge := -1
    HttpOnly := false }

/-- The method `Values.Get` of `net/url`: the first value of a name, or the empty string. -/
def Values.Get (v : Values) (key : String) : String :=
  match GoMap.lookup v key with
  | some (first :: _) => first
  | _ => ""

/-- What a handler writes to its `http.ResponseWriter`: the cookies handed to
`http.SetCookie`, the `Location` header, the status code, and the page handed to
`renderTemplateSafe`.  The rendering of the page itself (files, templates) is outside the
model; it sets no cookie. -/
structure Response where
  cookies : List Cookie
  location : Option String
  status : Nat
  page : Option String
  deriving DecidableEq

/-- A call of a method on the nil ticket. -/
inductive Fault where
  | panic (p : Panic)
  | nilDereference
  deriving DecidableEq

/-- The handler `loginHandler`; `query` is the value of `r.URL.Query()`. -/
def loginHandler (hmacSHA256 : HMAC) (now : Time) (authService : AuthService)
    (query : Values) : Except Fault Response :=
  match AuthTicketFromURL query with
  | .error e => .error (.panic e)
  | .ok ticket =>
    match authService.CheckAccess hmacSHA256 now ticket with
    | HasAccess =>
      match ticket with
      | none => .error .nilDereference
      | some t =>
        let location := Values.Get query "return_url"
        let location := if location = "" then "/" else location
        .ok { cookies := [authService.Login t]
              location := some location
              status := 302
              page := none }
    | _ =>
      .ok { cookies := []
            location := none
            status := 403
            page := some "403.html" }

/-! ## The JSON text of a ticket whose fields are valid UTF-8, as characters -/

/-- What `json.Marshal` writes for one character. -/
def jsonChar (c : Char) : List Char := if needsEscape c then escapeChars c else [c]

/-- What `json.Marshal` writes for the characters of a string. -/
def jsonBody : List Char → List Char
  | [] => []
  | c :: cs => jsonChar c ++ jsonBody cs

/-- The string literal of a string. -/
def jsonQuote (s : String) : List Char := '"' :: (jsonBody s.data ++ ['"'])

/-- One member of the object. -/
def jsonMember (e : String × String) : List Char := jsonQuote e.1 ++ ':' :: jsonQuote e.2

/-- The members of the object, with commas between them. -/
def jsonMembers : List (String × String) → List Char
  | [] => []
  | [e] => jsonMember e
  | e :: rest => jsonMember e ++ ',' :: jsonMembers rest

/-- The object of a list of fields. -/
def jsonObject (m : GoMap String String) : List Char := '{' :: (jsonMembers m ++ ['}'])

/-- The fields in the order in which `json.Marshal` writes them. -/
def sortedFields (m : GoMap String String) : GoMap String String :=
  List.insertionSort (fun a b => keyLE (toBytes a.1, toBytes a.2) (toBytes b.1, toBytes b.2)) m

/-- Reading characters inside a string literal, as long as the literal goes on. -/
def strFeed : StrState → List Char → Option StrState
  | s, [] => some s
  | s, c :: cs =>
    match strStep s c with
    | .more s' => strFeed s' cs
    | _ => none

/-- The map a reader fills when it stores the fields one after the other. -/
def storeAll (m : GoMap String String) (fields : GoMap String String) : GoMap String String :=
  fields.foldl (fun acc e => GoMap.store acc e.1 e.2) m

/-- The fields of a normalized, well-formed ticket as `AuthTicketFromURL` builds it from
the query `id=123&first_name=%FF&username=alice&auth_date=1700000000&hash=00`: the value of
`first_name` is the single byte 0xFF, which is not valid UTF-8. -/
def invalidNameFields : GoMap (List Byte) (List Byte) :=
  [(toBytes "id", toBytes "123"), (toBytes "first_name", [byte 255]),
    (toBytes "username", toBytes "alice"), (toBytes "auth_date", toBytes "1700000000"),
    (toBytes "hash", toBytes "00")]

/-- The query of a login request with the fields of `sampleTicket` and a `return_url`. -/
def sampleQuery : Values := Query (sampleTicket.parameters ++ [("return_url", "/home")])

/-- A signed ticket of user 123 whose `auth_date` is the greatest 64-bit number. -/
def farFutureTicket : AuthTicket :=
  signTicket sampleHMAC sampleSecret
    [("id", "123"), ("username", "alice"), ("auth_date", "9223372036854775807")]

/-- The fields of user 123 with a given first name. -/
def nameFields (firstName : String) : GoMap String String :=
  [("id", "123"), ("first_name", firstName), ("username", "alice"), ("auth_date", "1700000000")]

/-- The signed ticket of user 123 with a given first name. -/
def nameTicket (hmacSHA256 : HMAC) (secret : List Byte) (firstName : String) : AuthTicket :=
  signTicket hmacSHA256 secret (nameFields firstName)

/-- The sample service with a window of 365 days. -/
def yearService : AuthService :=
  ⟨NewAllowedUsers "123, @alice; https://t.me/bob", sampleSecret, "bot", 365 * 24 * 3600 * Second⟩

/-- A nanosecond more than 365 days after `sampleTicket` was issued. -/
def yearNow : Time := 1700000000 * Second + 365 * 24 * 3600 * Second + 1

/-- The sample service with a window of the greatest duration less one nanosecond. -/
def nearWidestService : AuthService :=
  ⟨NewAllowedUsers "123, @alice; https://t.me/bob", sampleSecret, "bot", maxDuration - 1⟩

/-- A signed ticket of user 123 issued in the last second that the seconds counter of a
`time.Time` can hold: 9223371974719179007 is 2^63 - 1 - 62135596800. -/
def lastSecondTicket : AuthTicket :=
  signTicket sampleHMAC sampleSecret
    [("id", "123"), ("username", "alice"), ("auth_date", "9223371974719179007")]

/-! ## Rounding to `float64` and the seconds of a duration -/

theorem roundEven_intCast (n : ℤ) : roundEven (n : ℚ) = n := by
  unfold roundEven
  simp

theorem roundEven_bounds (x : ℚ) : ⌊x⌋ ≤ roundEven x ∧ roundEven x ≤ ⌊x⌋ + 1 := by
  unfold roundEven
  split_ifs <;> omega

theorem roundEven_mono {x y : ℚ} (h : x ≤ y) : roundEven x ≤ roundEven y := by
  have hf : ⌊x⌋ ≤ ⌊y⌋ := Int.floor_mono h
  rcases lt_or_eq_of_le hf with hlt | heq
  · have h1 := (roundEven_bounds x).2
    have h2 := (roundEven_bounds y).1
    omega
  · unfold roundEven
    rw [heq]
    split_ifs <;> first | omega | (exfalso; linarith)

theorem roundEven_eq_of_abs_lt (x : ℚ) (k : ℤ) (h : |x - k| < 1 / 2) : roundEven x = k := by
  rw [abs_lt] at h
  rcases le_or_lt (k : ℚ) x with hk | hk
  · have hfl : ⌊x⌋ = k := by
      rw [Int.floor_eq_iff]
      constructor <;> linarith
    unfold roundEven
    rw [hfl, if_pos (by linarith)]
  · have hfl : ⌊x⌋ = k - 1 := by
      rw [Int.floor_eq_iff]
      push_cast
      constructor <;> linarith
    unfold roundEven
    rw [hfl]
    push_cast
    rw [if_neg (by linarith), if_pos (by linarith)]
    ring

theorem abs_roundEven_sub (x : ℚ) : |(roundEven x : ℚ) - x| ≤ 1 / 2 := by
  have h1 := Int.floor_le x
  have h2 := Int.lt_floor_add_one x
  unfold roundEven
  rw [abs_le]
  split_ifs <;> push_cast <;> constructor <;> linarith

theorem log_spec (q : ℚ) (hq : 0 < q) :
    (2 : ℚ) ^ Int.log 2 q ≤ q ∧ q < (2 : ℚ) ^ (Int.log 2 q + 1) := by
  have h1 := Int.zpow_log_le_self (b := 2) (r := q) (by norm_num) hq
  have h2 := Int.lt_zpow_succ_log_self (b := 2) (by norm_num) q
  simp only [Nat.cast_ofNat] at h1 h2
  exact ⟨h1, h2⟩

theorem log_eq_of_bounds (q : ℚ) (e : ℤ) (h1 : (2 : ℚ) ^ e ≤ q) (h2 : q < (2 : ℚ) ^ (e + 1)) :
    Int.log 2 q = e := by
  have hq : 0 < q := lt_of_lt_of_le (zpow_pos (by norm_num) e) h1
  have ha : e ≤ Int.log 2 q := by
    rw [← Int.zpow_le_iff_le_log (by norm_num) hq]
    simpa using h1
  have hb : Int.log 2 q < e + 1 := by
    rw [← Int.lt_zpow_iff_log_lt (by norm_num) hq]
    simpa using h2
  omega

theorem scaled_bounds (q : ℚ) (hq : 0 < q) :
    (2 : ℚ) ^ (52 : ℕ) ≤ q / 2 ^ (Int.log 2 q - 52) ∧
      q / 2 ^ (Int.log 2 q - 52) < (2 : ℚ) ^ (53 : ℕ) := by
  obtain ⟨h1, h2⟩ := log_spec q hq
  have hu : (0 : ℚ) < 2 ^ (Int.log 2 q - 52) := zpow_pos (by norm_num) _
  have e1 : (2 : ℚ) ^ (52 : ℕ) * 2 ^ (Int.log 2 q - 52) = 2 ^ Int.log 2 q := by
    rw [← zpow_natCast, ← zpow_add₀ (by norm_num)]
    congr 1
    omega
  have e2 : (2 : ℚ) ^ (53 : ℕ) * 2 ^ (Int.log 2 q - 52) = 2 ^ (Int.log 2 q + 1) := by
    rw [← zpow_natCast, ← zpow_add₀ (by norm_num)]
    congr 1
    omega
  constructor
  · rw [le_div_iff₀ hu, e1]
    exact h1
  · rw [div_lt_iff₀ hu, e2]
    exact h2

theorem roundPos_bounds (q : ℚ) (hq : 0 < q) :
    (2 : ℚ) ^ Int.log 2 q ≤ roundPos q ∧ roundPos q ≤ (2 : ℚ) ^ (Int.log 2 q + 1) := by
  obtain ⟨h1, h2⟩ := scaled_bounds q hq
  have hu : (0 : ℚ) < 2 ^ (Int.log 2 q - 52) := zpow_pos (by norm_num) _
  have e1 : (2 : ℚ) ^ (52 : ℕ) * 2 ^ (Int.log 2 q - 52) = 2 ^ Int.log 2 q := by
    rw [← zpow_natCast, ← zpow_add₀ (by norm_num)]
    congr 1
    omega
  have e2 : (2 : ℚ) ^ (53 : ℕ) * 2 ^ (Int.log 2 q - 52) = 2 ^ (Int.log 2 q + 1) := by
    rw [← zpow_natCast, ← zpow_add₀ (by norm_num)]
    congr 1
    omega
  have r1 : ((2 ^ 52 : ℤ) : ℚ) ≤ (roundEven (q / 2 ^ (Int.log 2 q - 52)) : ℚ) := by
    have := roundEven_mono (x := ((2 ^ 52 : ℤ) : ℚ)) (y := q / 2 ^ (Int.log 2 q - 52))
      (by push_cast; exact h1)
    rw [roundEven_intCast] at this
    exact_mod_cast this
  have r2 : (roundEven (q / 2 ^ (Int.log 2 q - 52)) : ℚ) ≤ ((2 ^ 53 : ℤ) : ℚ) := by
    have := roundEven_mono (x := q / 2 ^ (Int.log 2 q - 52)) (y := ((2 ^ 53 : ℤ) : ℚ))
      (by push_cast; exact h2.le)
    rw [roundEven_intCast] at this
    exact_mod_cast this
  push_cast at r1 r2
  unfold roundPos
  constructor
  · rw [← e1]
    exact mul_le_mul_of_nonneg_right r1 hu.le
  · rw [← e2]
    exact mul_le_mul_of_nonneg_right r2 hu.le

theorem roundPos_pos (q : ℚ) (hq : 0 < q) : 0 < roundPos q :=
  lt_of_lt_of_le (zpow_pos (by norm_num) _) (roundPos_bounds q hq).1

theorem roundPos_mono {x y : ℚ} (hx : 0 < x) (h : x ≤ y) : roundPos x ≤ roundPos y := by
  have hy : 0 < y := lt_of_lt_of_le hx h
  have hl : Int.log 2 x ≤ Int.log 2 y := Int.log_mono_right hx h
  rcases lt_or_eq_of_le hl with hlt | heq
  · calc roundPos x ≤ (2 : ℚ) ^ (Int.log 2 x + 1) := (roundPos_bounds x hx).2
      _ ≤ (2 : ℚ) ^ Int.log 2 y := zpow_le_zpow_right₀ (by norm_num) (by omega)
      _ ≤ roundPos y := (roundPos_bounds y hy).1
  · unfold roundPos
    rw [heq]
    have hu : (0 : ℚ) < 2 ^ (Int.log 2 y - 52) := zpow_pos (by norm_num) _
    apply mul_le_mul_of_nonneg_right _ hu.le
    have : x / 2 ^ (Int.log 2 y - 52) ≤ y / 2 ^ (Int.log 2 y - 52) :=
      div_le_div_of_nonneg_right h hu.le
    exact_mod_cast roundEven_mono this

theorem roundFloat64_mono {x y : ℚ} (h : x ≤ y) : roundFloat64 x ≤ roundFloat64 y := by
  unfold roundFloat64
  rcases lt_trichotomy 0 x with hx | hx | hx
  · have hy : 0 < y := lt_of_lt_of_le hx h
    rw [if_pos hx, if_pos hy]
    exact roundPos_mono hx h
  · subst hx
    rcases lt_or_eq_of_le h with hy | hy
    · simp only [lt_self_iff_false, if_false, if_pos hy]
      exact (roundPos_pos y hy).le
    · subst hy
      exact le_refl _
  · rw [if_neg (not_lt.mpr hx.le), if_pos hx]
    rcases lt_trichotomy 0 y with hy | hy | hy
    · rw [if_pos hy]
      have := roundPos_pos (-x) (by linarith)
      have := roundPos_pos y hy
      linarith
    · subst hy
      simp only [lt_self_iff_false, if_false]
      have := roundPos_pos (-x) (by linarith)
      linarith
    · rw [if_neg (not_lt.mpr hy.le), if_pos hy]
      have := roundPos_mono (x := -y) (y := -x) (by linarith) (by linarith)
      linarith

theorem roundFloat64_neg (q : ℚ) : roundFloat64 (-q) = -roundFloat64 q := by
  unfold roundFloat64
  rcases lt_trichotomy 0 q with hq | hq | hq
  · rw [if_pos hq, if_neg (by linarith), if_pos (by linarith), neg_neg]
  · subst hq
    simp
  · rw [if_pos (by linarith), if_neg (by linarith), if_pos hq, neg_neg]

theorem roundFloat64_zero : roundFloat64 0 = 0 := by
  simp [roundFloat64]

theorem roundPos_eq_of_close (q : ℚ) (e k : ℤ) (h1 : (2 : ℚ) ^ e ≤ q)
    (h2 : q < (2 : ℚ) ^ (e + 1)) (h3 : |q / 2 ^ (e - 52) - k| < 1 / 2) :
    roundPos q = k * 2 ^ (e - 52) := by
  unfold roundPos
  rw [log_eq_of_bounds q e h1 h2, roundEven_eq_of_abs_lt _ k h3]

theorem roundFloat64_eq_of_close (q : ℚ) (e k : ℤ) (h1 : (2 : ℚ) ^ e ≤ q)
    (h2 : q < (2 : ℚ) ^ (e + 1)) (h3 : |q / 2 ^ (e - 52) - k| < 1 / 2) :
    roundFloat64 q = k * 2 ^ (e - 52) := by
  have hq : 0 < q := lt_of_lt_of_le (zpow_pos (by norm_num) e) h1
  unfold roundFloat64
  rw [if_pos hq]
  exact roundPos_eq_of_close q e k h1 h2 h3

theorem roundPos_repr (k : ℤ) (j : ℤ) (hk : 0 < k) (hk2 : k < 2 ^ 53) :
    roundPos (k * 2 ^ j) = k * 2 ^ j := by
  have hq : (0 : ℚ) < k * 2 ^ j := mul_pos (by exact_mod_cast hk) (zpow_pos (by norm_num) j)
  obtain ⟨h1, -⟩ := log_spec _ hq
  have hlt : (2 : ℚ) ^ Int.log 2 ((k : ℚ) * 2 ^ j) < 2 ^ (53 + j) := by
    calc (2 : ℚ) ^ Int.log 2 ((k : ℚ) * 2 ^ j) ≤ k * 2 ^ j := h1
      _ < 2 ^ (53 : ℕ) * 2 ^ j := by
          apply mul_lt_mul_of_pos_right _ (zpow_pos (by norm_num) j)
          exact_mod_cast hk2
      _ = 2 ^ (53 + j) := by
          rw [← zpow_natCast, ← zpow_add₀ (by norm_num)]
          rfl
  have he : Int.log 2 ((k : ℚ) * 2 ^ j) < 53 + j :=
    (zpow_lt_zpow_iff_right₀ (by norm_num : (1 : ℚ) < 2)).mp hlt
  obtain ⟨n, hn⟩ : ∃ n : ℕ, (n : ℤ) = j - (Int.log 2 ((k : ℚ) * 2 ^ j) - 52) :=
    ⟨(j - (Int.log 2 ((k : ℚ) * 2 ^ j) - 52)).toNat, Int.toNat_of_nonneg (by omega)⟩
  have hdiv : (k : ℚ) * 2 ^ j / 2 ^ (Int.log 2 ((k : ℚ) * 2 ^ j) - 52) = ((k * 2 ^ n : ℤ) : ℚ) := by
    rw [mul_div_assoc, ← zpow_sub₀ (by norm_num), ← hn]
    push_cast
    rw [zpow_natCast]
  unfold roundPos
  rw [hdiv, roundEven_intCast, ← hdiv]
  exact div_mul_cancel₀ _ (ne_of_gt (zpow_pos (by norm_num) _))

theorem roundFloat64_repr (k : ℤ) (j : ℤ) (hk : |k| < 2 ^ 53) :
    roundFloat64 (k * 2 ^ j) = k * 2 ^ j := by
  rw [abs_lt] at hk
  rcases lt_trichotomy 0 k with h | h | h
  · have hq : (0 : ℚ) < k * 2 ^ j := mul_pos (by exact_mod_cast h) (zpow_pos (by norm_num) j)
    unfold roundFloat64
    rw [if_pos hq]
    exact roundPos_repr k j h hk.2
  · subst h
    simp [roundFloat64]
  · have e : ((k : ℚ) * 2 ^ j) = -(((-k : ℤ) : ℚ) * 2 ^ j) := by push_cast; ring
    have hq : (0 : ℚ) < ((-k : ℤ) : ℚ) * 2 ^ j :=
      mul_pos (by exact_mod_cast (by omega : 0 < -k)) (zpow_pos (by norm_num) j)
    rw [e, roundFloat64_neg]
    unfold roundFloat64
    rw [if_pos hq, roundPos_repr (-k) j (by omega) (by omega)]

theorem roundFloat64_intCast (n : ℤ) (hn : |n| < 2 ^ 53) : roundFloat64 (n : ℚ) = n := by
  have := roundFloat64_repr n 0 hn
  simpa using this

theorem roundFloat64_half (k : ℤ) (hk : |k| < 2 ^ 53) : roundFloat64 ((k : ℚ) / 2) = (k : ℚ) / 2 := by
  have := roundFloat64_repr k (-1) hk
  have e : (k : ℚ) * 2 ^ (-1 : ℤ) = (k : ℚ) / 2 := by
    rw [zpow_neg_one]
    rfl
  rwa [e] at this

/-- The fraction of a second that `Duration.Seconds` adds for `n` nanoseconds. -/
theorem fraction_bounds (n : ℤ) :
    (0 ≤ n → n < 1000000000 →
      0 ≤ roundFloat64 (roundFloat64 (n : ℚ) / 1000000000) ∧
      roundFloat64 (roundFloat64 (n : ℚ) / 1000000000) ≤ 1) := by
  intro h0 h1
  rw [roundFloat64_intCast n (by rw [abs_lt]; constructor <;> omega)]
  have hz : roundFloat64 0 ≤ roundFloat64 ((n : ℚ) / 1000000000) :=
    roundFloat64_mono (div_nonneg (by exact_mod_cast h0) (by norm_num))
  have ho : roundFloat64 ((n : ℚ) / 1000000000) ≤ roundFloat64 ((1 : ℤ) : ℚ) := by
    apply roundFloat64_mono
    rw [div_le_iff₀ (by norm_num)]
    have : (n : ℚ) ≤ 1000000000 := by exact_mod_cast h1.le
    push_cast
    linarith
  rw [roundFloat64_zero] at hz
  rw [roundFloat64_intCast 1 (by norm_num)] at ho
  exact ⟨hz, by exact_mod_cast ho⟩

theorem Seconds_neg (d : Int) : Seconds (-d) = -Seconds d := by
  have hm : Int.tmod (-d) Second = -Int.tmod d Second := by
    have h1 := Int.tdiv_add_tmod (-d) Second
    have h2 := Int.tdiv_add_tmod d Second
    rw [Int.neg_tdiv] at h1
    linarith
  unfold Seconds
  rw [Int.neg_tdiv, hm]
  push_cast
  rw [roundFloat64_neg, roundFloat64_neg, neg_div, roundFloat64_neg, ← neg_add, roundFloat64_neg]

theorem Seconds_of_nonneg (d : Int) (h0 : 0 ≤ d) :
    Seconds d = roundFloat64 (roundFloat64 ((d / 1000000000 : Int) : ℚ) +
      roundFloat64 (roundFloat64 ((d % 1000000000 : Int) : ℚ) / 1000000000)) := by
  unfold Seconds Second
  rw [Int.tdiv_eq_ediv h0 (by norm_num), Int.tmod_eq_emod h0 (by norm_num)]

theorem Seconds_nonneg (d : Int) (h0 : 0 ≤ d) : 0 ≤ Seconds d := by
  rw [Seconds_of_nonneg d h0]
  have h1 : (0 : ℚ) ≤ roundFloat64 ((d / 1000000000 : Int) : ℚ) := by
    have := roundFloat64_mono (x := 0) (y := ((d / 1000000000 : Int) : ℚ))
      (by exact_mod_cast (by omega : (0 : Int) ≤ d / 1000000000))
    rwa [roundFloat64_zero] at this
  have h2 := (fraction_bounds (d % 1000000000) (by omega) (by omega)).1
  have := roundFloat64_mono (x := 0)
    (y := roundFloat64 ((d / 1000000000 : Int) : ℚ) +
      roundFloat64 (roundFloat64 ((d % 1000000000 : Int) : ℚ) / 1000000000)) (by linarith)
  rwa [roundFloat64_zero] at this

/-- Monotonicity among durations from 0 to 2^51 seconds. -/
theorem Seconds_mono_nonneg (a b : Int) (h0 : 0 ≤ a) (hab : a ≤ b)
    (hb : b ≤ 2 ^ 51 * 1000000000) : Seconds a ≤ Seconds b := by
  rw [Seconds_of_nonneg a h0, Seconds_of_nonneg b (by omega)]
  apply roundFloat64_mono
  rw [roundFloat64_intCast (a / 1000000000) (by rw [abs_lt]; constructor <;> omega),
    roundFloat64_intCast (b / 1000000000) (by rw [abs_lt]; constructor <;> omega)]
  have hs : a / 1000000000 ≤ b / 1000000000 := by omega
  rcases lt_or_eq_of_le hs with hlt | heq
  · have fa := (fraction_bounds (a % 1000000000) (by omega) (by omega)).2
    have fb := (fraction_bounds (b % 1000000000) (by omega) (by omega)).1
    have : ((a / 1000000000 : Int) : ℚ) + 1 ≤ ((b / 1000000000 : Int) : ℚ) := by
      exact_mod_cast hlt
    linarith
  · rw [heq]
    have hn : a % 1000000000 ≤ b % 1000000000 := by omega
    have : roundFloat64 (roundFloat64 ((a % 1000000000 : Int) : ℚ) / 1000000000) ≤
        roundFloat64 (roundFloat64 ((b % 1000000000 : Int) : ℚ) / 1000000000) := by
      apply roundFloat64_mono
      apply div_le_div_of_nonneg_right _ (by norm_num)
      apply roundFloat64_mono
      exact_mod_cast hn
    linarith

/-- A duration above 2^51 seconds has at least 2^51 seconds. -/
theorem Seconds_large (w : Int) (hw : 2 ^ 51 * 1000000000 ≤ w) :
    (2 : ℚ) ^ 51 ≤ Seconds w := by
  rw [Seconds_of_nonneg w (by omega)]
  have h1 : (2 : ℚ) ^ 51 ≤ roundFloat64 ((w / 1000000000 : Int) : ℚ) := by
    have := roundFloat64_mono (x := ((2 ^ 51 : Int) : ℚ)) (y := ((w / 1000000000 : Int) : ℚ))
      (by exact_mod_cast (by omega : (2 : Int) ^ 51 ≤ w / 1000000000))
    rw [roundFloat64_intCast _ (by norm_num)] at this
    exact_mod_cast this
  have h2 := (fraction_bounds (w % 1000000000) (by omega) (by omega)).1
  have := roundFloat64_mono (x := ((2 ^ 51 : Int) : ℚ))
    (y := roundFloat64 ((w / 1000000000 : Int) : ℚ) +
      roundFloat64 (roundFloat64 ((w % 1000000000 : Int) : ℚ) / 1000000000))
    (by push_cast; linarith)
  rw [roundFloat64_intCast _ (by norm_num)] at this
  exact_mod_cast this

/-- Monotonicity: the seconds of a duration within 2^51 seconds of zero are at most the
seconds of any greater duration. -/
theorem Seconds_mono_left (a b : Int) (hlo : -(2 ^ 51 * 1000000000) ≤ a)
    (hhi : a ≤ 2 ^ 51 * 1000000000) (hab : a ≤ b) : Seconds a ≤ Seconds b := by
  rcases le_or_lt 0 a with ha | ha
  · rcases le_or_lt b (2 ^ 51 * 1000000000) with hb | hb
    · exact Seconds_mono_nonneg a b ha hab hb
    · calc Seconds a ≤ Seconds (2 ^ 51 * 1000000000) :=
            Seconds_mono_nonneg a _ ha hhi (le_refl _)
        _ ≤ Seconds b := by
            have e : Seconds (2 ^ 51 * 1000000000) = (2 : ℚ) ^ 51 := by
              rw [Seconds_of_nonneg _ (by norm_num)]
              norm_num [roundFloat64_zero]
              have := roundFloat64_intCast (2 ^ 51) (by norm_num)
              push_cast at this
              rw [this, this]
            rw [e]
            exact Seconds_large b (by omega)
  · rcases le_or_lt 0 b with hb | hb
    · have h1 := Seconds_nonneg (-a) (by omega)
      rw [Seconds_neg] at h1
      have h2 := Seconds_nonneg b hb
      linarith
    · have := Seconds_mono_nonneg (-b) (-a) (by omega) (by omega) (by omega)
      rw [Seconds_neg, Seconds_neg] at this
      linarith

/-- Monotonicity: the seconds of any duration are at most the seconds of a greater
duration within 2^51 seconds of zero. -/
theorem Seconds_mono_right (a b : Int) (hlo : -(2 ^ 51 * 1000000000) ≤ b)
    (hhi : b ≤ 2 ^ 51 * 1000000000) (hab : a ≤ b) : Seconds a ≤ Seconds b := by
  have := Seconds_mono_left (-b) (-a) (by omega)
    (by omega) (by omega)
  rw [Seconds_neg, Seconds_neg] at this
  linarith

/-- The seconds of a whole number of half seconds are exact. -/
theorem Seconds_half_nonneg (k : Int) (h0 : 0 ≤ k) (hk : k ≤ 2 ^ 52) :
    Seconds (500000000 * k) = (k : ℚ) / 2 := by
  rw [Seconds_of_nonneg _ (by omega)]
  have e1 : 500000000 * k / 1000000000 = k / 2 := by omega
  have e2 : 500000000 * k % 1000000000 = 500000000 * (k % 2) := by omega
  rw [e1, e2, roundFloat64_intCast (k / 2) (by rw [abs_lt]; constructor <;> omega),
    roundFloat64_intCast (500000000 * (k % 2)) (by rw [abs_lt]; constructor <;> omega)]
  have e3 : ((500000000 * (k % 2) : Int) : ℚ) / 1000000000 = ((k % 2 : Int) : ℚ) / 2 := by
    push_cast
    ring
  have e4 : ((k / 2 : Int) : ℚ) + ((k % 2 : Int) : ℚ) / 2 = (k : ℚ) / 2 := by
    have : (k : ℚ) = ((2 * (k / 2) + k % 2 : Int) : ℚ) := by
      congr 1
      omega
    rw [this]
    push_cast
    ring
  rw [e3, roundFloat64_half (k % 2) (by rw [abs_lt]; constructor <;> omega), e4,
    roundFloat64_half k (by rw [abs_lt]; constructor <;> omega)]

theorem Seconds_half (k : Int) (hlo : -(2 ^ 52) ≤ k) (hk : k ≤ 2 ^ 52) :
    Seconds (500000000 * k) = (k : ℚ) / 2 := by
  rcases le_or_lt 0 k with h | h
  · exact Seconds_half_nonneg k h hk
  · have := Seconds_half_nonneg (-k) (by omega) (by omega)
    have e : (500000000 : Int) * -k = -(500000000 * k) := by ring
    rw [e, Seconds_neg] at this
    push_cast at this
    linarith

/-- A duration a whole second above another one, which lies within 2^50 seconds of zero,
has more seconds. -/
theorem Seconds_lt_left (a b : Int) (hlo : -(2 ^ 50 * 1000000000) ≤ a)
    (hhi : a ≤ 2 ^ 50 * 1000000000) (hab : a + 1000000000 ≤ b) : Seconds a < Seconds b := by
  have h1 : Seconds a ≤ Seconds (500000000 * ((a + 499999999) / 500000000)) :=
    Seconds_mono_left a _ (by omega) (by omega) (by omega)
  have h2 : Seconds (500000000 * ((a + 499999999) / 500000000 + 1)) ≤ Seconds b :=
    Seconds_mono_left _ b (by omega) (by omega) (by omega)
  rw [Seconds_half _ (by omega) (by omega)] at h1 h2
  push_cast at h1 h2
  linarith

/-- A duration within 2^50 seconds of zero has more seconds than any duration a whole
second below it. -/
theorem Seconds_lt_right (a b : Int) (hlo : -(2 ^ 50 * 1000000000) ≤ b)
    (hhi : b ≤ 2 ^ 50 * 1000000000) (hab : a + 1000000000 ≤ b) : Seconds a < Seconds b := by
  have := Seconds_lt_left (-b) (-a) (by omega) (by omega) (by omega)
  rw [Seconds_neg, Seconds_neg] at this
  linarith

/-- The rounding error of `roundPos` is at most half a unit in the last place. -/
theorem abs_roundPos_sub (x : ℚ) (e : ℤ) (hx : 0 < x) (he : x < (2 : ℚ) ^ (e + 1)) :
    |roundPos x - x| ≤ (2 : ℚ) ^ (e - 53) := by
  obtain ⟨h1, -⟩ := log_spec x hx
  have hE : Int.log 2 x < e + 1 :=
    (zpow_lt_zpow_iff_right₀ (by norm_num : (1 : ℚ) < 2)).mp (lt_of_le_of_lt h1 he)
  have hu : (0 : ℚ) < 2 ^ (Int.log 2 x - 52) := zpow_pos (by norm_num) _
  have hr := abs_roundEven_sub (x / 2 ^ (Int.log 2 x - 52))
  have e1 : roundPos x - x =
      ((roundEven (x / 2 ^ (Int.log 2 x - 52)) : ℚ) - x / 2 ^ (Int.log 2 x - 52)) *
        2 ^ (Int.log 2 x - 52) := by
    unfold roundPos
    rw [sub_mul, div_mul_cancel₀ _ (ne_of_gt hu)]
  rw [e1, abs_mul, abs_of_pos hu]
  calc |(roundEven (x / 2 ^ (Int.log 2 x - 52)) : ℚ) - x / 2 ^ (Int.log 2 x - 52)| *
        2 ^ (Int.log 2 x - 52) ≤ 1 / 2 * 2 ^ (Int.log 2 x - 52) :=
          mul_le_mul_of_nonneg_right hr hu.le
    _ = 2 ^ (Int.log 2 x - 53) := by
          rw [show Int.log 2 x - 52 = (Int.log 2 x - 53) + 1 by ring, zpow_add_one₀ (by norm_num)]
          ring
    _ ≤ 2 ^ (e - 53) := zpow_le_zpow_right₀ (by norm_num) (by omega)

theorem abs_roundFloat64_sub (x : ℚ) (e : ℤ) (hx : 0 ≤ x) (he : x < (2 : ℚ) ^ (e + 1)) :
    |roundFloat64 x - x| ≤ (2 : ℚ) ^ (e - 53) := by
  rcases lt_or_eq_of_le hx with h | h
  · unfold roundFloat64
    rw [if_pos h]
    exact abs_roundPos_sub x e h he
  · subst h
    rw [roundFloat64_zero]
    simp only [sub_zero, abs_zero]
    exact (zpow_pos (by norm_num) _).le

/-- Below 2^23 seconds, `Duration.Seconds` is off by less than half a nanosecond. -/
theorem abs_Seconds_sub (d : Int) (h0 : 0 ≤ d) (hd : d < 2 ^ 23 * 1000000000) :
    |Seconds d - (d : ℚ) / 1000000000| ≤ (2 : ℚ) ^ (-54 : ℤ) + (2 : ℚ) ^ (-31 : ℤ) := by
  rw [Seconds_of_nonneg d h0]
  rw [roundFloat64_intCast (d / 1000000000) (by rw [abs_lt]; constructor <;> omega),
    roundFloat64_intCast (d % 1000000000) (by rw [abs_lt]; constructor <;> omega)]
  have hn0 : (0 : ℚ) ≤ ((d % 1000000000 : Int) : ℚ) / 1000000000 :=
    div_nonneg (by exact_mod_cast (by omega : (0 : Int) ≤ d % 1000000000)) (by norm_num)
  have hn1 : ((d % 1000000000 : Int) : ℚ) / 1000000000 ≤ 999999999 / 1000000000 := by
    apply div_le_div_of_nonneg_right _ (by norm_num)
    exact_mod_cast (by omega : d % 1000000000 ≤ 999999999)
  have hf := abs_roundFloat64_sub (((d % 1000000000 : Int) : ℚ) / 1000000000) (-1) hn0
    (by norm_num; linarith)
  have hf0 := (fraction_bounds (d % 1000000000) (by omega) (by omega)).1
  rw [roundFloat64_intCast (d % 1000000000) (by rw [abs_lt]; constructor <;> omega)] at hf0
  have hs0 : (0 : ℚ) ≤ ((d / 1000000000 : Int) : ℚ) := by
    exact_mod_cast (by omega : (0 : Int) ≤ d / 1000000000)
  have hs1 : ((d / 1000000000 : Int) : ℚ) + 1 ≤ 2 ^ 23 := by
    exact_mod_cast (by omega : d / 1000000000 + 1 ≤ 2 ^ 23)
  have hd' : (d : ℚ) / 1000000000 =
      ((d / 1000000000 : Int) : ℚ) + ((d % 1000000000 : Int) : ℚ) / 1000000000 := by
    have : (d : ℚ) = ((1000000000 * (d / 1000000000) + d % 1000000000 : Int) : ℚ) := by
      congr 1
      omega
    rw [this]
    push_cast
    ring
  rw [abs_le] at hf
  norm_num at hf
  have hx := abs_roundFloat64_sub
    (((d / 1000000000 : Int) : ℚ) +
      roundFloat64 (((d % 1000000000 : Int) : ℚ) / 1000000000)) 22 (by linarith)
    (by norm_num; linarith)
  rw [abs_le] at hx ⊢
  norm_num at hx ⊢
  rw [hd']
  constructor <;> linarith

/-- For a window from 0 to 8388607 seconds the comparison in `float64` seconds is exact:
every greater duration has more seconds. -/
theorem Seconds_lt_small (w a : Int) (h0 : 0 ≤ w) (hw : w ≤ 8388607 * 1000000000)
    (h : w < a) : Seconds w < Seconds a := by
  have h1 : Seconds (w + 1) ≤ Seconds a := Seconds_mono_left _ _ (by omega) (by omega) (by omega)
  have e1 := abs_Seconds_sub w h0 (by omega)
  have e2 := abs_Seconds_sub (w + 1) (by omega) (by omega)
  rw [abs_le] at e1 e2
  push_cast at e2
  norm_num at e1 e2
  linarith

/-- The seconds of a duration, from two `float64` values that enclose the fraction of a
second and lead to the same sum. -/
theorem Seconds_eq_of_sandwich (d s n : Int) (hd : d = 1000000000 * s + n) (hn0 : 0 ≤ n)
    (hn1 : n < 1000000000) (hs0 : 0 ≤ s) (hs : s < 2 ^ 53) (L U v : ℚ)
    (hLr : roundFloat64 L = L) (hUr : roundFloat64 U = U)
    (hL : L ≤ (n : ℚ) / 1000000000) (hU : (n : ℚ) / 1000000000 ≤ U)
    (hvL : roundFloat64 ((s : ℚ) + L) = v) (hvU : roundFloat64 ((s : ℚ) + U) = v) :
    Seconds d = v := by
  have e1 : d / 1000000000 = s := by omega
  have e2 : d % 1000000000 = n := by omega
  rw [Seconds_of_nonneg d (by omega), e1, e2,
    roundFloat64_intCast s (by rw [abs_lt]; constructor <;> omega),
    roundFloat64_intCast n (by rw [abs_lt]; constructor <;> omega)]
  have h1 := roundFloat64_mono hL
  have h2 := roundFloat64_mono hU
  rw [hLr] at h1
  rw [hUr] at h2
  apply le_antisymm
  · rw [← hvU]
    exact roundFloat64_mono (by linarith)
  · rw [← hvL]
    exact roundFloat64_mono (by linarith)

/-- The greatest duration and the one a nanosecond below it have the same seconds. -/
theorem Seconds_maxDuration :
    Seconds 9223372036854775807 = 4835703278458517 / 524288 ∧
    Seconds 9223372036854775806 = 4835703278458517 / 524288 := by
  have hLr : roundFloat64 (((3585189 : ℤ) : ℚ) * 2 ^ (-22 : ℤ)) =
      ((3585189 : ℤ) : ℚ) * 2 ^ (-22 : ℤ) := roundFloat64_repr _ _ (by norm_num)
  have hUr : roundFloat64 (((1792595 : ℤ) : ℚ) * 2 ^ (-21 : ℤ)) =
      ((1792595 : ℤ) : ℚ) * 2 ^ (-21 : ℤ) := roundFloat64_repr _ _ (by norm_num)
  have hvL : roundFloat64 (((9223372036 : ℤ) : ℚ) + ((3585189 : ℤ) : ℚ) * 2 ^ (-22 : ℤ)) =
      4835703278458517 / 524288 := by
    rw [roundFloat64_eq_of_close _ 33 4835703278458517 (by norm_num) (by norm_num)
      (by rw [abs_lt]; norm_num)]
    norm_num
  have hvU : roundFloat64 (((9223372036 : ℤ) : ℚ) + ((1792595 : ℤ) : ℚ) * 2 ^ (-21 : ℤ)) =
      4835703278458517 / 524288 := by
    rw [roundFloat64_eq_of_close _ 33 4835703278458517 (by norm_num) (by norm_num)
      (by rw [abs_lt]; norm_num)]
    norm_num
  constructor
  · exact Seconds_eq_of_sandwich _ 9223372036 854775807 (by norm_num) (by norm_num)
      (by norm_num) (by norm_num) (by norm_num) _ _ _ hLr hUr (by norm_num) (by norm_num)
      hvL hvU
  · exact Seconds_eq_of_sandwich _ 9223372036 854775806 (by norm_num) (by norm_num)
      (by norm_num) (by norm_num) (by norm_num) _ _ _ hLr hUr (by norm_num) (by norm_num)
      hvL hvU

/-- A year of 365 days and a nanosecond has the seconds of a year of 365 days. -/
theorem Seconds_year :
    Seconds 31536000000000001 = 31536000 ∧ Seconds 31536000000000000 = 31536000 := by
  have hLr : roundFloat64 (((0 : ℤ) : ℚ) * 2 ^ (0 : ℤ)) = ((0 : ℤ) : ℚ) * 2 ^ (0 : ℤ) :=
    roundFloat64_repr _ _ (by norm_num)
  have hUr : roundFloat64 (((3 : ℤ) : ℚ) * 2 ^ (-31 : ℤ)) = ((3 : ℤ) : ℚ) * 2 ^ (-31 : ℤ) :=
    roundFloat64_repr _ _ (by norm_num)
  have hvL : roundFloat64 (((31536000 : ℤ) : ℚ) + ((0 : ℤ) : ℚ) * 2 ^ (0 : ℤ)) = 31536000 := by
    rw [roundFloat64_eq_of_close _ 24 8465380540416000 (by norm_num) (by norm_num)
      (by rw [abs_lt]; norm_num)]
    norm_num
  have hvU : roundFloat64 (((31536000 : ℤ) : ℚ) + ((3 : ℤ) : ℚ) * 2 ^ (-31 : ℤ)) =
      31536000 := by
    rw [roundFloat64_eq_of_close _ 24 8465380540416000 (by norm_num) (by norm_num)
      (by rw [abs_lt]; norm_num)]
    norm_num
  constructor
  · exact Seconds_eq_of_sandwich _ 31536000 1 (by norm_num) (by norm_num)
      (by norm_num) (by norm_num) (by norm_num) _ _ _ hLr hUr (by norm_num) (by norm_num)
      hvL hvU
  · exact Seconds_eq_of_sandwich _ 31536000 0 (by norm_num) (by norm_num)
      (by norm_num) (by norm_num) (by norm_num) _ _ _ hLr hUr (by norm_num) (by norm_num)
      hvL hvU

/-! ## The age of a ticket -/

/-- The result of `Time.Sub` is a `time.Duration`: it lies in the 64-bit range. -/
theorem Sub_range (t u : Time) : minDuration ≤ Sub t u ∧ Sub t u ≤ maxDuration := by
  have hmin : minDuration = -9223372036854775808 := rfl
  have hmax : maxDuration = 9223372036854775807 := rfl
  unfold Sub
  simp only [Duration, Time] at *
  split_ifs <;> constructor <;> omega

theorem Sub_le (t u : Time) (x : Duration) (h : t - u ≤ x) (hx : minDuration ≤ x) :
    Sub t u ≤ x := by
  have hmin : minDuration = -9223372036854775808 := rfl
  have hmax : maxDuration = 9223372036854775807 := rfl
  unfold Sub
  simp only [Duration, Time] at *
  split_ifs <;> omega

theorem le_Sub (t u : Time) (x : Duration) (h : x ≤ t - u) (hx : x ≤ maxDuration) :
    x ≤ Sub t u := by
  have hmin : minDuration = -9223372036854775808 := rfl
  have hmax : maxDuration = 9223372036854775807 := rfl
  unfold Sub
  simp only [Duration, Time] at *
  split_ifs <;> omega

/-- An age that is at most the window does not have more seconds than the window. -/
theorem Seconds_Sub_le (now a : Time) (w : Duration) (h : Sub now a ≤ w) :
    ¬ (Seconds (Sub now a) > Seconds w) := by
  have hr := Sub_range now a
  have hmin : minDuration = -9223372036854775808 := rfl
  have hmax : maxDuration = 9223372036854775807 := rfl
  simp only [Duration, Time] at *
  exact not_lt.mpr (Seconds_mono_left _ _ (by omega) (by omega) h)

/-- An age that exceeds the window by a second or more has more seconds than the window. -/
theorem Seconds_Sub_gt (now a : Time) (w : Duration) (h : w + Second ≤ Sub now a) :
    Seconds (Sub now a) > Seconds w := by
  have hr := Sub_range now a
  have hmin : minDuration = -9223372036854775808 := rfl
  have hmax : maxDuration = 9223372036854775807 := rfl
  have hsec : Second = 1000000000 := rfl
  simp only [Duration, Time] at *
  exact Seconds_lt_right _ _ (by omega) (by omega) (by omega)

/-- For a window from 0 to 8388607 seconds, an age has more seconds than the window exactly
when it is greater than the window. -/
theorem Seconds_Sub_gt_iff (now a : Time) (w : Duration) (h0 : 0 ≤ w)
    (hw : w ≤ 8388607 * Second) :
    Seconds (Sub now a) > Seconds w ↔ Sub now a > w := by
  have hsec : Second = 1000000000 := rfl
  constructor
  · intro h
    by_contra hn
    exact Seconds_Sub_le now a w (not_lt.mp hn) h
  · intro h
    simp only [Duration, Time] at *
    exact Seconds_lt_small _ _ h0 (by omega) h

/-! ## The access decision -/

/-- The access decision on a present ticket. -/
theorem CheckAccess_some (hmacSHA256 : HMAC) (now : Time) (svc : AuthService) (t : AuthTicket) :
    svc.CheckAccess hmacSHA256 now (some t) =
      if t.CheckSignature hmacSHA256 svc.secret = false then NoTicket
      else if Seconds (Sub now t.AuthDate) > Seconds svc.maxAuthAge then TicketExpired
      else if svc.allowedUsers.IsAllowed t = false then NoAccess
      else HasAccess := by
  simp only [AuthService.CheckAccess]
  cases t.CheckSignature hmacSHA256 svc.secret <;> cases svc.allowedUsers.IsAllowed t <;> simp

/-- The access decision on a correctly signed ticket whose age is at most the window. -/
theorem CheckAccess_of_le (hmacSHA256 : HMAC) (now : Time) (svc : AuthService) (t : AuthTicket)
    (hsig : t.CheckSignature hmacSHA256 svc.secret = true)
    (hage : Sub now t.AuthDate ≤ svc.maxAuthAge) :
    svc.CheckAccess hmacSHA256 now (some t) =
      if svc.allowedUsers.IsAllowed t = true then HasAccess else NoAccess := by
  rw [CheckAccess_some, hsig]
  simp only [Seconds_Sub_le now t.AuthDate svc.maxAuthAge hage]
  cases svc.allowedUsers.IsAllowed t <;> simp

/-- The access decision on a correctly signed ticket whose age exceeds the window by a
second or more. -/
theorem CheckAccess_of_second (hmacSHA256 : HMAC) (now : Time) (svc : AuthService)
    (t : AuthTicket) (hsig : t.CheckSignature hmacSHA256 svc.secret = true)
    (hage : svc.maxAuthAge + Second ≤ Sub now t.AuthDate) :
    svc.CheckAccess hmacSHA256 now (some t) = TicketExpired := by
  rw [CheckAccess_some, hsig]
  simp [Seconds_Sub_gt now t.AuthDate svc.maxAuthAge hage]

/-- C1, amended: `CheckAccess` returns `HasAccess` exactly when the ticket is present, its
signature is accepted, its age `now.Sub(AuthDate)` in `float64` seconds is not greater than
`maxAuthAge` in `float64` seconds, and the allow-list admits it.  The comparison in seconds
says "not greater" whenever the age is at most `maxAuthAge`, says "greater" whenever the age
exceeds `maxAuthAge` by a second or more, and for a window from 0 to 8388607 seconds it is
the comparison of the two durations.  Every other result is one of `NoTicket`,
`TicketExpired`, `NoAccess`. -/
theorem CheckAccess_HasAccess_iff (hmacSHA256 : HMAC) (now : Time) (svc : AuthService)
    (ticket : Option AuthTicket) :
    (svc.CheckAccess hmacSHA256 now ticket = HasAccess ↔
      ∃ t, ticket = some t ∧ t.CheckSignature hmacSHA256 svc.secret = true ∧
        ¬ (Seconds (Sub now t.AuthDate) > Seconds svc.maxAuthAge) ∧
        svc.allowedUsers.IsAllowed t = true) ∧
    (∀ t : AuthTicket, Sub now t.AuthDate ≤ svc.maxAuthAge →
      ¬ (Seconds (Sub now t.AuthDate) > Seconds svc.maxAuthAge)) ∧
    (∀ t : AuthTicket, svc.maxAuthAge + Second ≤ Sub now t.AuthDate →
      Seconds (Sub now t.AuthDate) > Seconds svc.maxAuthAge) ∧
    (0 ≤ svc.maxAuthAge → svc.maxAuthAge ≤ 8388607 * Second → ∀ t : AuthTicket,
      (Seconds (Sub now t.AuthDate) > Seconds svc.maxAuthAge ↔
        Sub now t.AuthDate > svc.maxAuthAge)) ∧
    (svc.CheckAccess hmacSHA256 now ticket ≠ HasAccess →
      svc.CheckAccess hmacSHA256 now ticket = NoTicket ∨
      svc.CheckAccess hmacSHA256 now ticket = TicketExpired ∨
      svc.CheckAccess hmacSHA256 now ticket = NoAccess) := by
  refine ⟨?_, fun t h => Seconds_Sub_le now t.AuthDate _ h,
    fun t h => Seconds_Sub_gt now t.AuthDate _ h,
    fun h0 hw t => Seconds_Sub_gt_iff now t.AuthDate _ h0 hw, ?_⟩
  · cases ticket with
    | none => simp [AuthService.CheckAccess]
    | some t =>
      rw [CheckAccess_some]
      cases hs : t.CheckSignature hmacSHA256 svc.secret <;>
        cases ha : svc.allowedUsers.IsAllowed t <;>
        by_cases hage : Seconds (Sub now t.AuthDate) > Seconds svc.maxAuthAge <;>
        simp [hs, ha, hage, not_lt.mp]
  · intro h
    cases hr : svc.CheckAccess hmacSHA256 now ticket <;> simp_all

/-- C1 fails as stated: under a window of 365 days the correctly signed `sampleTicket`, which
the allow-list admits, gets `HasAccess` a nanosecond after the window has passed: its age is
greater than `maxAuthAge`, and both have 31536000 seconds in `float64`. -/
theorem CheckAccess_HasAccess_counterexample :
    sampleTicket.CheckSignature sampleHMAC yearService.secret = true ∧
    yearService.allowedUsers.IsAllowed sampleTicket = true ∧
    yearService.maxAuthAge = 365 * 24 * 3600 * Second ∧
    Sub yearNow sampleTicket.AuthDate = yearService.maxAuthAge + 1 ∧
    Sub yearNow sampleTicket.AuthDate > yearService.maxAuthAge ∧
    yearService.CheckAccess sampleHMAC yearNow (some sampleTicket) = HasAccess := by
  have hsig : sampleTicket.CheckSignature sampleHMAC yearService.secret = true := by decide
  have hall : yearService.allowedUsers.IsAllowed sampleTicket = true := by decide
  have hage : Sub yearNow sampleTicket.AuthDate = 31536000000000001 := by decide
  have hwin : yearService.maxAuthAge = 31536000000000000 := by decide
  refine ⟨hsig, hall, by decide, by decide, by decide, ?_⟩
  rw [CheckAccess_some, hsig, hall, hage, hwin, Seconds_year.1, Seconds_year.2]
  simp

/-- C2: the nil ticket gives `NoTicket`, and a ticket whose signature is rejected gives the
same result as the nil ticket, whatever its fields, the allow-list, the window and the time. -/
theorem CheckAccess_rejected_eq_absent (hmacSHA256 : HMAC) (now : Time) (svc : AuthService)
    (t : AuthTicket) (hrej : t.CheckSignature hmacSHA256 svc.secret = false) :
    svc.CheckAccess hmacSHA256 now none = NoTicket ∧
      svc.CheckAccess hmacSHA256 now (some t) = svc.CheckAccess hmacSHA256 now none := by
  refine ⟨rfl, ?_⟩
  rw [CheckAccess_some, hrej]
  rfl

/-- The forged sample ticket is rejected and treated as an absent ticket. -/
theorem CheckAccess_rejected_eq_absent_witness :
    forgedTicket.CheckSignature sampleHMAC sampleService.secret = false ∧
      (sampleService.CheckAccess sampleHMAC sampleNow none = NoTicket ∧
        sampleService.CheckAccess sampleHMAC sampleNow (some forgedTicket) =
          sampleService.CheckAccess sampleHMAC sampleNow none) :=
  ⟨by decide, CheckAccess_rejected_eq_absent sampleHMAC sampleNow sampleService forgedTicket
    (by decide)⟩

/-- C5: a correctly signed ticket whose age is within the window, whose `id` is not in the
identity set and whose `username` is not in the handle set gets `NoAccess`. -/
theorem CheckAccess_NoAccess (hmacSHA256 : HMAC) (now : Time) (svc : AuthService)
    (t : AuthTicket) (hsig : t.CheckSignature hmacSHA256 svc.secret = true)
    (hage : Sub now t.AuthDate ≤ svc.maxAuthAge)
    (hid : t.UserID ∉ svc.allowedUsers.UserIDs)
    (hname : t.UserName ∉ svc.allowedUsers.UserNames) :
    svc.CheckAccess hmacSHA256 now (some t) = NoAccess := by
  rw [CheckAccess_of_le hmacSHA256 now svc t hsig hage]
  simp [AllowedUsers.IsAllowed, hid, hname]

/-- The ticket of a stranger, ten minutes old, gets `NoAccess` from the sample service. -/
theorem CheckAccess_NoAccess_witness :
    (strangerTicket.CheckSignature sampleHMAC sampleService.secret = true ∧
      Sub sampleNow strangerTicket.AuthDate ≤ sampleService.maxAuthAge ∧
      strangerTicket.UserID ∉ sampleService.allowedUsers.UserIDs ∧
      strangerTicket.UserName ∉ sampleService.allowedUsers.UserNames) ∧
      sampleService.CheckAccess sampleHMAC sampleNow (some strangerTicket) = NoAccess :=
  ⟨⟨by decide, by decide, by decide, by decide⟩,
    CheckAccess_NoAccess sampleHMAC sampleNow sampleService strangerTicket
      (by decide) (by decide) (by decide) (by decide)⟩

/-- A number that `ParseInt` returns lies in the 64-bit range. -/
theorem ParseInt_range (s : String) (v : Int) (h : ParseInt s = some v) :
    -(2 ^ 63) ≤ v ∧ v < 2 ^ 63 := by
  unfold ParseInt at h
  split at h
  · simp at h
  · simp only at h
    split at h
    · simp at h
    · split at h
      · simp at h
      · split_ifs at h <;> simp at h <;> omega

/-- The time of an `auth_date` that `time.Unix` holds without wrapping around. -/
theorem AuthDate_of_field (t : AuthTicket) (s : String) (v : Int)
    (hval : GoMap.lookup t.parameters "auth_date" = some s) (hparse : ParseInt s = some v)
    (hfit : v + unixToInternal ≤ 2 ^ 63 - 1) : t.AuthDate = v * Second := by
  have hr := ParseInt_range s v hparse
  have hu : unixToInternal = 62135596800 := rfl
  simp only [AuthTicket.AuthDate, hval, hparse, Unix, wrapInt64]
  congr 1
  omega

/-- C4, amended: take a correctly signed ticket whose `auth_date` is a decimal integer that
`time.Unix` holds without wrapping around (at most 2^63 - 1 - 62135596800), and a window
between the least duration and the greatest duration less one second.  `CheckAccess` returns
`TicketExpired` whenever `now - auth_date` exceeds the window by a second or more, and, for
a window from 0 to 8388607 seconds, whenever it exceeds the window at all, whatever the
allow-list says; it does not return `TicketExpired` when `now - auth_date` is at most the
window; a ticket issued `window + 1s` ago is expired, and one issued `window - 1s` ago that
the allow-list admits gets `HasAccess`. -/
theorem CheckAccess_expiry (hmacSHA256 : HMAC) (now : Time) (svc : AuthService)
    (t : AuthTicket) (s : String) (v : Int)
    (hsig : t.CheckSignature hmacSHA256 svc.secret = true)
    (hval : GoMap.lookup t.parameters "auth_date" = some s) (hparse : ParseInt s = some v)
    (hfit : v + unixToInternal ≤ 2 ^ 63 - 1)
    (hlo : minDuration ≤ svc.maxAuthAge) (hwin : svc.maxAuthAge ≤ maxDuration - Second) :
    (svc.maxAuthAge + Second ≤ now - v * Second →
      svc.CheckAccess hmacSHA256 now (some t) = TicketExpired) ∧
    (0 ≤ svc.maxAuthAge → svc.maxAuthAge ≤ 8388607 * Second →
      now - v * Second > svc.maxAuthAge →
      svc.CheckAccess hmacSHA256 now (some t) = TicketExpired) ∧
    (now - v * Second ≤ svc.maxAuthAge →
      svc.CheckAccess hmacSHA256 now (some t) ≠ TicketExpired) ∧
    (v * Second = now - (svc.maxAuthAge + Second) →
      svc.CheckAccess hmacSHA256 now (some t) = TicketExpired) ∧
    (v * Second = now - (svc.maxAuthAge - Second) → svc.allowedUsers.IsAllowed t = true →
      svc.CheckAccess hmacSHA256 now (some t) = HasAccess) := by
  have hdate := AuthDate_of_field t s v hval hparse hfit
  have hmax : maxDuration = 9223372036854775807 := rfl
  have hsec : Second = 1000000000 := rfl
  have hexp : svc.maxAuthAge + Second ≤ now - v * Second →
      svc.CheckAccess hmacSHA256 now (some t) = TicketExpired := by
    intro h
    apply CheckAccess_of_second hmacSHA256 now svc t hsig
    rw [hdate]
    exact le_Sub _ _ _ h (by simp only [Duration, Time] at *; omega)
  have hfresh : now - v * Second ≤ svc.maxAuthAge →
      svc.CheckAccess hmacSHA256 now (some t) =
        if svc.allowedUsers.IsAllowed t = true then HasAccess else NoAccess := by
    intro h
    apply CheckAccess_of_le hmacSHA256 now svc t hsig
    rw [hdate]
    exact Sub_le _ _ _ h hlo
  refine ⟨hexp, ?_, ?_, ?_, ?_⟩
  · intro h0 hw h
    rw [CheckAccess_some, hsig, hdate]
    have : Sub now (v * Second) > svc.maxAuthAge := by
      have := le_Sub now (v * Second) (svc.maxAuthAge + 1)
        (by simp only [Duration, Time] at *; omega) (by simp only [Duration, Time] at *; omega)
      simp only [Duration, Time] at *
      omega
    simp [(Seconds_Sub_gt_iff now (v * Second) svc.maxAuthAge h0 hw).mpr this]
  · intro h
    rw [hfresh h]
    cases svc.allowedUsers.IsAllowed t <;> simp
  · intro h
    exact hexp (by simp only [Duration, Time] at *; omega)
  · intro h ha
    rw [hfresh (by simp only [Duration, Time] at *; omega)]
    simp [ha]

/-- The sample ticket, ten minutes old, under the window of fourteen days. -/
theorem CheckAccess_expiry_witness :
    (sampleTicket.CheckSignature sampleHMAC sampleService.secret = true ∧
      GoMap.lookup sampleTicket.parameters "auth_date" = some "1700000000" ∧
      ParseInt "1700000000" = some 1700000000 ∧
      (1700000000 : Int) + unixToInternal ≤ 2 ^ 63 - 1 ∧
      minDuration ≤ sampleService.maxAuthAge ∧
      sampleService.maxAuthAge ≤ maxDuration - Second) ∧
    sampleService.CheckAccess sampleHMAC sampleNow (some sampleTicket) ≠ TicketExpired :=
  ⟨⟨by decide, by decide, by decide, by decide, by decide, by decide⟩,
    (CheckAccess_expiry sampleHMAC sampleNow sampleService sampleTicket "1700000000" 1700000000
      (by decide) (by decide) (by decide) (by decide) (by decide) (by decide)).2.2.1
      (by decide)⟩

/-- The ticket whose `auth_date` is the greatest 64-bit number: `time.Unix` wraps around, the
`AuthDate` lies before `sampleNow`, the age is the greatest duration, and the ticket is
expired for the sample service. -/
theorem farFutureTicket_expired :
    farFutureTicket.CheckSignature sampleHMAC sampleService.secret = true ∧
    farFutureTicket.AuthDate < sampleNow ∧
    Sub sampleNow farFutureTicket.AuthDate = maxDuration ∧
    sampleService.CheckAccess sampleHMAC sampleNow (some farFutureTicket) = TicketExpired := by
  have hsig : farFutureTicket.CheckSignature sampleHMAC sampleService.secret = true := by decide
  have hdate : farFutureTicket.AuthDate = -9223372036854775809 * Second := by decide
  have hsub : Sub sampleNow farFutureTicket.AuthDate = maxDuration := by
    rw [hdate]
    decide
  refine ⟨hsig, ?_, hsub, ?_⟩
  · rw [hdate]
    decide
  · apply CheckAccess_of_second sampleHMAC sampleNow sampleService farFutureTicket hsig
    rw [hsub]
    decide

/-- C4 fails as stated, in three ways.  Under a window of 365 days the correctly signed
`sampleTicket` is not expired a nanosecond after the window has passed.  Under the greatest
window the correctly signed `ancientTicket`, issued exactly `window + 1s` before `oddNow`,
is not expired.  The correctly signed `farFutureTicket`, whose `auth_date` lies after
`sampleNow`, is expired for the sample service. -/
theorem CheckAccess_expiry_counterexample :
    (sampleTicket.CheckSignature sampleHMAC yearService.secret = true ∧
      GoMap.lookup sampleTicket.parameters "auth_date" = some "1700000000" ∧
      yearNow - 1700000000 * Second > yearService.maxAuthAge ∧
      yearService.CheckAccess sampleHMAC yearNow (some sampleTicket) = HasAccess) ∧
    (ancientTicket.CheckSignature sampleHMAC widestService.secret = true ∧
      GoMap.lookup ancientTicket.parameters "auth_date" = some "-7523372037" ∧
      -7523372037 * Second = oddNow - (widestService.maxAuthAge + Second) ∧
      widestService.CheckAccess sampleHMAC oddNow (some ancientTicket) = HasAccess) ∧
    (farFutureTicket.CheckSignature sampleHMAC sampleService.secret = true ∧
      GoMap.lookup farFutureTicket.parameters "auth_date" = some "9223372036854775807" ∧
      sampleNow - 9223372036854775807 * Second ≤ sampleService.maxAuthAge ∧
      sampleService.CheckAccess sampleHMAC sampleNow (some farFutureTicket) =
        TicketExpired) := by
  refine ⟨⟨by decide, by decide, by decide, ?_⟩, ⟨by decide, by decide, by decide, ?_⟩,
    ⟨by decide, by decide, by decide, farFutureTicket_expired.2.2.2⟩⟩
  · have hsig : sampleTicket.CheckSignature sampleHMAC yearService.secret = true := by decide
    have hall : yearService.allowedUsers.IsAllowed sampleTicket = true := by decide
    have hage : Sub yearNow sampleTicket.AuthDate = 31536000000000001 := by decide
    have hwin : yearService.maxAuthAge = 31536000000000000 := by decide
    rw [CheckAccess_some, hsig, hall, hage, hwin, Seconds_year.1, Seconds_year.2]
    simp
  · rw [CheckAccess_of_le sampleHMAC oddNow widestService ancientTicket (by decide)
      (by decide)]
    decide

/-- C10, amended: a correctly signed ticket whose `auth_date` does not parse has the zero
time as its `AuthDate` and is expired, for every allow-list, every window of at most the
greatest duration less one second, and every time of evaluation that lies at least the
window and a second after the zero time. -/
theorem CheckAccess_unparsable_auth_date (hmacSHA256 : HMAC) (now : Time) (svc : AuthService)
    (t : AuthTicket) (s : String)
    (hsig : t.CheckSignature hmacSHA256 svc.secret = true)
    (hval : GoMap.lookup t.parameters "auth_date" = some s) (hparse : ParseInt s = none)
    (hwin : svc.maxAuthAge ≤ maxDuration - Second)
    (hnow : zeroTime + (svc.maxAuthAge + Second) ≤ now) :
    t.AuthDate = zeroTime ∧
      svc.CheckAccess hmacSHA256 now (some t) = TicketExpired ∧
      svc.CheckAccess hmacSHA256 now (some t) ≠ HasAccess ∧
      svc.CheckAccess hmacSHA256 now (some t) ≠ NoAccess := by
  have hdate : t.AuthDate = zeroTime := by
    simp [AuthTicket.AuthDate, hval, hparse]
  have hexp : svc.CheckAccess hmacSHA256 now (some t) = TicketExpired := by
    apply CheckAccess_of_second hmacSHA256 now svc t hsig
    rw [hdate]
    exact le_Sub _ _ _ (by simp only [Duration, Time] at *; omega)
      (by simp only [Duration, Time] at *; omega)
  exact ⟨hdate, hexp, by simp [hexp], by simp [hexp]⟩

/-- The ticket dated `yesterday` is expired for the sample service. -/
theorem CheckAccess_unparsable_auth_date_witness :
    (undatedTicket.CheckSignature sampleHMAC sampleService.secret = true ∧
      GoMap.lookup undatedTicket.parameters "auth_date" = some "yesterday" ∧
      ParseInt "yesterday" = none ∧ sampleService.maxAuthAge ≤ maxDuration - Second ∧
      zeroTime + (sampleService.maxAuthAge + Second) ≤ sampleNow) ∧
    sampleService.CheckAccess sampleHMAC sampleNow (some undatedTicket) = TicketExpired :=
  ⟨⟨by decide, by decide, by decide, by decide, by decide⟩,
    (CheckAccess_unparsable_auth_date sampleHMAC sampleNow sampleService undatedTicket
      "yesterday" (by decide) (by decide) (by decide) (by decide) (by decide)).2.1⟩

/-- C10 fails as stated: under a window of the greatest duration less one nanosecond, the
correctly signed ticket dated `yesterday` has the zero time as its `AuthDate`, its age is
the greatest duration, which in `float64` has the seconds of the window, and the ticket
gets `HasAccess`. -/
theorem CheckAccess_unparsable_auth_date_counterexample :
    undatedTicket.CheckSignature sampleHMAC nearWidestService.secret = true ∧
    GoMap.lookup undatedTicket.parameters "auth_date" = some "yesterday" ∧
    ParseInt "yesterday" = none ∧
    undatedTicket.AuthDate = zeroTime ∧
    nearWidestService.maxAuthAge < maxDuration ∧
    Sub sampleNow undatedTicket.AuthDate > nearWidestService.maxAuthAge ∧
    nearWidestService.CheckAccess sampleHMAC sampleNow (some undatedTicket) = HasAccess := by
  have hsig : undatedTicket.CheckSignature sampleHMAC nearWidestService.secret = true := by
    decide
  have hall : nearWidestService.allowedUsers.IsAllowed undatedTicket = true := by decide
  have hage : Sub sampleNow undatedTicket.AuthDate = 9223372036854775807 := by decide
  have hwin : nearWidestService.maxAuthAge = 9223372036854775806 := by decide
  refine ⟨hsig, by decide, by decide, by decide, by decide, by decide, ?_⟩
  rw [CheckAccess_some, hsig, hall, hage, hwin, Seconds_maxDuration.1, Seconds_maxDuration.2]
  simp

/-- The value of a decimal digit is its place among the decimal digits. -/
theorem digitVal_eq (c : Char) :
    digitVal c = if c ∈ decimalDigits then some (decimalDigits.indexOf c) else none := by
  unfold digitVal
  by_cases h : 48 ≤ c.toNat ∧ c.toNat ≤ 57
  · rw [if_pos h]
    have hc : c = Char.ofNat c.toNat := (Char.ofNat_toNat c).symm
    obtain ⟨h1, h2⟩ := h
    generalize c.toNat = n at hc h1 h2
    subst hc
    interval_cases n <;> decide
  · rw [if_neg h, if_neg]
    intro hm
    apply h
    simp only [decimalDigits, List.mem_cons, List.mem_singleton, List.not_mem_nil, or_false] at hm
    rcases hm with rfl | rfl | rfl | rfl | rfl | rfl | rfl | rfl | rfl | rfl <;> decide

theorem parseDigits_eq (ds : List Char) (acc : Nat) :
    parseDigits ds acc =
      if ∀ c ∈ ds, c ∈ decimalDigits then
        some (acc * 10 ^ ds.length +
          Nat.ofDigits 10 (ds.reverse.map (fun c => decimalDigits.indexOf c)))
      else none := by
  induction ds generalizing acc with
  | nil => simp [parseDigits]
  | cons c cs ih =>
    unfold parseDigits
    rw [digitVal_eq]
    by_cases hc : c ∈ decimalDigits
    · simp only [hc, if_true, ih, List.mem_cons, forall_eq_or_imp, true_and]
      by_cases hall : ∀ a ∈ cs, a ∈ decimalDigits
      · simp only [hall, implies_true, if_true, Option.some.injEq, List.reverse_cons,
          List.map_append, List.map_cons, List.map_nil, Nat.ofDigits_append, List.length_map,
          List.length_reverse, Nat.ofDigits_singleton, List.length_cons]
        ring_nf
      · simp [hall]
    · simp [hc]

theorem parseDigits_eq_decimalNat (d : Char) (ds : List Char) :
    parseDigits (d :: ds) 0 = decimalNat (d :: ds) := by
  rw [parseDigits_eq]
  unfold decimalNat
  by_cases hall : ∀ c ∈ d :: ds, c ∈ decimalDigits
  · rw [if_pos hall, if_pos ⟨List.cons_ne_nil _ _, hall⟩, Nat.zero_mul, Nat.zero_add]
  · rw [if_neg hall, if_neg (fun h => hall h.2)]

theorem range_of_nonneg (n : Nat) :
    (if n ≥ 2 ^ 63 then none else some (n : Int)) = inInt64 (n : Int) := by
  unfold inInt64
  by_cases h : n ≥ 2 ^ 63
  · rw [if_pos h, if_neg]
    omega
  · rw [if_neg h, if_pos]
    omega

theorem range_of_neg (n : Nat) :
    (if n > 2 ^ 63 then none else some (-(n : Int))) = inInt64 (-(n : Int)) := by
  unfold inInt64
  by_cases h : n > 2 ^ 63
  · rw [if_pos h, if_neg]
    omega
  · rw [if_neg h, if_pos]
    omega

/-- Refinement: `strconv.ParseInt(s, 10, 0)` succeeds exactly on the decimal integers of the
specification that fit in 64 bits, and returns their value. -/
theorem ParseInt_eq_decimalSpec (s : String) : ParseInt s = decimalSpec s := by
  unfold ParseInt decimalSpec
  rcases s.data with _ | ⟨c, cs⟩
  · simp [decimalNat]
  · simp only [List.head?_cons, Option.some.injEq, List.tail_cons]
    by_cases hm : c = '-'
    · subst hm
      rcases cs with _ | ⟨d, ds⟩
      · simp [decimalNat]
      · simp only [or_true, if_true, decide_True, parseDigits_eq_decimalNat]
        cases decimalNat (d :: ds) with
        | none => rfl
        | some n => exact range_of_neg n
    · by_cases hp : c = '+'
      · subst hp
        rcases cs with _ | ⟨d, ds⟩
        · simp [decimalNat]
        · simp only [true_or, if_true, hm, decide_False, if_false,
            parseDigits_eq_decimalNat]
          cases decimalNat (d :: ds) with
          | none => rfl
          | some n => exact range_of_nonneg n
      · simp only [hp, hm, or_self, if_false, decide_False, parseDigits_eq_decimalNat]
        cases decimalNat (c :: cs) with
        | none => rfl
        | some n => exact range_of_nonneg n

/-- C6: `IsAllowed` holds exactly when the `id` field, decoded as a decimal integer (0 when
the field is missing or is not a decimal integer of 64 bits), is in the identity set, or the
`username` field as it stands (the empty string when it is missing) is in the handle set;
these two values are what `UserID` and `UserName` return. -/
theorem IsAllowed_iff (users : AllowedUsers) (t : AuthTicket) :
    (users.IsAllowed t = true ↔
      ((GoMap.lookup t.parameters "id").bind decimalSpec).getD 0 ∈ users.UserIDs ∨
      (GoMap.lookup t.parameters "username").getD "" ∈ users.UserNames) ∧
    t.UserID = ((GoMap.lookup t.parameters "id").bind decimalSpec).getD 0 ∧
    t.UserName = (GoMap.lookup t.parameters "username").getD "" ∧
    (users.IsAllowed t = true ↔ t.UserID ∈ users.UserIDs ∨ t.UserName ∈ users.UserNames) := by
  have hspec : ParseInt = decimalSpec := funext ParseInt_eq_decimalSpec
  have hid : t.UserID = ((GoMap.lookup t.parameters "id").bind decimalSpec).getD 0 := by
    rw [← hspec]
    unfold AuthTicket.UserID
    cases GoMap.lookup t.parameters "id" with
    | none => rfl
    | some s =>
      cases h : ParseInt s <;> simp [Option.bind, h]
  have hname : t.UserName = (GoMap.lookup t.parameters "username").getD "" := by
    unfold AuthTicket.UserName
    cases GoMap.lookup t.parameters "username" <;> rfl
  have hiff : users.IsAllowed t = true ↔
      t.UserID ∈ users.UserIDs ∨ t.UserName ∈ users.UserNames := by
    unfold AllowedUsers.IsAllowed
    by_cases h1 : t.UserID ∈ users.UserIDs <;> by_cases h2 : t.UserName ∈ users.UserNames <;>
      simp [h1, h2]
  refine ⟨?_, hid, hname, hiff⟩
  rw [← hid, ← hname]
  exact hiff

/-- The handle is compared as it stands: with `alice` on the allow-list, the usernames
`Alice` and `@alice` are not admitted, and `alice` is; the `id` is read in base ten. -/
theorem IsAllowed_exact_example :
    (NewAllowedUsers "alice").IsAllowed (handleTicket "Alice") = false ∧
    (NewAllowedUsers "alice").IsAllowed (handleTicket "@alice") = false ∧
    (NewAllowedUsers "alice").IsAllowed (handleTicket "alice") = true ∧
    (NewAllowedUsers "7").IsAllowed (handleTicket "Alice") = true ∧
    (NewAllowedUsers "007").IsAllowed (handleTicket "Alice") = true ∧
    (NewAllowedUsers "8").IsAllowed (handleTicket "Alice") = false := by
  decide

/-! ## The data-check string and the signature -/

/-- The comparison `lexLess` is the lexicographic order of the code points. -/
theorem lexLess_iff_lex (a b : List Char) :
    lexLess a b = true ↔ List.Lex (fun x y : Char => x < y) a b := by
  induction a generalizing b with
  | nil =>
    cases b with
    | nil => simp [lexLess, List.Lex.not_nil_right]
    | cons y ys => simp [lexLess, List.Lex.nil]
  | cons x xs ih =>
    cases b with
    | nil => simp [lexLess, List.Lex.not_nil_right]
    | cons y ys =>
      unfold lexLess
      by_cases h1 : x.toNat < y.toNat
      · simp only [h1, if_true, true_iff]
        exact List.Lex.rel h1
      · by_cases h2 : y.toNat < x.toNat
        · simp only [h1, h2, if_true, if_false]
          constructor
          · intro h
            cases h
          · intro h
            cases h with
            | cons h' => omega
            | rel h' => exact absurd h' h1
        · have hxy : x = y := Char.ext (UInt32.ext (by
            show x.toNat = y.toNat
            omega))
          subst hxy
          simp only [h1, if_false]
          rw [ih ys, List.Lex.cons_iff]

/-- Go's `a < b` on strings is the order of Lean's strings. -/
theorem stringLess_iff (a b : String) : stringLess a b = true ↔ a < b := by
  rw [String.lt_iff_toList_lt]
  exact lexLess_iff_lex a.data b.data

/-- The order of `sort.Strings` is the order of Lean's strings. -/
theorem stringLE_iff (a b : String) : stringLE a b ↔ a ≤ b := by
  unfold stringLE
  rw [← not_lt, ← stringLess_iff]
  simp

/-- Insertion sort depends on the relation only up to equivalence. -/
theorem insertionSort_congr {α : Type} (r s : α → α → Prop) [DecidableRel r] [DecidableRel s]
    (h : ∀ a b, r a b ↔ s a b) (l : List α) :
    List.insertionSort r l = List.insertionSort s l := by
  have hrs : r = s := funext fun a => funext fun b => propext (h a b)
  subst hrs
  congr

/-- The function `sort.Strings` sorts by the order of Lean's strings. -/
theorem sortStrings_eq (xs : List String) :
    sortStrings xs = List.insertionSort (fun a b : String => a ≤ b) xs :=
  insertionSort_congr _ _ stringLE_iff xs

theorem intercalate_go_eq (sep : String) (l : List String) (acc : String) :
    String.intercalate.go acc sep l = l.foldl (fun b s => b ++ sep ++ s) acc := by
  induction l generalizing acc with
  | nil => rfl
  | cons x xs ih => simp [String.intercalate.go, ih]

/-- The function `strings.Join` puts the separator between the elements. -/
theorem Join_eq_intercalate (xs : List String) (sep : String) :
    Join xs sep = String.intercalate sep xs := by
  cases xs with
  | nil => rfl
  | cons e rest =>
    cases rest with
    | nil => rfl
    | cons e' rest' => simp [Join, String.intercalate, intercalate_go_eq]

theorem parts_foldl_eq (m : GoMap String String) (acc : List String) :
    m.foldl (fun parts e => if e.1 ≠ "hash" then parts ++ [SprintfKV e.1 e.2] else parts) acc =
      acc ++ (m.filter (fun e => decide (e.1 ≠ "hash"))).map (fun e => SprintfKV e.1 e.2) := by
  induction m generalizing acc with
  | nil => simp
  | cons e rest ih =>
    rw [List.foldl_cons, ih]
    by_cases h : e.1 = "hash" <;> simp [h, List.filter_cons]

/-- The lines of the data-check string: one per entry other than `hash`, in the order in
which the map enumerates them. -/
theorem dataCheckStringParts_eq (t : AuthTicket) :
    t.dataCheckStringParts =
      (t.parameters.filter (fun e => decide (e.1 ≠ "hash"))).map (fun e => SprintfKV e.1 e.2) := by
  unfold AuthTicket.dataCheckStringParts
  rw [parts_foldl_eq]
  simp

theorem hexDigit_eq_digitChar (n : Nat) (h : n < 16) : hexDigit n = Nat.digitChar n := by
  interval_cases n <;> rfl

/-- The function `hex.EncodeToString` writes lowercase hexadecimal digits. -/
theorem EncodeToString_eq (bs : List Byte) : EncodeToString bs = lowerHexSpec bs := by
  unfold EncodeToString lowerHexSpec
  congr 1
  induction bs with
  | nil => rfl
  | cons b rest ih =>
    simp only [List.foldr_cons, List.map_cons, List.flatten_cons, ih]
    rw [hexDigit_eq_digitChar _ (by omega), hexDigit_eq_digitChar _ (by omega)]
    rfl

/-- The data-check string of the source is the data-check string of the specification. -/
theorem dataCheckString_eq_spec (t : AuthTicket) : t.dataCheckString = dataCheckStringSpec t := by
  unfold AuthTicket.dataCheckString dataCheckStringSpec
  rw [Join_eq_intercalate, sortStrings_eq, dataCheckStringParts_eq]
  rfl

/-- C3: `CheckSignature` accepts exactly when the value of `hash` (the empty string when the
field is absent) is the lowercase hexadecimal HMAC-SHA256, under the secret, of the lines
`name=value` of all fields but `hash`, sorted as strings and joined by newlines. -/
theorem CheckSignature_iff_spec (hmacSHA256 : HMAC) (t : AuthTicket) (secret : List Byte) :
    t.CheckSignature hmacSHA256 secret = true ↔
      (GoMap.lookup t.parameters "hash").getD "" =
        lowerHexSpec (hmacSHA256 secret (dataCheckStringSpec t)) := by
  unfold AuthTicket.CheckSignature
  simp only [decide_eq_true_eq]
  rw [EncodeToString_eq, dataCheckString_eq_spec]
  have hh : t.hash = (GoMap.lookup t.parameters "hash").getD "" := by
    unfold AuthTicket.hash
    cases GoMap.lookup t.parameters "hash" <;> rfl
  rw [hh]

/-! ## Go maps: lookup, store, remove -/

theorem GoMap.keys_filter {κ ν : Type} (m : GoMap κ ν) (p : κ → Bool) :
    GoMap.keys (m.filter (fun e => p e.1)) = (GoMap.keys m).filter p := by
  induction m with
  | nil => rfl
  | cons e rest ih =>
    simp only [GoMap.keys] at ih ⊢
    by_cases hpa : p e.1 = true <;> simp [List.filter_cons, hpa, ih]

theorem GoMap.nodupKeys_filter {κ ν : Type} (m : GoMap κ ν) (p : κ → Bool)
    (h : GoMap.NodupKeys m) : GoMap.NodupKeys (m.filter (fun e => p e.1)) := by
  unfold GoMap.NodupKeys at *
  rw [GoMap.keys_filter]
  exact h.filter _

namespace GoMap

variable {κ ν : Type} [DecidableEq κ]

theorem lookup_store (m : GoMap κ ν) (k k' : κ) (v : ν) :
    lookup (store m k v) k' = if k = k' then some v else lookup m k' := by
  induction m with
  | nil => simp [store, lookup]
  | cons e rest ih =>
    obtain ⟨a, b⟩ := e
    unfold store
    by_cases h : a = k
    · subst h
      by_cases h' : a = k' <;> simp [lookup, h']
    · by_cases h' : a = k'
      · subst h'
        have hk : ¬ k = a := fun hk => h hk.symm
        simp [lookup, h, hk]
      · simp [lookup, h, h', ih]

theorem keys_store (m : GoMap κ ν) (k : κ) (v : ν) :
    keys (store m k v) = if k ∈ keys m then keys m else keys m ++ [k] := by
  induction m with
  | nil => simp [store, keys]
  | cons e rest ih =>
    obtain ⟨a, b⟩ := e
    unfold store
    by_cases h : a = k
    · subst h
      simp [keys]
    · have hk : ¬ k = a := fun hk => h hk.symm
      simp only [h, if_false]
      have ih' := ih
      simp only [keys] at ih' ⊢
      simp only [List.map_cons, List.mem_cons, hk, false_or, ih']
      split_ifs <;> simp

theorem nodupKeys_store (m : GoMap κ ν) (k : κ) (v : ν) (h : NodupKeys m) :
    NodupKeys (store m k v) := by
  unfold NodupKeys at *
  rw [keys_store]
  split_ifs with hk
  · exact h
  · exact List.Nodup.append h (List.nodup_singleton k) (by simpa using hk)

theorem lookup_eq_none_iff (m : GoMap κ ν) (k : κ) : lookup m k = none ↔ k ∉ keys m := by
  induction m with
  | nil => simp [lookup, keys]
  | cons e rest ih =>
    obtain ⟨a, b⟩ := e
    by_cases h : a = k
    · simp [lookup, keys, h]
    · have hk : ¬ k = a := fun hk => h hk.symm
      simp only [lookup, h, if_false, ih]
      simp [keys, hk]

theorem lookup_isSome_iff (m : GoMap κ ν) (k : κ) : (lookup m k).isSome = true ↔ k ∈ keys m := by
  rw [← not_iff_not, ← lookup_eq_none_iff]
  cases lookup m k <;> simp

theorem lookup_eq_some_iff (m : GoMap κ ν) (h : NodupKeys m) (k : κ) (v : ν) :
    lookup m k = some v ↔ (k, v) ∈ m := by
  induction m with
  | nil => simp [lookup]
  | cons e rest ih =>
    obtain ⟨a, b⟩ := e
    have hn : a ∉ keys rest ∧ NodupKeys rest := by
      simpa [NodupKeys, keys] using h
    by_cases hk : a = k
    · subst hk
      simp only [lookup, if_true, List.mem_cons, Prod.mk.injEq, true_and, Option.some.injEq]
      constructor
      · intro hb
        exact Or.inl hb.symm
      · rintro (hb | hmem)
        · exact hb.symm
        · exact absurd (List.mem_map_of_mem Prod.fst hmem) hn.1
    · have hk' : ¬ k = a := fun hk' => hk hk'.symm
      simp [lookup, hk, hk', ih hn.2]

theorem lookup_perm (m m' : GoMap κ ν) (hp : List.Perm m m') (h : NodupKeys m) (k : κ) :
    lookup m k = lookup m' k := by
  have h' : NodupKeys m' := (List.Perm.nodup_iff (hp.map Prod.fst)).mp h
  cases hv : lookup m' k with
  | none =>
    rw [lookup_eq_none_iff] at hv ⊢
    intro hk
    exact hv ((hp.map Prod.fst).mem_iff.mp hk)
  | some v =>
    rw [lookup_eq_some_iff _ h'] at hv
    rw [lookup_eq_some_iff _ h]
    exact hp.mem_iff.mpr hv

theorem lookup_filter (m : GoMap κ ν) (p : κ → Bool) (k : κ) :
    lookup (m.filter (fun e => p e.1)) k = if p k then lookup m k else none := by
  induction m with
  | nil => simp [lookup]
  | cons e rest ih =>
    obtain ⟨a, b⟩ := e
    by_cases hpa : p a = true
    · simp only [List.filter_cons, hpa, if_true, lookup, ih]
      by_cases hk : a = k
      · subst hk
        simp [hpa]
      · simp [hk]
    · have hpa' : p a = false := by simpa using hpa
      simp only [List.filter_cons, hpa', lookup]
      rw [if_neg (by simp), ih]
      by_cases hk : a = k
      · subst hk
        simp [hpa']
      · simp [hk]

end GoMap

/-! ## The ticket of a login request -/

theorem lookup_add (m : Values) (k v k' : String) :
    GoMap.lookup (Values.add m k v) k' =
      if k = k' then some ((GoMap.lookup m k).getD [] ++ [v]) else GoMap.lookup m k' := by
  unfold Values.add
  rw [GoMap.lookup_store]

theorem lookup_foldl_add (pairs : List (String × String)) (m : Values) (k : String) :
    GoMap.lookup (pairs.foldl (fun m p => Values.add m p.1 p.2) m) k =
      if pairs.filter (fun p => decide (p.1 = k)) = [] then GoMap.lookup m k
      else some ((GoMap.lookup m k).getD [] ++
        (pairs.filter (fun p => decide (p.1 = k))).map Prod.snd) := by
  induction pairs generalizing m with
  | nil => simp
  | cons p rest ih =>
    rw [List.foldl_cons, ih, lookup_add]
    by_cases hp : p.1 = k
    · subst hp
      by_cases hr : rest.filter (fun q => decide (q.1 = p.1)) = []
      · simp [List.filter_cons, hr]
      · simp [List.filter_cons, hr]
    · have hf : List.filter (fun q : String × String => decide (q.1 = k)) (p :: rest) =
          List.filter (fun q : String × String => decide (q.1 = k)) rest := by
        simp [List.filter_cons, hp]
      rw [hf]
      simp [hp]

theorem nodupKeys_foldl_add (pairs : List (String × String)) (m : Values)
    (h : GoMap.NodupKeys m) :
    GoMap.NodupKeys (pairs.foldl (fun m p => Values.add m p.1 p.2) m) := by
  induction pairs generalizing m with
  | nil => exact h
  | cons p rest ih =>
    rw [List.foldl_cons]
    exact ih _ (GoMap.nodupKeys_store _ _ _ h)

/-- The map `Query` holds, under every name that occurs, the values given for it in order. -/
theorem lookup_Query (pairs : List (String × String)) (k : String) :
    GoMap.lookup (Query pairs) k =
      if pairs.filter (fun p => decide (p.1 = k)) = [] then none
      else some ((pairs.filter (fun p => decide (p.1 = k))).map Prod.snd) := by
  unfold Query
  rw [lookup_foldl_add]
  simp [GoMap.lookup]

theorem nodupKeys_Query (pairs : List (String × String)) : GoMap.NodupKeys (Query pairs) :=
  nodupKeys_foldl_add pairs [] (by simp [GoMap.NodupKeys, GoMap.keys])

/-- No name of `Query` has an empty list of values. -/
theorem Query_nonempty (pairs : List (String × String)) (e : String × List String)
    (he : e ∈ Query pairs) : e.2 ≠ [] := by
  obtain ⟨k, vs⟩ := e
  have h := (GoMap.lookup_eq_some_iff _ (nodupKeys_Query pairs) k vs).mpr he
  rw [lookup_Query] at h
  split_ifs at h with hf
  simp only [Option.some.injEq] at h
  intro hvs
  apply hf
  simp only at hvs
  rw [hvs] at h
  simpa using h

/-- The loop over the query does not panic when no list of values is empty, and then
stores the first value of every name. -/
theorem firstValues_ok (q : Values) (acc : GoMap String String)
    (hne : ∀ e ∈ q, e.2 ≠ []) (hq : GoMap.NodupKeys q) (hacc : GoMap.NodupKeys acc) :
    ∃ params, firstValues q acc = .ok params ∧ GoMap.NodupKeys params ∧
      ∀ k, GoMap.lookup params k =
        match GoMap.lookup q k with
        | some vs => vs.head?
        | none => GoMap.lookup acc k := by
  induction q generalizing acc with
  | nil => exact ⟨acc, rfl, hacc, fun k => rfl⟩
  | cons e rest ih =>
    obtain ⟨k0, vs⟩ := e
    have hn : k0 ∉ GoMap.keys rest ∧ GoMap.NodupKeys rest := by
      simpa [GoMap.NodupKeys, GoMap.keys] using hq
    cases vs with
    | nil => exact absurd rfl (hne (k0, []) (List.mem_cons_self _ _))
    | cons v0 vs' =>
      obtain ⟨params, hok, hnd, hl⟩ :=
        ih (GoMap.store acc k0 v0) (fun e he => hne e (List.mem_cons_of_mem _ he)) hn.2
          (GoMap.nodupKeys_store _ _ _ hacc)
      refine ⟨params, hok, hnd, fun k => ?_⟩
      rw [hl k]
      by_cases hk : k0 = k
      · subst hk
        have hnone : GoMap.lookup rest k0 = none := (GoMap.lookup_eq_none_iff _ _).mpr hn.1
        simp [hnone, GoMap.lookup, GoMap.lookup_store]
      · simp [GoMap.lookup, hk, GoMap.lookup_store]

theorem foldl_remove (R ks : List String) (acc : GoMap String String) :
    ks.foldl (fun m k => if k ∈ R then m else GoMap.remove m k) acc =
      acc.filter (fun e => decide (e.1 ∈ R ∨ e.1 ∉ ks)) := by
  induction ks generalizing acc with
  | nil => simp
  | cons k rest ih =>
    rw [List.foldl_cons, ih]
    by_cases hk : k ∈ R
    · simp only [hk, if_true]
      apply List.filter_congr
      intro e _
      by_cases he : e.1 = k
      · simp [he, hk]
      · simp [he]
    · simp only [hk, if_false, GoMap.remove, List.filter_filter]
      apply List.filter_congr
      intro e _
      by_cases he : e.1 = k
      · simp [he, hk]
      · simp [he]

/-- Normalization keeps exactly the entries with a recognized name, in their order. -/
theorem sanitizeParameters_eq (t : AuthTicket) :
    t.sanitizeParameters =
      ⟨t.parameters.filter (fun e => decide (e.1 ∈ AuthTicket.recognized))⟩ := by
  unfold AuthTicket.sanitizeParameters
  rw [foldl_remove]
  congr 1
  apply List.filter_congr
  intro e he
  have hmem : e.1 ∈ GoMap.keys t.parameters := List.mem_map_of_mem Prod.fst he
  simp [hmem]

/-- A ticket is well-formed when its four required fields are present. -/
theorem areParametersWellFormed_iff (t : AuthTicket) :
    t.areParametersWellFormed = true ↔
      "id" ∈ GoMap.keys t.parameters ∧ "username" ∈ GoMap.keys t.parameters ∧
      "auth_date" ∈ GoMap.keys t.parameters ∧ "hash" ∈ GoMap.keys t.parameters := by
  unfold AuthTicket.areParametersWellFormed
  simp only [← GoMap.lookup_isSome_iff]
  cases GoMap.lookup t.parameters "id" <;> cases GoMap.lookup t.parameters "username" <;>
    cases GoMap.lookup t.parameters "auth_date" <;> cases GoMap.lookup t.parameters "hash" <;>
    simp

theorem head?_filter_eq_find? {α : Type} (p : α → Bool) (l : List α) :
    (l.filter p).head? = l.find? p := by
  induction l with
  | nil => rfl
  | cons a rest ih =>
    by_cases h : p a = true
    · simp [List.filter_cons, List.find?_cons, h]
    · have h' : p a = false := by simpa using h
      simp [List.filter_cons, List.find?_cons, h', ih]

theorem head?_values (pairs : List (String × String)) (k : String) :
    (match GoMap.lookup (Query pairs) k with
      | some vs => vs.head?
      | none => (none : Option String)) = firstValueOf pairs k := by
  rw [lookup_Query]
  unfold firstValueOf
  by_cases hf : pairs.filter (fun p => decide (p.1 = k)) = []
  · have hnone : pairs.find? (fun p => decide (p.1 = k)) = none := by
      rw [← head?_filter_eq_find?, hf]
      rfl
    simp [hf, hnone]
  · simp only [hf, if_false]
    rw [List.head?_map, head?_filter_eq_find?]

theorem firstValueOf_isSome (pairs : List (String × String)) (k : String) :
    (firstValueOf pairs k).isSome = true ↔ k ∈ pairs.map Prod.fst := by
  unfold firstValueOf
  simp only [Option.isSome_map', List.find?_isSome, decide_eq_true_eq, List.mem_map]

/-- C8: on the query of any URL, in any enumeration order, `AuthTicketFromURL` does not
panic; it returns a ticket exactly when `id`, `username`, `auth_date` and `hash` are among
the parameter names; the ticket holds every recognized name that occurs, once, with the
first value given for it, and no other name. -/
theorem AuthTicketFromURL_spec (pairs : List (String × String)) (query : Values)
    (hquery : List.Perm query (Query pairs)) :
    ∃ r, AuthTicketFromURL query = .ok r ∧
      (r.isSome = true ↔
        "id" ∈ pairs.map Prod.fst ∧ "username" ∈ pairs.map Prod.fst ∧
        "auth_date" ∈ pairs.map Prod.fst ∧ "hash" ∈ pairs.map Prod.fst) ∧
      ∀ t, r = some t →
        GoMap.NodupKeys t.parameters ∧
        ∀ name, GoMap.lookup t.parameters name =
          if name ∈ AuthTicket.recognized then firstValueOf pairs name else none := by
  have hqnd : GoMap.NodupKeys query :=
    (List.Perm.nodup_iff (hquery.map Prod.fst)).mpr (nodupKeys_Query pairs)
  have hne : ∀ e ∈ query, e.2 ≠ [] := fun e he =>
    Query_nonempty pairs e (hquery.mem_iff.mp he)
  obtain ⟨params, hok, hnd, hl⟩ :=
    firstValues_ok query [] hne hqnd (by simp [GoMap.NodupKeys, GoMap.keys])
  have hparams : ∀ k, GoMap.lookup params k = firstValueOf pairs k := by
    intro k
    rw [hl k, GoMap.lookup_perm query (Query pairs) hquery hqnd k, ← head?_values]
    cases GoMap.lookup (Query pairs) k <;> rfl
  have hsan : ∀ k, GoMap.lookup (AuthTicket.mk params).sanitizeParameters.parameters k =
      if k ∈ AuthTicket.recognized then firstValueOf pairs k else none := by
    intro k
    rw [sanitizeParameters_eq]
    simp only
    rw [GoMap.lookup_filter params (fun k => decide (k ∈ AuthTicket.recognized)) k, hparams]
    simp
  have hsnd : GoMap.NodupKeys (AuthTicket.mk params).sanitizeParameters.parameters := by
    rw [sanitizeParameters_eq]
    exact GoMap.nodupKeys_filter params (fun k => decide (k ∈ AuthTicket.recognized)) hnd
  have hkey : ∀ k, k ∈ AuthTicket.recognized →
      (k ∈ GoMap.keys (AuthTicket.mk params).sanitizeParameters.parameters ↔
        k ∈ pairs.map Prod.fst) := by
    intro k hk
    rw [← GoMap.lookup_isSome_iff, hsan k, if_pos hk, firstValueOf_isSome]
  have hwf : (AuthTicket.mk params).sanitizeParameters.areParametersWellFormed = true ↔
      "id" ∈ pairs.map Prod.fst ∧ "username" ∈ pairs.map Prod.fst ∧
      "auth_date" ∈ pairs.map Prod.fst ∧ "hash" ∈ pairs.map Prod.fst := by
    rw [areParametersWellFormed_iff, hkey "id" (by decide), hkey "username" (by decide),
      hkey "auth_date" (by decide), hkey "hash" (by decide)]
  unfold AuthTicketFromURL
  rw [hok]
  simp only
  by_cases hw : (AuthTicket.mk params).sanitizeParameters.areParametersWellFormed = true
  · refine ⟨some (AuthTicket.mk params).sanitizeParameters, by simp [hw], ?_, ?_⟩
    · simp only [Option.isSome_some, true_iff]
      exact hwf.mp hw
    · intro t ht
      cases ht
      exact ⟨hsnd, hsan⟩
  · refine ⟨none, by simp [hw], ?_, ?_⟩
    · rw [← hwf]
      simp [hw]
    · intro t ht
      cases ht

/-- The query `id=5&x=y&id=6&username=al&hash=xx&auth_date=100`, enumerated from its last
name to its first, gives the ticket with the first `id`. -/
theorem AuthTicketFromURL_spec_witness :
    List.Perm (Query samplePairs).reverse (Query samplePairs) ∧
    AuthTicketFromURL (Query samplePairs).reverse =
      .ok (some ⟨[("auth_date", "100"), ("hash", "xx"), ("username", "al"), ("id", "5")]⟩) ∧
    ∃ r, AuthTicketFromURL (Query samplePairs).reverse = .ok r ∧
      (r.isSome = true ↔
        "id" ∈ samplePairs.map Prod.fst ∧ "username" ∈ samplePairs.map Prod.fst ∧
        "auth_date" ∈ samplePairs.map Prod.fst ∧ "hash" ∈ samplePairs.map Prod.fst) ∧
      ∀ t, r = some t →
        GoMap.NodupKeys t.parameters ∧
        ∀ name, GoMap.lookup t.parameters name =
          if name ∈ AuthTicket.recognized then firstValueOf samplePairs name else none :=
  ⟨List.reverse_perm _, by rfl,
    AuthTicketFromURL_spec samplePairs (Query samplePairs).reverse (List.reverse_perm _)⟩

/-! ## The allow-list -/

theorem fieldsScan_eq (f : Char → Bool) (cs : List Char) :
    (∀ acc, fieldsScan f cs none acc =
      acc.reverse ++ ((cs.splitOnP f).filter (fun piece => decide (piece ≠ []))).map String.mk) ∧
    (∀ cur acc, cur ≠ [] → fieldsScan f cs (some cur) acc =
      acc.reverse ++ (((cs.splitOnP f).modifyHead (fun piece => cur.reverse ++ piece)).filter
        (fun piece => decide (piece ≠ []))).map String.mk) := by
  induction cs with
  | nil =>
    refine ⟨fun acc => ?_, fun cur acc hcur => ?_⟩
    · simp [fieldsScan, List.splitOnP_nil]
    · simp [fieldsScan, List.splitOnP_nil, hcur]
  | cons c rest ih =>
    obtain ⟨ih1, ih2⟩ := ih
    refine ⟨fun acc => ?_, fun cur acc hcur => ?_⟩
    · rw [List.splitOnP_cons]
      by_cases hc : f c = true
      · simp [fieldsScan, hc, ih1]
      · have hc' : f c = false := by simpa using hc
        simp only [fieldsScan, hc', Bool.false_eq_true, if_false]
        rw [ih2 [c] acc (by simp)]
        rfl
    · rw [List.splitOnP_cons]
      by_cases hc : f c = true
      · simp [fieldsScan, hc, ih1, hcur]
      · have hc' : f c = false := by simpa using hc
        simp only [fieldsScan, hc', Bool.false_eq_true, if_false]
        rw [ih2 (c :: cur) acc (by simp), List.modifyHead_modifyHead]
        congr 4
        funext piece
        simp

/-- The function `strings.FieldsFunc` returns the maximal runs of non-separators. -/
theorem FieldsFunc_eq_tokensSpec (raw : String) :
    FieldsFunc raw isSeparator = tokensSpec raw := by
  unfold FieldsFunc tokensSpec
  rw [(fieldsScan_eq isSeparator raw.data).1 []]
  simp

theorem mem_setAdd {α : Type} [DecidableEq α] (s : List α) (x y : α) :
    y ∈ setAdd s x ↔ y ∈ s ∨ y = x := by
  unfold setAdd
  split_ifs with h
  · constructor
    · exact Or.inl
    · rintro (h' | rfl)
      · exact h'
      · exact h
  · simp

theorem mem_UserIDs_foldl (toks : List String) (users : AllowedUsers) (i : Int) :
    i ∈ (toks.foldl addAllowedUser users).UserIDs ↔
      i ∈ users.UserIDs ∨ ∃ tok ∈ toks, ParseInt (TrimSpace tok) = some i := by
  induction toks generalizing users with
  | nil => simp
  | cons tok rest ih =>
    rw [List.foldl_cons, ih]
    unfold addAllowedUser
    cases hp : ParseInt (TrimSpace tok) with
    | none => simp [hp]
    | some j =>
      simp only [mem_setAdd, List.mem_cons, exists_eq_or_imp, hp, Option.some.injEq]
      constructor
      · rintro ((h | h) | h)
        · exact Or.inl h
        · exact Or.inr (Or.inl h.symm)
        · exact Or.inr (Or.inr h)
      · rintro (h | h | h)
        · exact Or.inl (Or.inl h)
        · exact Or.inl (Or.inr h.symm)
        · exact Or.inr h

theorem mem_UserNames_foldl (toks : List String) (users : AllowedUsers) (h : String) :
    h ∈ (toks.foldl addAllowedUser users).UserNames ↔
      h ∈ users.UserNames ∨
        ∃ tok ∈ toks, ParseInt (TrimSpace tok) = none ∧ h = handleOf (TrimSpace tok) := by
  induction toks generalizing users with
  | nil => simp
  | cons tok rest ih =>
    rw [List.foldl_cons, ih]
    unfold addAllowedUser
    cases hp : ParseInt (TrimSpace tok) with
    | some j => simp [hp]
    | none =>
      simp only [mem_setAdd, List.mem_cons, exists_eq_or_imp, hp, true_and]
      constructor
      · rintro ((h' | h') | h')
        · exact Or.inl h'
        · exact Or.inr (Or.inl h')
        · exact Or.inr (Or.inr h')
      · rintro (h' | h' | h')
        · exact Or.inl (Or.inl h')
        · exact Or.inl (Or.inr h')
        · exact Or.inr h'

/-- C9, amended: `NewAllowedUsers` splits the string into the maximal runs of characters
other than comma, semicolon and space and trims the white space around each token; the
identity set holds the numbers of the trimmed tokens that parse as decimal integers, the
handle set holds the handles of the other trimmed tokens (one leading `@`, `t.me/`,
`http://t.me/`, `https://t.me/` removed, in this order); the string
`123, @alice; https://t.me/bob` gives the identity 123 and the handles alice and bob. -/
theorem NewAllowedUsers_spec (raw : String) :
    FieldsFunc raw isSeparator = tokensSpec raw ∧
    (∀ i, i ∈ (NewAllowedUsers raw).UserIDs ↔
      ∃ tok ∈ tokensSpec raw, ParseInt (TrimSpace tok) = some i) ∧
    (∀ h, h ∈ (NewAllowedUsers raw).UserNames ↔
      ∃ tok ∈ tokensSpec raw, ParseInt (TrimSpace tok) = none ∧ h = handleOf (TrimSpace tok)) ∧
    NewAllowedUsers "123, @alice; https://t.me/bob" = ⟨[123], ["alice", "bob"]⟩ := by
  refine ⟨FieldsFunc_eq_tokensSpec raw, fun i => ?_, fun h => ?_, by decide⟩
  · unfold NewAllowedUsers
    rw [mem_UserIDs_foldl, FieldsFunc_eq_tokensSpec]
    simp
  · unfold NewAllowedUsers
    rw [mem_UserNames_foldl, FieldsFunc_eq_tokensSpec]
    simp

/-- C9 fails as stated: the only token of the string made of a tab and `123` is that
string, which does not parse as a decimal integer; yet the identity set receives 123 and
the handle set stays empty. -/
theorem NewAllowedUsers_counterexample :
    FieldsFunc "\t123" isSeparator = ["\t123"] ∧
    ParseInt "\t123" = none ∧
    handleOf "\t123" = "\t123" ∧
    NewAllowedUsers "\t123" = ⟨[123], []⟩ := by
  decide

/-! ## Joined lines -/

theorem Join_cons (e : String) (rest : List String) (sep : String) :
    Join (e :: rest) sep = rest.foldl (fun b s => b ++ sep ++ s) e := by
  cases rest <;> rfl

theorem foldl_sep (rest : List String) (sep e : String) :
    rest.foldl (fun b s => b ++ sep ++ s) e = e ++ joinTail rest sep := by
  unfold joinTail
  induction rest generalizing e with
  | nil => simp
  | cons x xs ih =>
    rw [List.foldl_cons, List.foldl_cons, ih, ih ("" ++ sep ++ x)]
    simp [String.append_assoc]

theorem joinTail_append_cons (A B : List String) (x sep : String) :
    joinTail (A ++ x :: B) sep = joinTail A sep ++ sep ++ x ++ joinTail B sep := by
  unfold joinTail
  rw [List.foldl_append, List.foldl_cons, foldl_sep B]
  rfl

/-- The string `strings.Join` builds around one of its elements. -/
theorem Join_append_cons (A B : List String) (x sep : String) :
    Join (A ++ x :: B) sep = joinHead A sep ++ x ++ joinTail B sep := by
  cases A with
  | nil =>
    rw [List.nil_append, Join_cons, foldl_sep]
    simp [joinHead]
  | cons a A' =>
    rw [List.cons_append, Join_cons, foldl_sep, joinTail_append_cons]
    simp [joinHead, String.append_assoc]

theorem append_cancel_mid (a b x y : String) (h : a ++ x ++ b = a ++ y ++ b) :
    x = y := by
  have hd := congrArg String.data h
  simp only [String.data_append] at hd
  exact String.ext (List.append_cancel_left (List.append_cancel_right hd))

/-- Two lists of lines that differ in one place are joined to different strings. -/
theorem Join_injective_at (A B : List String) (x y sep : String)
    (h : Join (A ++ x :: B) sep = Join (A ++ y :: B) sep) : x = y := by
  rw [Join_append_cons, Join_append_cons] at h
  exact append_cancel_mid _ _ _ _ h

theorem SprintfKV_injective (k v v' : String) (h : SprintfKV k v = SprintfKV k v') : v = v' := by
  unfold SprintfKV at h
  have hd := congrArg String.data h
  simp only [String.data_append] at hd
  exact String.ext (List.append_cancel_left hd)

/-! ## Hexadecimal digits -/

theorem hexDigit_injective (n m : Nat) (hn : n < 16) (hm : m < 16)
    (h : hexDigit n = hexDigit m) : n = m := by
  interval_cases n <;> interval_cases m <;> first | rfl | (revert h; decide)

/-- The function `hex.EncodeToString` is injective. -/
theorem EncodeToString_injective (bs cs : List Byte)
    (h : EncodeToString bs = EncodeToString cs) : bs = cs := by
  have hd := congrArg String.data h
  simp only [EncodeToString] at hd
  clear h
  induction bs generalizing cs with
  | nil =>
    cases cs with
    | nil => rfl
    | cons c cs' => simp at hd
  | cons b bs' ih =>
    cases cs with
    | nil => simp at hd
    | cons c cs' =>
      simp only [List.foldr_cons, List.cons.injEq] at hd
      obtain ⟨h1, h2, h3⟩ := hd
      have e1 := hexDigit_injective _ _ (by omega) (by omega) h1
      have e2 := hexDigit_injective _ _ (by omega) (by omega) h2
      have hbc : b = c := by
        apply Fin.ext
        omega
      rw [hbc, ih cs' h3]

/-! ## The data-check string of a normalized ticket -/

theorem SprintfKV_le_of_headLess (k k' v v' : String) (h : headLess k k' = true) :
    SprintfKV k v ≤ SprintfKV k' v' := by
  rw [← stringLE_iff]
  unfold stringLE stringLess SprintfKV
  unfold headLess at h
  simp only [String.data_append]
  cases hk : k.data with
  | nil => simp [hk] at h
  | cons c cs =>
    cases hk' : k'.data with
    | nil => simp [hk, hk'] at h
    | cons d ds =>
      simp only [hk, hk', decide_eq_true_eq] at h
      simp only [List.cons_append, lexLess]
      rw [if_neg (by omega), if_pos h]

theorem signedNames_pairwise :
    List.Pairwise (fun k k' => headLess k k' = true) signedNames := by
  decide

theorem mem_signedNames_iff (k : String) :
    k ∈ signedNames ↔ k ∈ AuthTicket.recognized ∧ k ≠ "hash" := by
  simp only [signedNames, AuthTicket.recognized, List.mem_cons, List.mem_singleton,
    List.not_mem_nil, or_false]
  constructor
  · rintro (h | h | h | h | h | h) <;> subst h <;> decide
  · rintro ⟨h | h | h | h | h | h | h, hne⟩ <;> first | exact absurd h hne | simp [h]

/-- The lines in the order of their names are sorted. -/
theorem canonicalLines_sorted (t : AuthTicket) :
    List.Sorted (fun a b : String => a ≤ b) (canonicalLines t) := by
  unfold canonicalLines
  refine List.Pairwise.filterMap _ ?_ signedNames_pairwise
  intro k k' hkk' b hb b' hb'
  simp only [Option.mem_def, Option.map_eq_some'] at hb hb'
  obtain ⟨v, _, rfl⟩ := hb
  obtain ⟨v', _, rfl⟩ := hb'
  exact SprintfKV_le_of_headLess k k' v v' hkk'

/-- The entries of a normalized ticket other than `hash` are, up to their order, the
recognized names that have a value. -/
theorem signed_entries_perm (t : AuthTicket) (hnd : GoMap.NodupKeys t.parameters)
    (hnorm : ∀ k ∈ GoMap.keys t.parameters, k ∈ AuthTicket.recognized) :
    List.Perm (t.parameters.filter (fun e => decide (e.1 ≠ "hash")))
      (signedNames.filterMap (fun k => (GoMap.lookup t.parameters k).map (Prod.mk k))) := by
  have hnd1 : (t.parameters.filter (fun e => decide (e.1 ≠ "hash"))).Nodup :=
    (List.Nodup.of_map Prod.fst hnd).filter _
  have hnd2 : (signedNames.filterMap
      (fun k => (GoMap.lookup t.parameters k).map (Prod.mk k))).Nodup := by
    refine List.Nodup.filterMap ?_ (by decide)
    intro a a' b hb hb'
    simp only [Option.mem_def, Option.map_eq_some'] at hb hb'
    obtain ⟨v, _, rfl⟩ := hb
    obtain ⟨v', _, h⟩ := hb'
    exact (congrArg Prod.fst h).symm
  rw [List.perm_ext_iff_of_nodup hnd1 hnd2]
  rintro ⟨k, v⟩
  simp only [List.mem_filter, decide_eq_true_eq, List.mem_filterMap, Option.map_eq_some',
    Prod.mk.injEq]
  constructor
  · rintro ⟨hmem, hne⟩
    refine ⟨k, ?_, v, (GoMap.lookup_eq_some_iff _ hnd k v).mpr hmem, rfl, rfl⟩
    exact (mem_signedNames_iff k).mpr ⟨hnorm k (List.mem_map_of_mem Prod.fst hmem), hne⟩
  · rintro ⟨k0, hk0, v0, hl, rfl, rfl⟩
    exact ⟨(GoMap.lookup_eq_some_iff _ hnd k0 v0).mp hl, ((mem_signedNames_iff k0).mp hk0).2⟩

/-- The data-check string of a normalized ticket: its lines in the order of their names. -/
theorem dataCheckString_canonical (t : AuthTicket) (hnd : GoMap.NodupKeys t.parameters)
    (hnorm : ∀ k ∈ GoMap.keys t.parameters, k ∈ AuthTicket.recognized) :
    t.dataCheckString = Join (canonicalLines t) "\n" := by
  unfold AuthTicket.dataCheckString
  congr 1
  rw [sortStrings_eq, dataCheckStringParts_eq]
  apply List.eq_of_perm_of_sorted (r := fun a b : String => a ≤ b)
  · refine (List.perm_insertionSort _ _).trans ?_
    have h := (signed_entries_perm t hnd hnorm).map (fun e => SprintfKV e.1 e.2)
    refine h.trans ?_
    unfold canonicalLines
    rw [List.map_filterMap]
    apply List.Perm.of_eq
    apply List.filterMap_congr
    intro k _
    cases GoMap.lookup t.parameters k <;> rfl
  · exact List.sorted_insertionSort _ _
  · exact canonicalLines_sorted t

/-! ## Tampering with one field -/

theorem GoMap.keys_store_of_mem {κ ν : Type} [DecidableEq κ] (m : GoMap κ ν) (k : κ) (v : ν)
    (h : k ∈ GoMap.keys m) : GoMap.keys (GoMap.store m k v) = GoMap.keys m := by
  rw [GoMap.keys_store, if_pos h]

theorem filter_ne_store {κ ν : Type} [DecidableEq κ] (m : GoMap κ ν) (k : κ) (v : ν) :
    (GoMap.store m k v).filter (fun e => decide (e.1 ≠ k)) =
      m.filter (fun e => decide (e.1 ≠ k)) := by
  induction m with
  | nil => simp [GoMap.store]
  | cons e rest ih =>
    obtain ⟨a, b⟩ := e
    unfold GoMap.store
    by_cases h : a = k
    · simp [h, List.filter_cons]
    · simp only [h, if_false, List.filter_cons]
      rw [ih]

/-- Changing the value of `hash` leaves the data-check string as it is. -/
theorem dataCheckString_store_hash (t : AuthTicket) (v : String) :
    (AuthTicket.mk (GoMap.store t.parameters "hash" v)).dataCheckString = t.dataCheckString := by
  unfold AuthTicket.dataCheckString
  rw [dataCheckStringParts_eq, dataCheckStringParts_eq, filter_ne_store]

/-- Changing the value of a recognized field other than `hash` changes the data-check
string of a normalized ticket. -/
theorem dataCheckString_store_ne (t : AuthTicket) (name value value' : String)
    (hnd : GoMap.NodupKeys t.parameters)
    (hnorm : ∀ k ∈ GoMap.keys t.parameters, k ∈ AuthTicket.recognized)
    (hname : name ∈ signedNames)
    (hold : GoMap.lookup t.parameters name = some value) (hne : value' ≠ value) :
    (AuthTicket.mk (GoMap.store t.parameters name value')).dataCheckString ≠
      t.dataCheckString := by
  have hmem : name ∈ GoMap.keys t.parameters := by
    rw [← GoMap.lookup_isSome_iff, hold]
    rfl
  have hkeys := GoMap.keys_store_of_mem t.parameters name value' hmem
  rw [dataCheckString_canonical t hnd hnorm,
    dataCheckString_canonical ⟨GoMap.store t.parameters name value'⟩
      (GoMap.nodupKeys_store _ _ _ hnd) (by
        intro k hk
        rw [hkeys] at hk
        exact hnorm k hk)]
  obtain ⟨l₁, l₂, hsplit⟩ := List.append_of_mem hname
  have hnodup : (l₁ ++ name :: l₂).Nodup := by
    rw [← hsplit]
    decide
  have hn1 : name ∉ l₁ := fun h =>
    (List.nodup_append.mp hnodup).2.2 h (List.mem_cons_self _ _)
  have hn2 : name ∉ l₂ := (List.nodup_cons.mp (List.nodup_append.mp hnodup).2.1).1
  have hcongr : ∀ l : List String, name ∉ l →
      l.filterMap (fun k => (GoMap.lookup (GoMap.store t.parameters name value') k).map
        (SprintfKV k)) =
      l.filterMap (fun k => (GoMap.lookup t.parameters k).map (SprintfKV k)) := by
    intro l hl
    apply List.filterMap_congr
    intro k hk
    have hkn : ¬ name = k := fun h => hl (h ▸ hk)
    rw [GoMap.lookup_store, if_neg hkn]
  have hnew : GoMap.lookup (GoMap.store t.parameters name value') name = some value' := by
    rw [GoMap.lookup_store, if_pos rfl]
  unfold canonicalLines
  simp only [hsplit, List.filterMap_append, List.filterMap_cons, hnew, hold, Option.map_some',
    hcongr l₁ hn1, hcongr l₂ hn2]
  intro h
  exact hne (SprintfKV_injective name value' value (Join_injective_at _ _ _ _ _ h))

/-- C7, amended: in a normalized ticket that `CheckSignature` accepts, changing the value of
one recognized field to a different value gives a ticket that `CheckSignature` rejects
under the same secret, unless HMAC-SHA256 maps the changed data-check string to the code of
the original one.  A changed `hash` is always rejected; a change of another recognized field
changes the data-check string, and the new ticket is accepted exactly when the two
data-check strings have the same HMAC-SHA256 code. -/
theorem CheckSignature_tampered (hmacSHA256 : HMAC) (secret : List Byte) (t : AuthTicket)
    (name value value' : String)
    (hnd : GoMap.NodupKeys t.parameters)
    (hnorm : ∀ k ∈ GoMap.keys t.parameters, k ∈ AuthTicket.recognized)
    (hname : name ∈ AuthTicket.recognized)
    (hold : GoMap.lookup t.parameters name = some value) (hne : value' ≠ value)
    (hsig : t.CheckSignature hmacSHA256 secret = true) :
    (name = "hash" →
      (AuthTicket.mk (GoMap.store t.parameters name value')).CheckSignature hmacSHA256 secret =
        false) ∧
    (name ≠ "hash" →
      (AuthTicket.mk (GoMap.store t.parameters name value')).dataCheckString ≠
        t.dataCheckString ∧
      ((AuthTicket.mk (GoMap.store t.parameters name value')).CheckSignature hmacSHA256 secret =
          true ↔
        hmacSHA256 secret (AuthTicket.mk (GoMap.store t.parameters name value')).dataCheckString =
          hmacSHA256 secret t.dataCheckString)) := by
  unfold AuthTicket.CheckSignature at hsig ⊢
  simp only [decide_eq_true_eq] at hsig
  simp only [decide_eq_false_iff_not, decide_eq_true_eq]
  constructor
  · intro hh
    subst hh
    have hv : t.hash = value := by
      unfold AuthTicket.hash
      rw [hold]
    have hv' : (AuthTicket.mk (GoMap.store t.parameters "hash" value')).hash = value' := by
      unfold AuthTicket.hash
      simp only
      rw [GoMap.lookup_store, if_pos rfl]
    rw [dataCheckString_store_hash, hv', ← hsig, hv]
    exact hne
  · intro hh
    have hsame : (AuthTicket.mk (GoMap.store t.parameters name value')).hash = t.hash := by
      unfold AuthTicket.hash
      simp only
      rw [GoMap.lookup_store, if_neg hh]
    have hdiff := dataCheckString_store_ne t name value value' hnd hnorm
      ((mem_signedNames_iff name).mpr ⟨hname, hh⟩) hold hne
    refine ⟨hdiff, ?_⟩
    rw [hsame, hsig]
    constructor
    · intro heq
      exact (EncodeToString_injective _ _ heq).symm
    · intro heq
      rw [heq]

/-- The sample ticket with the `id` 124 in place of 123 is rejected: the stand-in for
HMAC-SHA256 gives the two data-check strings different codes. -/
theorem CheckSignature_tampered_witness :
    (GoMap.NodupKeys sampleTicket.parameters ∧
      (∀ k ∈ GoMap.keys sampleTicket.parameters, k ∈ AuthTicket.recognized) ∧
      "id" ∈ AuthTicket.recognized ∧
      GoMap.lookup sampleTicket.parameters "id" = some "123" ∧ "124" ≠ "123" ∧
      sampleTicket.CheckSignature sampleHMAC sampleSecret = true) ∧
    (AuthTicket.mk (GoMap.store sampleTicket.parameters "id" "124")).CheckSignature
      sampleHMAC sampleSecret = false :=
  ⟨⟨by decide, by decide, by decide, by decide, by decide, by decide⟩,
    Bool.eq_false_iff.mpr (fun h =>
      absurd (((CheckSignature_tampered sampleHMAC sampleSecret sampleTicket "id" "123" "124"
        (by decide) (by decide) (by decide) (by decide) (by decide) (by decide)).2
          (by decide)).2.mp h) (by decide))⟩

/-! ## Signed tickets exist for every keyed hash -/

theorem lookup_append_of_not_mem {κ ν : Type} [DecidableEq κ] (m m' : GoMap κ ν) (k : κ)
    (h : k ∉ GoMap.keys m) : GoMap.lookup (m ++ m') k = GoMap.lookup m' k := by
  induction m with
  | nil => rfl
  | cons e rest ih =>
    obtain ⟨a, b⟩ := e
    have hk : ¬ a = k ∧ k ∉ GoMap.keys rest := by
      simp only [GoMap.keys, List.map_cons, List.mem_cons, not_or] at h
      exact ⟨fun h' => h.1 h'.symm, h.2⟩
    simp only [List.cons_append, GoMap.lookup, hk.1, if_false]
    exact ih hk.2

/-- Whatever the keyed hash, the ticket made by `signTicket` is accepted under the secret
it was signed with. -/
theorem CheckSignature_signTicket (hmacSHA256 : HMAC) (secret : List Byte)
    (fields : GoMap String String) (h : "hash" ∉ GoMap.keys fields) :
    (signTicket hmacSHA256 secret fields).CheckSignature hmacSHA256 secret = true := by
  unfold AuthTicket.CheckSignature signTicket
  simp only [decide_eq_true_eq]
  have hh : (AuthTicket.mk (fields ++ [("hash", EncodeToString
      (hmacSHA256 secret (AuthTicket.mk fields).dataCheckString))])).hash =
      EncodeToString (hmacSHA256 secret (AuthTicket.mk fields).dataCheckString) := by
    unfold AuthTicket.hash
    simp only
    rw [lookup_append_of_not_mem _ _ _ h]
    simp [GoMap.lookup]
  have hd : (AuthTicket.mk (fields ++ [("hash", EncodeToString
      (hmacSHA256 secret (AuthTicket.mk fields).dataCheckString))])).dataCheckString =
      (AuthTicket.mk fields).dataCheckString := by
    unfold AuthTicket.dataCheckString
    rw [dataCheckStringParts_eq, dataCheckStringParts_eq]
    simp only [List.filter_append]
    have hf : List.filter (fun e : String × String => decide (e.1 ≠ "hash")) fields = fields := by
      rw [List.filter_eq_self]
      intro e he
      have : e.1 ≠ "hash" := fun h' => h (h' ▸ List.mem_map_of_mem Prod.fst he)
      simpa using this
    simp [hf]
  rw [hh, hd]


/-- C7 fails as stated for every keyed hash whose codes are 32 bytes long, as those of
HMAC-SHA256 are.  The signed tickets `nameTicket` with any first name are normalized and
accepted; and there is no keyed hash with codes of 32 bytes, and no secret, under which
every change of the `first_name` of such a ticket is rejected: among the first names `a`,
`aa`, `aaa`, and so on, two give data-check strings with the same code, and changing the
one first name to the other gives a ticket that `CheckSignature` accepts. -/
theorem CheckSignature_tampered_counterexample :
    (∀ (hmacSHA256 : HMAC) (secret : List Byte) (value : String),
      GoMap.NodupKeys (nameTicket hmacSHA256 secret value).parameters ∧
      (∀ k ∈ GoMap.keys (nameTicket hmacSHA256 secret value).parameters,
        k ∈ AuthTicket.recognized) ∧
      GoMap.lookup (nameTicket hmacSHA256 secret value).parameters "first_name" = some value ∧
      (nameTicket hmacSHA256 secret value).CheckSignature hmacSHA256 secret = true) ∧
    ¬ ∃ (hmacSHA256 : HMAC) (secret : List Byte),
      (∀ msg, (hmacSHA256 secret msg).length = 32) ∧
      ∀ value value' : String, value' ≠ value →
        (AuthTicket.mk (GoMap.store (nameTicket hmacSHA256 secret value).parameters
          "first_name" value')).CheckSignature hmacSHA256 secret = false := by
  have hkeys : ∀ (hmacSHA256 : HMAC) (secret : List Byte) (v : String),
      GoMap.keys (nameTicket hmacSHA256 secret v).parameters =
        ["id", "first_name", "username", "auth_date", "hash"] := fun _ _ _ => rfl
  have hfields : ∀ v : String, "hash" ∉ GoMap.keys (nameFields v) := by
    intro v
    have : GoMap.keys (nameFields v) = ["id", "first_name", "username", "auth_date"] := rfl
    rw [this]
    decide
  constructor
  · intro hmacSHA256 secret value
    refine ⟨?_, ?_, rfl, CheckSignature_signTicket hmacSHA256 secret _ (hfields _)⟩
    · unfold GoMap.NodupKeys
      rw [hkeys]
      decide
    · rw [hkeys]
      decide
  · rintro ⟨hmacSHA256, secret, hlen, hall⟩
    haveI : Finite {l : List Byte // l.length = 32} :=
      (List.finite_length_eq Byte 32).to_subtype
    obtain ⟨x, y, hxy, hf⟩ := Finite.exists_ne_map_eq_of_infinite
      (fun n : ℕ => (⟨hmacSHA256 secret
        (AuthTicket.mk (nameFields (String.mk (List.replicate n 'a')))).dataCheckString,
        hlen _⟩ : {l : List Byte // l.length = 32}))
    have hcode : hmacSHA256 secret
        (AuthTicket.mk (nameFields (String.mk (List.replicate y 'a')))).dataCheckString =
        hmacSHA256 secret
          (AuthTicket.mk (nameFields (String.mk (List.replicate x 'a')))).dataCheckString :=
      (congrArg Subtype.val hf).symm
    have hne : String.mk (List.replicate y 'a') ≠ String.mk (List.replicate x 'a') := by
      intro h
      have h' := congrArg (fun s : String => s.data.length) h
      simp only [List.length_replicate] at h'
      exact hxy h'.symm
    have hstore : AuthTicket.mk (GoMap.store
        (nameTicket hmacSHA256 secret (String.mk (List.replicate x 'a'))).parameters
        "first_name" (String.mk (List.replicate y 'a'))) =
        nameTicket hmacSHA256 secret (String.mk (List.replicate y 'a')) := by
      unfold nameTicket signTicket
      rw [hcode]
      rfl
    have hrej := hall _ _ hne
    have hacc : (nameTicket hmacSHA256 secret (String.mk (List.replicate y 'a'))).CheckSignature
        hmacSHA256 secret = true := CheckSignature_signTicket hmacSHA256 secret _ (hfields _)
    rw [hstore, hacc] at hrej
    exact Bool.noConfusion hrej

/-- Why normalization comes first: in a map with a name that is not recognized (here the
name `id=a\nid`), changing the value of `id` can leave the data-check string unchanged. -/
theorem dataCheckString_unnormalized_example :
    (AuthTicket.mk [("id", "a\nid=b"), ("id=a\nid", "b\nid=a")]).dataCheckString =
      (AuthTicket.mk (GoMap.store [("id", "a\nid=b"), ("id=a\nid", "b\nid=a")]
        "id" "b\nid=a")).dataCheckString := by
  decide

/-! ## Order of enumeration, extra fields, idempotence -/

theorem sortStrings_perm (xs ys : List String) (h : List.Perm xs ys) :
    sortStrings xs = sortStrings ys := by
  rw [sortStrings_eq, sortStrings_eq]
  apply List.eq_of_perm_of_sorted (r := fun a b : String => a ≤ b)
  · exact (List.perm_insertionSort _ _).trans (h.trans (List.perm_insertionSort _ _).symm)
  · exact List.sorted_insertionSort _ _
  · exact List.sorted_insertionSort _ _

/-- C14: the data-check string does not depend on the order in which the fields are
enumerated: two tickets whose fields are permutations of each other have the same
data-check string. -/
theorem dataCheckString_perm (t t' : AuthTicket)
    (hperm : List.Perm t.parameters t'.parameters) :
    t.dataCheckString = t'.dataCheckString := by
  unfold AuthTicket.dataCheckString
  rw [dataCheckStringParts_eq, dataCheckStringParts_eq]
  rw [sortStrings_perm _ _ ((hperm.filter _).map _)]

/-- The sample fields, enumerated in two orders, give one data-check string. -/
theorem dataCheckString_perm_witness :
    List.Perm (AuthTicket.mk shuffledFields).parameters
      (AuthTicket.mk [("id", "123"), ("first_name", "Alice"), ("username", "alice"),
        ("auth_date", "1700000000")]).parameters ∧
    (AuthTicket.mk shuffledFields).dataCheckString =
      (AuthTicket.mk [("id", "123"), ("first_name", "Alice"), ("username", "alice"),
        ("auth_date", "1700000000")]).dataCheckString :=
  ⟨by decide, dataCheckString_perm _ _ (by decide)⟩

theorem filter_store_of_false (m : GoMap String String) (p : String → Bool) (k v : String)
    (hk : p k = false) :
    (GoMap.store m k v).filter (fun e => p e.1) = m.filter (fun e => p e.1) := by
  induction m with
  | nil => simp [GoMap.store, hk]
  | cons e rest ih =>
    obtain ⟨a, b⟩ := e
    unfold GoMap.store
    by_cases h : a = k
    · subst h
      simp [List.filter_cons, hk]
    · simp only [h, if_false, List.filter_cons]
      rw [ih]

theorem filter_extendWith (m extras : GoMap String String) (p : String → Bool)
    (hextra : ∀ k ∈ GoMap.keys extras, p k = false) :
    (extendWith m extras).filter (fun e => p e.1) = m.filter (fun e => p e.1) := by
  unfold extendWith
  induction extras generalizing m with
  | nil => rfl
  | cons e rest ih =>
    rw [List.foldl_cons, ih _ (fun k hk => hextra k (List.mem_cons_of_mem _ hk)),
      filter_store_of_false _ _ _ _ (hextra e.1 (List.mem_cons_self _ _))]

/-- The names of a normalized ticket are recognized. -/
theorem keys_sanitizeParameters (t : AuthTicket) :
    ∀ k ∈ GoMap.keys t.sanitizeParameters.parameters, k ∈ AuthTicket.recognized := by
  intro k hk
  rw [sanitizeParameters_eq] at hk
  simp only at hk
  rw [GoMap.keys_filter t.parameters (fun k => decide (k ∈ AuthTicket.recognized))] at hk
  simpa using (List.mem_filter.mp hk).2

/-- C13: when a field mapping is extended with fields whose names are not recognized, in
whatever order the result is enumerated, normalization removes every one of them (only
recognized names remain) and the data-check string of the normalized result is that of
the normalized mapping without the extra fields. -/
theorem sanitizeParameters_extras (m extras ext : GoMap String String)
    (hextra : ∀ k ∈ GoMap.keys extras, k ∉ AuthTicket.recognized)
    (hext : List.Perm ext (extendWith m extras)) :
    (∀ k ∈ GoMap.keys extras,
      GoMap.lookup (AuthTicket.mk ext).sanitizeParameters.parameters k = none) ∧
    (∀ k ∈ GoMap.keys (AuthTicket.mk ext).sanitizeParameters.parameters,
      k ∈ AuthTicket.recognized) ∧
    (AuthTicket.mk ext).sanitizeParameters.dataCheckString =
      (AuthTicket.mk m).sanitizeParameters.dataCheckString := by
  refine ⟨fun k hk => ?_, keys_sanitizeParameters _, ?_⟩
  · rw [GoMap.lookup_eq_none_iff]
    intro hmem
    exact hextra k hk (keys_sanitizeParameters _ k hmem)
  · apply dataCheckString_perm
    rw [sanitizeParameters_eq, sanitizeParameters_eq]
    simp only
    refine (hext.filter _).trans (List.Perm.of_eq ?_)
    exact filter_extendWith m extras (fun k => decide (k ∈ AuthTicket.recognized))
      (fun k hk => by simpa using hextra k hk)

/-- The sample ticket with the fields `is_admin` and `lang` added. -/
theorem sanitizeParameters_extras_witness :
    ((∀ k ∈ GoMap.keys extraFields, k ∉ AuthTicket.recognized) ∧
      List.Perm (extendWith sampleTicket.parameters extraFields).reverse
        (extendWith sampleTicket.parameters extraFields)) ∧
    (AuthTicket.mk (extendWith sampleTicket.parameters extraFields).reverse).sanitizeParameters.dataCheckString =
      sampleTicket.sanitizeParameters.dataCheckString :=
  ⟨⟨by decide, List.reverse_perm _⟩,
    (sanitizeParameters_extras sampleTicket.parameters extraFields
      (extendWith sampleTicket.parameters extraFields).reverse (by decide)
      (List.reverse_perm _)).2.2⟩

/-- C17: normalization is idempotent, and it leaves a mapping that holds only recognized
names as it is. -/
theorem sanitizeParameters_idempotent (t : AuthTicket) :
    t.sanitizeParameters.sanitizeParameters = t.sanitizeParameters ∧
    ((∀ k ∈ GoMap.keys t.parameters, k ∈ AuthTicket.recognized) →
      t.sanitizeParameters = t) := by
  refine ⟨?_, fun h => ?_⟩
  · rw [sanitizeParameters_eq t.sanitizeParameters, sanitizeParameters_eq t]
    simp only [List.filter_filter, Bool.and_self]
  · rw [sanitizeParameters_eq]
    cases t with
    | mk params =>
      simp only [AuthTicket.mk.injEq, List.filter_eq_self, decide_eq_true_eq]
      intro e he
      exact h e.1 (List.mem_map_of_mem Prod.fst he)

/-! ## Fields that do not parse, and dates in the future -/

/-- The allow-list admits a ticket through its decoded `id` or through its `username`. -/
theorem IsAllowed_mem_iff (users : AllowedUsers) (t : AuthTicket) :
    users.IsAllowed t = true ↔
      t.UserID ∈ users.UserIDs ∨ t.UserName ∈ users.UserNames := by
  unfold AllowedUsers.IsAllowed
  by_cases h1 : t.UserID ∈ users.UserIDs <;> by_cases h2 : t.UserName ∈ users.UserNames <;>
    simp [h1, h2]

/-- C11, amended: when the `id` of a ticket does not parse as a decimal integer, `UserID`
is 0 and no error arises; the allow-list then admits the ticket exactly when 0 is in the
identity set or the `username` is in the handle set, so the ticket fails the check when
neither is the case. -/
theorem IsAllowed_unparsable_id (users : AllowedUsers) (t : AuthTicket) (s : String)
    (hval : GoMap.lookup t.parameters "id" = some s) (hparse : ParseInt s = none) :
    t.UserID = 0 ∧
    (users.IsAllowed t = true ↔ (0 : Int) ∈ users.UserIDs ∨ t.UserName ∈ users.UserNames) ∧
    ((0 : Int) ∉ users.UserIDs → t.UserName ∉ users.UserNames → users.IsAllowed t = false) := by
  have hid : t.UserID = 0 := by
    simp [AuthTicket.UserID, hval, hparse]
  refine ⟨hid, ?_, ?_⟩
  · rw [IsAllowed_mem_iff, hid]
  · intro h0 hn
    have h := (IsAllowed_mem_iff users t).not.mpr (by rw [hid]; exact not_or.mpr ⟨h0, hn⟩)
    simpa using h

/-- The ticket of a stranger whose `id` is `abc` fails the allow-list of the samples. -/
theorem IsAllowed_unparsable_id_witness :
    (GoMap.lookup (AuthTicket.mk [("id", "abc"), ("username", "mallory"),
        ("auth_date", "1700000000"), ("hash", "00")]).parameters "id" = some "abc" ∧
      ParseInt "abc" = none) ∧
    sampleService.allowedUsers.IsAllowed ⟨[("id", "abc"), ("username", "mallory"),
        ("auth_date", "1700000000"), ("hash", "00")]⟩ = false :=
  ⟨⟨by decide, by decide⟩,
    (IsAllowed_unparsable_id sampleService.allowedUsers _ "abc" (by decide) (by decide)).2.2
      (by decide) (by decide)⟩

/-- C11 fails as stated: the well-formed ticket `oddIdTicket` has the `id` value `abc`,
which does not parse, and the allow-list of the specification admits it, through its
`username`; an allow-list that names the identity 0 admits it through its `id`. -/
theorem IsAllowed_unparsable_id_counterexample :
    oddIdTicket.areParametersWellFormed = true ∧
    GoMap.lookup oddIdTicket.parameters "id" = some "abc" ∧ ParseInt "abc" = none ∧
    oddIdTicket.UserID = 0 ∧
    (NewAllowedUsers "123, @alice; https://t.me/bob").IsAllowed oddIdTicket = true ∧
    (NewAllowedUsers "0").IsAllowed oddIdTicket = true := by
  decide

/-- C19, amended: a correctly signed ticket whose `auth_date` lies after the time of
evaluation and is at most 2^63 - 1 - 62135596800, so that `time.Unix` holds it without
wrapping around, has a negative age and is not expired under any window that is not
negative: it gets `HasAccess` when the allow-list admits it and `NoAccess` otherwise. -/
theorem CheckAccess_future_auth_date (hmacSHA256 : HMAC) (now : Time) (svc : AuthService)
    (t : AuthTicket) (s : String) (v : Int)
    (hsig : t.CheckSignature hmacSHA256 svc.secret = true)
    (hval : GoMap.lookup t.parameters "auth_date" = some s) (hparse : ParseInt s = some v)
    (hfit : v + unixToInternal ≤ 2 ^ 63 - 1)
    (hfuture : now < v * Second) (hwin : 0 ≤ svc.maxAuthAge) :
    Sub now t.AuthDate < 0 ∧
    svc.CheckAccess hmacSHA256 now (some t) ≠ TicketExpired ∧
    (svc.allowedUsers.IsAllowed t = true → svc.CheckAccess hmacSHA256 now (some t) = HasAccess) ∧
    (svc.allowedUsers.IsAllowed t = false → svc.CheckAccess hmacSHA256 now (some t) = NoAccess) := by
  have hdate := AuthDate_of_field t s v hval hparse hfit
  have hmin : minDuration = -9223372036854775808 := rfl
  have hneg : Sub now t.AuthDate ≤ -1 := by
    rw [hdate]
    exact Sub_le _ _ _ (by simp only [Duration, Time] at *; omega)
      (by simp only [Duration, Time] at *; omega)
  have hle : Sub now t.AuthDate ≤ svc.maxAuthAge := by
    simp only [Duration, Time] at *
    omega
  rw [CheckAccess_of_le hmacSHA256 now svc t hsig hle]
  refine ⟨by simp only [Duration, Time] at *; omega, ?_, ?_, ?_⟩
  · cases svc.allowedUsers.IsAllowed t <;> simp
  · intro ha
    simp [ha]
  · intro ha
    simp [ha]

/-- The ticket issued one hour after `sampleNow` gets `HasAccess` at `sampleNow`. -/
theorem CheckAccess_future_auth_date_witness :
    (futureTicket.CheckSignature sampleHMAC sampleService.secret = true ∧
      GoMap.lookup futureTicket.parameters "auth_date" = some "1700004200" ∧
      ParseInt "1700004200" = some 1700004200 ∧
      (1700004200 : Int) + unixToInternal ≤ 2 ^ 63 - 1 ∧
      sampleNow < 1700004200 * Second ∧ 0 ≤ sampleService.maxAuthAge) ∧
    sampleService.CheckAccess sampleHMAC sampleNow (some futureTicket) = HasAccess :=
  ⟨⟨by decide, by decide, by decide, by decide, by decide, by decide⟩,
    (CheckAccess_future_auth_date sampleHMAC sampleNow sampleService futureTicket
      "1700004200" 1700004200 (by decide) (by decide) (by decide) (by decide) (by decide)
      (by decide)).2.2.1 (by decide)⟩

/-- C19 fails as stated: the correctly signed `farFutureTicket` has the `auth_date`
9223372036854775807, which lies after `sampleNow`; `time.Unix` wraps around, the age is
not negative but the greatest duration, and `CheckAccess` returns `TicketExpired`. -/
theorem CheckAccess_future_auth_date_counterexample :
    farFutureTicket.CheckSignature sampleHMAC sampleService.secret = true ∧
    GoMap.lookup farFutureTicket.parameters "auth_date" = some "9223372036854775807" ∧
    ParseInt "9223372036854775807" = some 9223372036854775807 ∧
    sampleNow < 9223372036854775807 * Second ∧
    0 ≤ sampleService.maxAuthAge ∧
    Sub sampleNow farFutureTicket.AuthDate = maxDuration ∧
    sampleService.CheckAccess sampleHMAC sampleNow (some farFutureTicket) = TicketExpired :=
  ⟨by decide, by decide, by decide, by decide, by decide, farFutureTicket_expired.2.2.1,
    farFutureTicket_expired.2.2.2⟩

/-! ## The handles of the allow-list -/

theorem hasPrefixChars_append (p s : List Char) : hasPrefixChars (p ++ s) p = true := by
  induction p with
  | nil => cases s <;> rfl
  | cons c cs ih => simp [hasPrefixChars, ih]

/-- The function `strings.TrimPrefix` removes the prefix when it is there. -/
theorem TrimPrefix_append (p s : String) : TrimPrefix (p ++ s) p = s := by
  unfold TrimPrefix
  simp [String.data_append, hasPrefixChars_append]

/-- The function `strings.TrimPrefix` returns its argument when the prefix is not there. -/
theorem TrimPrefix_of_not (s p : String) (h : hasPrefixChars s.data p.data = false) :
    TrimPrefix s p = s := by
  unfold TrimPrefix
  simp [h]

/-- A normalized handle written behind at most one of the prefixes is stored as it is. -/
theorem handleOf_prefixed (p h : String) (hp : p ∈ handlePrefixes)
    (hn : isNormalizedHandle h = true) : handleOf (p ++ h) = h := by
  simp only [isNormalizedHandle, Bool.and_eq_true, Bool.not_eq_true'] at hn
  obtain ⟨⟨⟨h1, h2⟩, h3⟩, h4⟩ := hn
  have hnorm : handleOf h = h := by
    unfold handleOf
    rw [TrimPrefix_of_not h _ h1, TrimPrefix_of_not h _ h2, TrimPrefix_of_not h _ h3,
      TrimPrefix_of_not h _ h4]
  simp only [handlePrefixes, List.mem_cons, List.mem_singleton, List.not_mem_nil, or_false] at hp
  rcases hp with rfl | rfl | rfl | rfl | rfl
  · simpa using hnorm
  · unfold handleOf
    rw [TrimPrefix_append, TrimPrefix_of_not h _ h2, TrimPrefix_of_not h _ h3,
      TrimPrefix_of_not h _ h4]
  · unfold handleOf
    rw [TrimPrefix_of_not ("t.me/" ++ h) "@" (by simp [String.data_append, hasPrefixChars]),
      TrimPrefix_append, TrimPrefix_of_not h _ h3, TrimPrefix_of_not h _ h4]
  · unfold handleOf
    rw [TrimPrefix_of_not ("http://t.me/" ++ h) "@" (by simp [String.data_append, hasPrefixChars]),
      TrimPrefix_of_not ("http://t.me/" ++ h) "t.me/"
        (by simp [String.data_append, hasPrefixChars]),
      TrimPrefix_append, TrimPrefix_of_not h _ h4]
  · unfold handleOf
    rw [TrimPrefix_of_not ("https://t.me/" ++ h) "@"
        (by simp [String.data_append, hasPrefixChars]),
      TrimPrefix_of_not ("https://t.me/" ++ h) "t.me/"
        (by simp [String.data_append, hasPrefixChars]),
      TrimPrefix_of_not ("https://t.me/" ++ h) "http://t.me/"
        (by simp [String.data_append, hasPrefixChars]),
      TrimPrefix_append]

/-- The handle set holds the handles of the trimmed tokens that are not numbers. -/
theorem mem_UserNames_iff (raw h : String) :
    h ∈ (NewAllowedUsers raw).UserNames ↔
      ∃ tok ∈ tokensSpec raw, ParseInt (TrimSpace tok) = none ∧ h = handleOf (TrimSpace tok) := by
  unfold NewAllowedUsers
  rw [mem_UserNames_foldl, FieldsFunc_eq_tokensSpec]
  simp

/-- C15, amended: every handle stored by `NewAllowedUsers` is what remains of a trimmed
token that is not a number after one leading `@`, `t.me/`, `http://t.me/` and
`https://t.me/` have been removed, in this order and each at most once; a token that
consists of a normalized handle behind at most one of these prefixes is stored as that
handle. -/
theorem UserNames_spec (raw : String) :
    (∀ h ∈ (NewAllowedUsers raw).UserNames,
      ∃ tok ∈ tokensSpec raw, ParseInt (TrimSpace tok) = none ∧ h = handleOf (TrimSpace tok)) ∧
    (∀ tok ∈ tokensSpec raw, ∀ p ∈ handlePrefixes, ∀ h : String,
      TrimSpace tok = p ++ h → ParseInt (p ++ h) = none → isNormalizedHandle h = true →
        h ∈ (NewAllowedUsers raw).UserNames) := by
  refine ⟨fun h hh => (mem_UserNames_iff raw h).mp hh, ?_⟩
  intro tok htok p hp h htrim hparse hnorm
  rw [mem_UserNames_iff]
  refine ⟨tok, htok, ?_, ?_⟩
  · rw [htrim]
    exact hparse
  · rw [htrim, handleOf_prefixed p h hp hnorm]

/-- C15 fails as stated: the configuration string `@@alice` stores the handle `@alice`,
which begins with `@`. -/
theorem UserNames_counterexample :
    NewAllowedUsers "@@alice" = ⟨[], ["@alice"]⟩ ∧
    hasPrefixChars "@alice".data "@".data = true ∧
    isNormalizedHandle "@alice" = false := by
  decide

/-- C20, amended: the handle set holds the empty string exactly when some trimmed token
that is not a number is emptied by the removal of the prefixes (the token `@`, for
one); when it does not hold the empty string, a ticket whose `username` is empty is
admitted only through its `id`. -/
theorem empty_handle_iff (raw : String) :
    ("" ∈ (NewAllowedUsers raw).UserNames ↔
      ∃ tok ∈ tokensSpec raw, ParseInt (TrimSpace tok) = none ∧ handleOf (TrimSpace tok) = "") ∧
    ("" ∉ (NewAllowedUsers raw).UserNames → ∀ t : AuthTicket, t.UserName = "" →
      ((NewAllowedUsers raw).IsAllowed t = true ↔ t.UserID ∈ (NewAllowedUsers raw).UserIDs)) := by
  refine ⟨?_, ?_⟩
  · rw [mem_UserNames_iff]
    constructor
    · rintro ⟨tok, htok, hp, hh⟩
      exact ⟨tok, htok, hp, hh.symm⟩
    · rintro ⟨tok, htok, hp, hh⟩
      exact ⟨tok, htok, hp, hh.symm⟩
  · intro hempty t ht
    rw [IsAllowed_mem_iff, ht]
    simp [hempty]

/-- C20 fails as stated: the configuration string `@` stores the empty handle, and the
well-formed ticket `namelessTicket`, whose `username` is empty and whose `id` is not on
the list, is admitted. -/
theorem empty_handle_counterexample :
    NewAllowedUsers "@" = ⟨[], [""]⟩ ∧
    namelessTicket.areParametersWellFormed = true ∧
    namelessTicket.UserName = "" ∧
    namelessTicket.UserID ∉ (NewAllowedUsers "@").UserIDs ∧
    (NewAllowedUsers "@").IsAllowed namelessTicket = true := by
  decide

/-! ## The data-check string as an encoding of the signed fields -/

theorem Join_data_cons (x : String) (xs : List String) :
    (Join (x :: xs) "\n").data = x.data ++ tailChars xs := by
  rw [Join_cons, foldl_sep, String.data_append]
  congr 1
  induction xs with
  | nil => rfl
  | cons y ys ih =>
    have h := joinTail_append_cons [] ys y "\n"
    rw [List.nil_append] at h
    rw [h]
    simp only [String.data_append, tailChars, ih]
    rfl

theorem line_split (x y T T' : List Char) (hx : '\n' ∉ x) (hy : '\n' ∉ y)
    (hT : T = [] ∨ ∃ r, T = '\n' :: r) (hT' : T' = [] ∨ ∃ r, T' = '\n' :: r)
    (h : x ++ T = y ++ T') : x = y ∧ T = T' := by
  induction x generalizing y with
  | nil =>
    cases y with
    | nil => exact ⟨rfl, by simpa using h⟩
    | cons d y' =>
      exfalso
      rcases hT with rfl | ⟨r, rfl⟩
      · simp at h
      · simp only [List.nil_append, List.cons_append, List.cons.injEq] at h
        exact hy (h.1 ▸ List.mem_cons_self _ _)
  | cons c x' ih =>
    cases y with
    | nil =>
      exfalso
      rcases hT' with rfl | ⟨r, rfl⟩
      · simp at h
      · simp only [List.nil_append, List.cons_append, List.cons.injEq] at h
        exact hx (h.1 ▸ List.mem_cons_self _ _)
    | cons d y' =>
      simp only [List.cons_append, List.cons.injEq] at h
      obtain ⟨hcd, hrest⟩ := h
      obtain ⟨hxy, hTT⟩ := ih y' (fun hm => hx (List.mem_cons_of_mem _ hm))
        (fun hm => hy (List.mem_cons_of_mem _ hm)) hrest
      exact ⟨by rw [hcd, hxy], hTT⟩

theorem tailChars_shape (xs : List String) :
    tailChars xs = [] ∨ ∃ r, tailChars xs = '\n' :: r := by
  cases xs with
  | nil => exact Or.inl rfl
  | cons y ys => exact Or.inr ⟨_, rfl⟩

theorem tailChars_injective (xs ys : List String)
    (hx : ∀ l ∈ xs, '\n' ∉ l.data) (hy : ∀ l ∈ ys, '\n' ∉ l.data)
    (h : tailChars xs = tailChars ys) : xs = ys := by
  induction xs generalizing ys with
  | nil =>
    cases ys with
    | nil => rfl
    | cons y ys' => simp [tailChars] at h
  | cons x xs' ih =>
    cases ys with
    | nil => simp [tailChars] at h
    | cons y ys' =>
      simp only [tailChars, List.cons.injEq, true_and] at h
      obtain ⟨hxy, hT⟩ := line_split x.data y.data _ _ (hx x (List.mem_cons_self _ _))
        (hy y (List.mem_cons_self _ _)) (tailChars_shape xs') (tailChars_shape ys') h
      rw [String.ext hxy, ih ys' (fun l hl => hx l (List.mem_cons_of_mem _ hl))
        (fun l hl => hy l (List.mem_cons_of_mem _ hl)) hT]

/-- Lines without a newline, none of them empty, are recovered from their join. -/
theorem Join_newline_injective (xs ys : List String)
    (hx : ∀ l ∈ xs, '\n' ∉ l.data ∧ l ≠ "") (hy : ∀ l ∈ ys, '\n' ∉ l.data ∧ l ≠ "")
    (h : Join xs "\n" = Join ys "\n") : xs = ys := by
  have hd := congrArg String.data h
  cases xs with
  | nil =>
    cases ys with
    | nil => rfl
    | cons y ys' =>
      exfalso
      rw [Join_data_cons] at hd
      have hy0 : y.data = [] := by
        have : ([] : List Char) = y.data ++ tailChars ys' := hd
        exact (List.append_eq_nil.mp this.symm).1
      exact (hy y (List.mem_cons_self _ _)).2 (String.ext hy0)
  | cons x xs' =>
    cases ys with
    | nil =>
      exfalso
      rw [Join_data_cons] at hd
      have hx0 : x.data = [] := by
        have : x.data ++ tailChars xs' = ([] : List Char) := hd
        exact (List.append_eq_nil.mp this).1
      exact (hx x (List.mem_cons_self _ _)).2 (String.ext hx0)
    | cons y ys' =>
      rw [Join_data_cons, Join_data_cons] at hd
      obtain ⟨hxy, hT⟩ := line_split x.data y.data _ _ (hx x (List.mem_cons_self _ _)).1
        (hy y (List.mem_cons_self _ _)).1 (tailChars_shape xs') (tailChars_shape ys') hd
      rw [String.ext hxy, tailChars_injective xs' ys'
        (fun l hl => (hx l (List.mem_cons_of_mem _ hl)).1)
        (fun l hl => (hy l (List.mem_cons_of_mem _ hl)).1) hT]

theorem SprintfKV_ne_of_headLess (k k' v v' : String) (h : headLess k k' = true) :
    SprintfKV k v ≠ SprintfKV k' v' := by
  intro heq
  have hd := congrArg String.data heq
  unfold headLess at h
  simp only [SprintfKV, String.data_append] at hd
  cases hk : k.data with
  | nil => simp [hk] at h
  | cons c cs =>
    cases hk' : k'.data with
    | nil => simp [hk, hk'] at h
    | cons d ds =>
      simp only [hk, hk', decide_eq_true_eq] at h
      simp only [hk, hk', List.cons_append, List.cons.injEq] at hd
      rw [hd.1] at h
      exact lt_irrefl _ h

theorem signedNames_headLess :
    ∀ k ∈ signedNames, ∀ k' ∈ signedNames, k ≠ k' →
      headLess k k' = true ∨ headLess k' k = true := by
  decide

/-- A line tells its name and its value. -/
theorem SprintfKV_eq_iff (k k' v v' : String) (hk : k ∈ signedNames) (hk' : k' ∈ signedNames)
    (h : SprintfKV k v = SprintfKV k' v') : k = k' ∧ v = v' := by
  by_cases hkk : k = k'
  · subst hkk
    exact ⟨rfl, SprintfKV_injective k v v' h⟩
  · exfalso
    rcases signedNames_headLess k hk k' hk' hkk with hl | hl
    · exact SprintfKV_ne_of_headLess k k' v v' hl h
    · exact SprintfKV_ne_of_headLess k' k v' v hl h.symm

theorem mem_canonicalLines (t : AuthTicket) (l : String) :
    l ∈ canonicalLines t ↔
      ∃ k ∈ signedNames, ∃ v, GoMap.lookup t.parameters k = some v ∧ l = SprintfKV k v := by
  unfold canonicalLines
  simp only [List.mem_filterMap, Option.map_eq_some']
  constructor
  · rintro ⟨k, hk, v, hv, rfl⟩
    exact ⟨k, hk, v, hv, rfl⟩
  · rintro ⟨k, hk, v, hv, rfl⟩
    exact ⟨k, hk, v, hv, rfl⟩

theorem signedNames_noNewline : ∀ k ∈ signedNames, '\n' ∉ k.data := by
  decide

theorem canonicalLines_lines (t : AuthTicket)
    (hval : ∀ e ∈ t.parameters, e.1 ≠ "hash" → noNewline e.2 = true)
    (hnd : GoMap.NodupKeys t.parameters) :
    ∀ l ∈ canonicalLines t, '\n' ∉ l.data ∧ l ≠ "" := by
  intro l hl
  obtain ⟨k, hk, v, hv, rfl⟩ := (mem_canonicalLines t l).mp hl
  have hmem := (GoMap.lookup_eq_some_iff _ hnd k v).mp hv
  have hv' := hval (k, v) hmem ((mem_signedNames_iff k).mp hk).2
  simp only [noNewline, Bool.not_eq_true', List.contains_eq_any_beq, List.any_eq_false,
    beq_iff_eq] at hv'
  constructor
  · simp only [SprintfKV, String.data_append, List.mem_append, not_or]
    refine ⟨⟨signedNames_noNewline k hk, by decide⟩, fun hm => hv' _ hm rfl⟩
  · intro h0
    have := congrArg String.data h0
    simp [SprintfKV, String.data_append] at this

theorem lookup_of_canonicalLines (t₁ t₂ : AuthTicket)
    (h : canonicalLines t₁ = canonicalLines t₂) (k : String) (hk : k ∈ signedNames) (v : String)
    (hv : GoMap.lookup t₁.parameters k = some v) : GoMap.lookup t₂.parameters k = some v := by
  have hmem : SprintfKV k v ∈ canonicalLines t₂ := by
    rw [← h, mem_canonicalLines]
    exact ⟨k, hk, v, hv, rfl⟩
  obtain ⟨k', hk', v', hv', heq⟩ := (mem_canonicalLines t₂ _).mp hmem
  obtain ⟨rfl, rfl⟩ := SprintfKV_eq_iff k k' v v' hk hk' heq
  exact hv'

/-- C18, amended: for two normalized tickets none of whose signed values holds a newline
character (the values may hold `=`), equal data-check strings mean equal fields: every
name other than `hash` has the same value, or no value, in both. -/
theorem dataCheckString_injective (t₁ t₂ : AuthTicket)
    (hnd₁ : GoMap.NodupKeys t₁.parameters) (hnd₂ : GoMap.NodupKeys t₂.parameters)
    (hnorm₁ : ∀ k ∈ GoMap.keys t₁.parameters, k ∈ AuthTicket.recognized)
    (hnorm₂ : ∀ k ∈ GoMap.keys t₂.parameters, k ∈ AuthTicket.recognized)
    (hval₁ : ∀ e ∈ t₁.parameters, e.1 ≠ "hash" → noNewline e.2 = true)
    (hval₂ : ∀ e ∈ t₂.parameters, e.1 ≠ "hash" → noNewline e.2 = true)
    (heq : t₁.dataCheckString = t₂.dataCheckString) :
    ∀ k, k ≠ "hash" → GoMap.lookup t₁.parameters k = GoMap.lookup t₂.parameters k := by
  rw [dataCheckString_canonical t₁ hnd₁ hnorm₁, dataCheckString_canonical t₂ hnd₂ hnorm₂] at heq
  have hcanon := Join_newline_injective _ _ (canonicalLines_lines t₁ hval₁ hnd₁)
    (canonicalLines_lines t₂ hval₂ hnd₂) heq
  intro k hk
  by_cases hrec : k ∈ AuthTicket.recognized
  · have hs : k ∈ signedNames := (mem_signedNames_iff k).mpr ⟨hrec, hk⟩
    cases h1 : GoMap.lookup t₁.parameters k with
    | some v => exact (lookup_of_canonicalLines t₁ t₂ hcanon k hs v h1).symm
    | none =>
      cases h2 : GoMap.lookup t₂.parameters k with
      | none => rfl
      | some v =>
        have := lookup_of_canonicalLines t₂ t₁ hcanon.symm k hs v h2
        rw [h1] at this
        cases this
  · have n1 : GoMap.lookup t₁.parameters k = none :=
      (GoMap.lookup_eq_none_iff _ _).mpr (fun hm => hrec (hnorm₁ k hm))
    have n2 : GoMap.lookup t₂.parameters k = none :=
      (GoMap.lookup_eq_none_iff _ _).mpr (fun hm => hrec (hnorm₂ k hm))
    rw [n1, n2]

/-- The sample fields in two orders of enumeration have the same values. -/
theorem dataCheckString_injective_witness :
    (GoMap.NodupKeys sampleTicket.parameters ∧
      GoMap.NodupKeys (AuthTicket.mk shuffledFields).parameters ∧
      (∀ k ∈ GoMap.keys sampleTicket.parameters, k ∈ AuthTicket.recognized) ∧
      (∀ k ∈ GoMap.keys (AuthTicket.mk shuffledFields).parameters, k ∈ AuthTicket.recognized) ∧
      (∀ e ∈ sampleTicket.parameters, e.1 ≠ "hash" → noNewline e.2 = true) ∧
      (∀ e ∈ (AuthTicket.mk shuffledFields).parameters, e.1 ≠ "hash" → noNewline e.2 = true) ∧
      sampleTicket.dataCheckString = (AuthTicket.mk shuffledFields).dataCheckString) ∧
    GoMap.lookup sampleTicket.parameters "id" =
      GoMap.lookup (AuthTicket.mk shuffledFields).parameters "id" :=
  ⟨⟨by decide, by decide, by decide, by decide, by decide, by decide, by decide⟩,
    dataCheckString_injective sampleTicket (AuthTicket.mk shuffledFields) (by decide) (by decide)
      (by decide) (by decide) (by decide) (by decide) (by decide) "id" (by decide)⟩

/-- C18 fails as stated: the normalized, well-formed tickets `twoNameTicket` and
`mergedTicket` have the same data-check string, and both are accepted with the same
`hash`, yet one has the `last_name` B and the `id` 5 and the other has no `last_name` and
an `id` with a newline in it. -/
theorem dataCheckString_injective_counterexample :
    (∀ k ∈ GoMap.keys twoNameTicket.parameters, k ∈ AuthTicket.recognized) ∧
    (∀ k ∈ GoMap.keys mergedTicket.parameters, k ∈ AuthTicket.recognized) ∧
    GoMap.NodupKeys twoNameTicket.parameters ∧ GoMap.NodupKeys mergedTicket.parameters ∧
    twoNameTicket.areParametersWellFormed = true ∧ mergedTicket.areParametersWellFormed = true ∧
    twoNameTicket.dataCheckString = mergedTicket.dataCheckString ∧
    GoMap.lookup twoNameTicket.parameters "last_name" = some "B" ∧
    GoMap.lookup mergedTicket.parameters "last_name" = none ∧
    GoMap.lookup twoNameTicket.parameters "id" = some "5" ∧
    GoMap.lookup mergedTicket.parameters "id" = some "5\nlast_name=B" ∧
    twoNameTicket.CheckSignature sampleHMAC sampleSecret = true ∧
    mergedTicket.CheckSignature sampleHMAC sampleSecret = true := by
  decide

/-! ## The session cookie -/

/-- The method `addSec` adds exactly when the sum fits in 64 bits. -/
theorem addSec_eq (ext k : Int) (h1 : -(2 ^ 63) ≤ ext + k) (h2 : ext + k ≤ 2 ^ 63 - 1) :
    addSec ext k = ext + k := by
  have hw : wrapInt64 (ext + k) = ext + k := by
    unfold wrapInt64
    omega
  unfold addSec
  simp only [hw]
  rw [if_pos]
  rw [decide_eq_decide]
  constructor <;> intro h <;> omega

/-- The method `Time.Add` adds exactly when the second of the sum, counted from the year 1,
fits in 64 bits. -/
theorem Add_eq_of_fits (t d : Int)
    (h1 : -(2 ^ 63) ≤ (t + d) / 1000000000 + unixToInternal)
    (h2 : (t + d) / 1000000000 + unixToInternal ≤ 2 ^ 63 - 1) : Add t d = t + d := by
  have hu : unixToInternal = 62135596800 := rfl
  have hq := Int.tdiv_add_tmod d 1000000000
  have hr : -1000000000 < Int.tmod d 1000000000 ∧ Int.tmod d 1000000000 < 1000000000 := by
    rcases le_or_lt 0 d with hd | hd
    · rw [Int.tmod_eq_emod hd (by norm_num)]
      omega
    · have h := Int.tmod_eq_emod (a := -d) (b := 1000000000) (by omega) (by norm_num)
      have hn : Int.tmod (-d) 1000000000 = -Int.tmod d 1000000000 := by
        have h3 := Int.tdiv_add_tmod (-d) 1000000000
        rw [Int.neg_tdiv] at h3
        omega
      omega
  unfold Add
  simp only [Duration, Time]
  generalize Int.tdiv d 1000000000 = q at *
  generalize Int.tmod d 1000000000 = r at *
  split_ifs with hc1 hc2
  · rw [addSec_eq _ _ (by omega) (by omega)]
    omega
  · rw [addSec_eq _ _ (by omega) (by omega)]
    omega
  · rw [addSec_eq _ _ (by omega) (by omega)]
    omega

/-- The seconds counter of the time that `AuthDate` returns is an `int64`, and the time is a
whole second. -/
theorem AuthDate_counter (t : AuthTicket) :
    -(2 ^ 63) ≤ t.AuthDate / 1000000000 + unixToInternal ∧
    t.AuthDate / 1000000000 + unixToInternal ≤ 2 ^ 63 - 1 ∧
    t.AuthDate % 1000000000 = 0 := by
  have hu : unixToInternal = 62135596800 := rfl
  have hz : zeroTime = -62135596800 * 1000000000 := rfl
  have hU : ∀ v : Int, -(2 ^ 63) ≤ Unix v / 1000000000 + unixToInternal ∧
      Unix v / 1000000000 + unixToInternal ≤ 2 ^ 63 - 1 ∧ Unix v % 1000000000 = 0 := by
    intro v
    unfold Unix wrapInt64 Second
    simp only [Duration, Time]
    omega
  have hZ : -(2 ^ 63) ≤ zeroTime / 1000000000 + unixToInternal ∧
      zeroTime / 1000000000 + unixToInternal ≤ 2 ^ 63 - 1 ∧ zeroTime % 1000000000 = 0 := by
    rw [hz]
    simp only [Duration, Time]
    omega
  have hcases : t.AuthDate = zeroTime ∨ ∃ v, t.AuthDate = Unix v := by
    unfold AuthTicket.AuthDate
    cases GoMap.lookup t.parameters "auth_date" with
    | none => exact Or.inl rfl
    | some s =>
      cases h : ParseInt s with
      | none => exact Or.inl (by simp only [h])
      | some v => exact Or.inr ⟨v, by simp only [h]⟩
  rcases hcases with h | ⟨v, h⟩
  · rw [h]
    exact hZ
  · rw [h]
    exact hU v

/-- The method `Time.Add` stops at the greatest value of the seconds counter when the sum
with a duration that is not negative lies beyond it. -/
theorem Add_saturates (t d : Int)
    (h1 : -(2 ^ 63) ≤ t / 1000000000 + unixToInternal)
    (h2 : t / 1000000000 + unixToInternal ≤ 2 ^ 63 - 1)
    (hd0 : 0 ≤ d) (hd : d ≤ maxDuration)
    (hover : 2 ^ 63 - 1 < (t + d) / 1000000000 + unixToInternal) :
    Add t d / 1000000000 + unixToInternal = 2 ^ 63 - 1 := by
  have hu : unixToInternal = 62135596800 := rfl
  have hmax : maxDuration = 9223372036854775807 := rfl
  simp only [Duration, Time] at *
  unfold Add
  simp only [Duration, Time]
  rw [Int.tdiv_eq_ediv hd0 (by norm_num), Int.tmod_eq_emod hd0 (by norm_num)]
  have hsat : ∀ k : Int, 0 < k → k ≤ 9223372037 →
      2 ^ 63 - 1 < t / 1000000000 + unixToInternal + k →
      addSec (t / 1000000000 + unixToInternal) k = 2 ^ 63 - 1 := by
    intro k hk0 hk hov
    unfold addSec wrapInt64
    simp only
    rw [if_neg, if_pos hk0]
    rw [decide_eq_decide]
    intro h
    have := h.mpr hk0
    omega
  split_ifs with hc1 hc2
  · rw [hsat _ (by omega) (by omega) (by omega)]
    omega
  · omega
  · rw [hsat _ (by omega) (by omega) (by omega)]
    omega

/-- C16, amended: the cookie issued by `Login` has the value `String(ticket)`, the path `/`,
the HTTP-only flag, and the expiration `AuthDate.Add(maxAuthAge)`, whatever the current
time, which `Login` does not read; the expiration is `AuthDate + maxAuthAge` whenever the
second of that instant, counted from the year 1, fits in 64 bits, and for a window that is
not negative it lies in the last second that fits when the sum lies beyond it.
`loginHandler` issues
this cookie when `CheckAccess` returns `HasAccess` and issues no cookie for any other
outcome; a response of the handler carries either no cookie or the cookie of a ticket for
which `CheckAccess` returned `HasAccess`. -/
theorem Login_cookie (hmacSHA256 : HMAC) (now : Time) (svc : AuthService) (query : Values) :
    (∀ t : AuthTicket,
      (svc.Login t).Name = AuthCookieName ∧ (svc.Login t).Value = t.String ∧
      (svc.Login t).Path = "/" ∧ (svc.Login t).HttpOnly = true ∧
      (svc.Login t).Expires = Add t.AuthDate svc.maxAuthAge) ∧
    (∀ t : AuthTicket,
      -(2 ^ 63) ≤ (t.AuthDate + svc.maxAuthAge) / 1000000000 + unixToInternal →
      (t.AuthDate + svc.maxAuthAge) / 1000000000 + unixToInternal ≤ 2 ^ 63 - 1 →
      (svc.Login t).Expires = t.AuthDate + svc.maxAuthAge) ∧
    (∀ t : AuthTicket, 0 ≤ svc.maxAuthAge → svc.maxAuthAge ≤ maxDuration →
      2 ^ 63 - 1 < (t.AuthDate + svc.maxAuthAge) / 1000000000 + unixToInternal →
      (svc.Login t).Expires / 1000000000 + unixToInternal = 2 ^ 63 - 1) ∧
    (∀ ticket, AuthTicketFromURL query = .ok ticket →
      ∃ resp, loginHandler hmacSHA256 now svc query = .ok resp ∧
        ((svc.CheckAccess hmacSHA256 now ticket = HasAccess ∧
            ∃ t, ticket = some t ∧ resp.cookies = [svc.Login t]) ∨
          (svc.CheckAccess hmacSHA256 now ticket ≠ HasAccess ∧ resp.cookies = []))) ∧
    (∀ resp, loginHandler hmacSHA256 now svc query = .ok resp →
      resp.cookies = [] ∨
        ∃ t, AuthTicketFromURL query = .ok (some t) ∧
          svc.CheckAccess hmacSHA256 now (some t) = HasAccess ∧
          resp.cookies = [svc.Login t]) := by
  have key : ∀ ticket, AuthTicketFromURL query = .ok ticket →
      ∃ resp, loginHandler hmacSHA256 now svc query = .ok resp ∧
        ((svc.CheckAccess hmacSHA256 now ticket = HasAccess ∧
            ∃ t, ticket = some t ∧ resp.cookies = [svc.Login t]) ∨
          (svc.CheckAccess hmacSHA256 now ticket ≠ HasAccess ∧ resp.cookies = [])) := by
    intro ticket hticket
    unfold loginHandler
    rw [hticket]
    simp only
    cases ticket with
    | none =>
      have hnone : svc.CheckAccess hmacSHA256 now none = NoTicket := rfl
      rw [hnone]
      exact ⟨_, rfl, Or.inr ⟨by simp, rfl⟩⟩
    | some t =>
      cases hr : svc.CheckAccess hmacSHA256 now (some t)
      · exact ⟨_, rfl, Or.inr ⟨by simp, rfl⟩⟩
      · exact ⟨_, rfl, Or.inl ⟨rfl, t, rfl, rfl⟩⟩
      · exact ⟨_, rfl, Or.inr ⟨by simp, rfl⟩⟩
      · exact ⟨_, rfl, Or.inr ⟨by simp, rfl⟩⟩
  refine ⟨fun t => ⟨rfl, rfl, rfl, rfl, rfl⟩,
    fun t h1 h2 => Add_eq_of_fits t.AuthDate svc.maxAuthAge h1 h2,
    fun t h0 hd hov => Add_saturates t.AuthDate svc.maxAuthAge (AuthDate_counter t).1
      (AuthDate_counter t).2.1 h0 hd hov, key, ?_⟩
  intro resp hresp
  cases hq : AuthTicketFromURL query with
  | error e =>
    unfold loginHandler at hresp
    rw [hq] at hresp
    cases hresp
  | ok ticket =>
    obtain ⟨resp', hresp', hcases⟩ := key ticket hq
    rw [hresp] at hresp'
    cases hresp'
    rcases hcases with ⟨hacc, t, rfl, hc⟩ | ⟨_, hc⟩
    · exact Or.inr ⟨t, rfl, hacc, hc⟩
    · exact Or.inl hc

/-- C16 fails as stated: the correctly signed `lastSecondTicket`, issued in the last second
that the seconds counter of a `time.Time` can hold, gets `HasAccess` from the sample
service, and the cookie of `Login` expires at `AuthDate` itself, not fourteen days later:
`Time.Add` stops at the greatest value of the counter. -/
theorem Login_cookie_counterexample :
    lastSecondTicket.CheckSignature sampleHMAC sampleService.secret = true ∧
    sampleService.CheckAccess sampleHMAC sampleNow (some lastSecondTicket) = HasAccess ∧
    lastSecondTicket.AuthDate = 9223371974719179007 * Second ∧
    sampleService.maxAuthAge = 14 * 24 * 3600 * Second ∧
    (sampleService.Login lastSecondTicket).Expires = lastSecondTicket.AuthDate ∧
    (sampleService.Login lastSecondTicket).Expires ≠
      lastSecondTicket.AuthDate + sampleService.maxAuthAge := by
  refine ⟨by decide, ?_, by decide, by decide, by decide, by decide⟩
  rw [CheckAccess_of_le sampleHMAC sampleNow sampleService lastSecondTicket (by decide)
    (by decide)]
  decide

/-- The answer of `loginHandler` to a request whose ticket gets `HasAccess`. -/
theorem loginHandler_of_HasAccess (hmacSHA256 : HMAC) (now : Time) (svc : AuthService)
    (query : Values) (t : AuthTicket) (h1 : AuthTicketFromURL query = .ok (some t))
    (h2 : svc.CheckAccess hmacSHA256 now (some t) = HasAccess) :
    loginHandler hmacSHA256 now svc query =
      .ok { cookies := [svc.Login t]
            location := some (if Values.Get query "return_url" = "" then "/"
              else Values.Get query "return_url")
            status := 302
            page := none } := by
  unfold loginHandler
  rw [h1]
  simp only
  rw [h2]

/-- An example: ten minutes after it was issued, the login request of the sample ticket
is answered with the session cookie and a redirect to the `return_url`. -/
theorem loginHandler_example :
    loginHandler sampleHMAC sampleNow sampleService sampleQuery =
      .ok { cookies := [sampleService.Login sampleTicket]
            location := some "/home"
            status := 302
            page := none } ∧
    (sampleService.Login sampleTicket).Expires = 1701209600 * Second := by
  have h1 : AuthTicketFromURL sampleQuery = .ok (some sampleTicket) := rfl
  have h2 : sampleService.CheckAccess sampleHMAC sampleNow (some sampleTicket) = HasAccess := by
    rw [CheckAccess_of_le sampleHMAC sampleNow sampleService sampleTicket (by decide)
      (by decide)]
    decide
  have h3 : Values.Get sampleQuery "return_url" = "/home" := by decide
  refine ⟨?_, by decide⟩
  rw [loginHandler_of_HasAccess sampleHMAC sampleNow sampleService sampleQuery sampleTicket
    h1 h2, h3]
  rfl

/-! ## UTF-8: decoding what was encoded -/

theorem byte_val (n : Nat) : (byte n).val = n % 256 := rfl

/-- The function `utf8.DecodeRune` reads back a rune from its bytes. -/
theorem DecodeRune_EncodeRune (c : Char) (rest : List Byte) :
    ∃ p0 tail, EncodeRune c = p0 :: tail ∧
      DecodeRune p0 (tail ++ rest) = (some c, tail.length + 1) := by
  have hvalid : c.toNat < 55296 ∨ (57343 < c.toNat ∧ c.toNat < 1114112) := c.valid
  have hc := Char.ofNat_toNat c
  generalize hn : c.toNat = n at hvalid hc
  unfold EncodeRune
  simp only [hn]
  by_cases h1 : n < 128
  · refine ⟨byte n, [], by simp [h1], ?_⟩
    unfold DecodeRune
    have hv : (byte n).val = n := by rw [byte_val]; omega
    simp [hv, h1, hc]
  · by_cases h2 : n < 2048
    · refine ⟨byte (192 + n / 64), [byte (128 + n % 64)], by simp [h1, h2], ?_⟩
      unfold DecodeRune
      have hv0 : (byte (192 + n / 64)).val = 192 + n / 64 := by rw [byte_val]; omega
      have hv1 : (byte (128 + n % 64)).val = 128 + n % 64 := by rw [byte_val]; omega
      have hlead : leadInfo (192 + n / 64) = some (2, 128, 191) := by
        unfold leadInfo
        rw [if_pos (by omega)]
      have hval : (192 + n / 64) % 32 * 64 + (128 + n % 64) % 64 = n := by omega
      simp only [hv0, hlead, List.cons_append, List.nil_append, hv1, hval, hc]
      rw [if_neg (by omega), if_pos (by omega)]
      rfl
    · by_cases h3 : n < 65536
      · refine ⟨byte (224 + n / 4096), [byte (128 + n / 64 % 64), byte (128 + n % 64)],
          by simp [h1, h2, h3], ?_⟩
        unfold DecodeRune
        have hv0 : (byte (224 + n / 4096)).val = 224 + n / 4096 := by rw [byte_val]; omega
        have hv1 : (byte (128 + n / 64 % 64)).val = 128 + n / 64 % 64 := by rw [byte_val]; omega
        have hv2 : (byte (128 + n % 64)).val = 128 + n % 64 := by rw [byte_val]; omega
        have hval : (224 + n / 4096) % 16 * 4096 + (128 + n / 64 % 64) % 64 * 64 +
            (128 + n % 64) % 64 = n := by omega
        have hlead : ∃ lo hi, leadInfo (224 + n / 4096) = some (3, lo, hi) ∧
            lo ≤ 128 + n / 64 % 64 ∧ 128 + n / 64 % 64 ≤ hi := by
          unfold leadInfo
          by_cases e0 : n / 4096 = 0
          · exact ⟨160, 191, by rw [if_neg (by omega), if_pos (by omega)], by omega, by omega⟩
          · by_cases e13 : n / 4096 = 13
            · exact ⟨128, 159, by
                rw [if_neg (by omega), if_neg (by omega), if_neg (by omega), if_pos (by omega)],
                by omega, by omega⟩
            · by_cases e12 : n / 4096 ≤ 12
              · exact ⟨128, 191, by
                  rw [if_neg (by omega), if_neg (by omega), if_pos (by omega)],
                  by omega, by omega⟩
              · exact ⟨128, 191, by
                  rw [if_neg (by omega), if_neg (by omega), if_neg (by omega),
                    if_neg (by omega), if_pos (by omega)],
                  by omega, by omega⟩
        obtain ⟨lo, hi, hl, hlo, hhi⟩ := hlead
        have hcont : isCont (128 + n % 64) = true := by
          simp only [isCont, Bool.and_eq_true, decide_eq_true_eq]
          omega
        simp only [hv0, hl, List.cons_append, List.nil_append, hv1, hv2, hval, hc, hcont]
        rw [if_neg (by omega), if_pos ⟨hlo, hhi, trivial⟩]
        rfl
      · refine ⟨byte (240 + n / 262144),
          [byte (128 + n / 4096 % 64), byte (128 + n / 64 % 64), byte (128 + n % 64)],
          by simp [h1, h2, h3], ?_⟩
        unfold DecodeRune
        have hv0 : (byte (240 + n / 262144)).val = 240 + n / 262144 := by rw [byte_val]; omega
        have hv1 : (byte (128 + n / 4096 % 64)).val = 128 + n / 4096 % 64 := by
          rw [byte_val]; omega
        have hv2 : (byte (128 + n / 64 % 64)).val = 128 + n / 64 % 64 := by rw [byte_val]; omega
        have hv3 : (byte (128 + n % 64)).val = 128 + n % 64 := by rw [byte_val]; omega
        have hval : (240 + n / 262144) % 8 * 262144 + (128 + n / 4096 % 64) % 64 * 4096 +
            (128 + n / 64 % 64) % 64 * 64 + (128 + n % 64) % 64 = n := by omega
        have hlead : ∃ lo hi, leadInfo (240 + n / 262144) = some (4, lo, hi) ∧
            lo ≤ 128 + n / 4096 % 64 ∧ 128 + n / 4096 % 64 ≤ hi := by
          unfold leadInfo
          by_cases e0 : n / 262144 = 0
          · exact ⟨144, 191, by
              rw [if_neg (by omega), if_neg (by omega), if_neg (by omega), if_neg (by omega),
                if_neg (by omega), if_pos (by omega)], by omega, by omega⟩
          · by_cases e4 : n / 262144 = 4
            · exact ⟨128, 143, by
                rw [if_neg (by omega), if_neg (by omega), if_neg (by omega), if_neg (by omega),
                  if_neg (by omega), if_neg (by omega), if_neg (by omega), if_pos (by omega)],
                by omega, by omega⟩
            · exact ⟨128, 191, by
                rw [if_neg (by omega), if_neg (by omega), if_neg (by omega), if_neg (by omega),
                  if_neg (by omega), if_neg (by omega), if_pos (by omega)],
                by omega, by omega⟩
        obtain ⟨lo, hi, hl, hlo, hhi⟩ := hlead
        have hc2 : isCont (128 + n / 64 % 64) = true := by
          simp only [isCont, Bool.and_eq_true, decide_eq_true_eq]
          omega
        have hc3 : isCont (128 + n % 64) = true := by
          simp only [isCont, Bool.and_eq_true, decide_eq_true_eq]
          omega
        simp only [hv0, hl, List.cons_append, List.nil_append, hv1, hv2, hv3, hval, hc, hc2, hc3]
        rw [if_neg (by omega), if_pos ⟨hlo, hhi, trivial, trivial⟩]
        rfl

theorem encodeRunes_append (xs ys : List Char) :
    encodeRunes (xs ++ ys) = encodeRunes xs ++ encodeRunes ys := by
  induction xs with
  | nil => rfl
  | cons c cs ih => simp [encodeRunes, ih]

theorem decodeRunesLoop_encodeRunes (cs : List Char) (fuel : Nat)
    (hfuel : (encodeRunes cs).length ≤ fuel) :
    decodeRunesLoop fuel (encodeRunes cs) = cs.map (fun c => (some c, EncodeRune c)) := by
  induction cs generalizing fuel with
  | nil => cases fuel <;> rfl
  | cons c cs ih =>
    obtain ⟨p0, tail, henc, hdec⟩ := DecodeRune_EncodeRune c (encodeRunes cs)
    simp only [encodeRunes, henc, List.cons_append, List.length_cons, List.length_append] at hfuel ⊢
    cases fuel with
    | zero => omega
    | succ f =>
      simp only [decodeRunesLoop, hdec, List.map_cons]
      have ht : List.take (tail.length + 1) (p0 :: (tail ++ encodeRunes cs)) = p0 :: tail := by
        simp
      have hd : List.drop (tail.length + 1) (p0 :: (tail ++ encodeRunes cs)) = encodeRunes cs := by
        simp
      rw [ht, hd, ih f (by omega), henc]

/-- The runes of an encoded text are the runes of the text, each with its bytes. -/
theorem decodeRunes_encodeRunes (cs : List Char) :
    decodeRunes (encodeRunes cs) = cs.map (fun c => (some c, EncodeRune c)) :=
  decodeRunesLoop_encodeRunes cs _ (le_refl _)

/-- Decoding an encoded text gives the text. -/
theorem runesOf_encodeRunes (cs : List Char) : runesOf (encodeRunes cs) = cs := by
  unfold runesOf
  rw [decodeRunes_encodeRunes, List.map_map]
  conv_rhs => rw [← List.map_id cs]
  rfl

/-! ## URL escaping: unescaping what was escaped -/

theorem upperhex_spec : ∀ n : Fin 16,
    ishex (upperhex n.val) = true ∧ unhex (upperhex n.val) = n.val := by
  decide

theorem shouldEscape_false (c : Byte) (h : shouldEscape c = false) :
    c.val ≠ 37 ∧ c.val ≠ 43 := by
  simp only [shouldEscape, Bool.not_eq_false', Bool.or_eq_true, Bool.and_eq_true,
    decide_eq_true_eq] at h
  omega

/-- The function `url.QueryUnescape` gives back what `url.QueryEscape` was given. -/
theorem QueryUnescape_QueryEscape (s : List Byte) : QueryUnescape (QueryEscape s) = some s := by
  induction s with
  | nil => rfl
  | cons c rest ih =>
    unfold QueryEscape
    by_cases hsp : c.val = 32
    · simp only [hsp, if_true]
      unfold QueryUnescape
      have hc : c = byte 32 := Fin.ext hsp
      simp [byte_val, ih, hc]
    · simp only [hsp, if_false]
      by_cases hesc : shouldEscape c = true
      · simp only [hesc, if_true]
        unfold QueryUnescape
        have h1 := upperhex_spec ⟨c.val / 16, by omega⟩
        have h2 := upperhex_spec ⟨c.val % 16, by omega⟩
        simp only at h1 h2
        have hb : byte (c.val / 16 * 16 + c.val % 16) = c := by
          apply Fin.ext
          rw [byte_val]
          omega
        simp [byte_val, h1.1, h1.2, h2.1, h2.2, ih, hb]
      · have hesc' : shouldEscape c = false := by simpa using hesc
        obtain ⟨h37, h43⟩ := shouldEscape_false c hesc'
        simp only [hesc', Bool.false_eq_true, if_false]
        unfold QueryUnescape
        simp [h37, h43, ih]

/-! ## The JSON text of valid strings -/

theorem encodeSpans_valid (cs : List Char) :
    encodeSpans (cs.map (fun c => (some c, EncodeRune c))) = encodeRunes (jsonBody cs) := by
  induction cs with
  | nil => rfl
  | cons c cs ih =>
    simp only [List.map_cons, encodeSpans, jsonBody, encodeRunes_append, ih]
    congr 1
    unfold encodeSpan jsonChar
    by_cases h : needsEscape c = true
    · simp [h]
    · simp [h, encodeRunes]

theorem encodeRunes_cons_ascii (c : Char) (cs : List Char) (h : c.toNat < 128) :
    encodeRunes (c :: cs) = byte c.toNat :: encodeRunes cs := by
  simp [encodeRunes, EncodeRune, h]

/-- The string literal written for the bytes of a string. -/
theorem appendString_toBytes (s : String) :
    appendString (toBytes s) = encodeRunes (jsonQuote s) := by
  unfold appendString toBytes jsonQuote
  rw [decodeRunes_encodeRunes, encodeSpans_valid,
    encodeRunes_cons_ascii '"' _ (by decide), encodeRunes_append]
  rfl

theorem encodeMember_toBytes (e : String × String) :
    encodeMember (toBytes e.1, toBytes e.2) = encodeRunes (jsonMember e) := by
  unfold encodeMember jsonMember
  simp only [appendString_toBytes, encodeRunes_append]
  rw [encodeRunes_cons_ascii ':' _ (by decide)]
  rfl

theorem encodeMembers_toBytes (m : GoMap String String) :
    encodeMembers (rawParameters m) = encodeRunes (jsonMembers m) := by
  unfold rawParameters
  induction m with
  | nil => rfl
  | cons e rest ih =>
    cases rest with
    | nil => simp [encodeMembers, jsonMembers, encodeMember_toBytes]
    | cons e' rest' =>
      simp only [List.map_cons] at ih ⊢
      simp only [encodeMembers, jsonMembers, encodeRunes_append, encodeMember_toBytes]
      rw [encodeRunes_cons_ascii ',' _ (by decide), ih]
      rfl

theorem orderedInsert_map {α β : Type} (f : α → β) (r : β → β → Prop) [DecidableRel r]
    (a : α) (l : List α) :
    List.orderedInsert r (f a) (l.map f) =
      (List.orderedInsert (fun x y => r (f x) (f y)) a l).map f := by
  induction l with
  | nil => rfl
  | cons b rest ih =>
    simp only [List.map_cons, List.orderedInsert]
    split_ifs
    · rfl
    · simp [ih]

theorem insertionSort_map {α β : Type} (f : α → β) (r : β → β → Prop) [DecidableRel r]
    (l : List α) :
    List.insertionSort r (l.map f) =
      (List.insertionSort (fun x y => r (f x) (f y)) l).map f := by
  induction l with
  | nil => rfl
  | cons a rest ih =>
    simp only [List.map_cons, List.insertionSort, ih, orderedInsert_map]

/-- The JSON text of a ticket whose fields are valid UTF-8. -/
theorem jsonMarshal_rawParameters (m : GoMap String String) :
    jsonMarshal (rawParameters m) = encodeRunes (jsonObject (sortedFields m)) := by
  unfold jsonMarshal jsonObject
  rw [encodeRunes_cons_ascii '{' _ (by decide), encodeRunes_append]
  have hs : List.insertionSort keyLE (rawParameters m) = rawParameters (sortedFields m) := by
    unfold rawParameters sortedFields
    exact insertionSort_map (fun e : String × String => (toBytes e.1, toBytes e.2)) keyLE m
  rw [hs, encodeMembers_toBytes]
  rfl

theorem sortedFields_perm (m : GoMap String String) : List.Perm (sortedFields m) m :=
  List.perm_insertionSort _ _

/-! ## Reading the JSON text back -/

theorem hexVal_hexDigit (k : Nat) (h : k < 16) : hexVal (hexDigit k) = some k := by
  interval_cases k <;> rfl

theorem strFeed_append (s : StrState) (a b : List Char) :
    strFeed s (a ++ b) = (strFeed s a).bind (fun s' => strFeed s' b) := by
  induction a generalizing s with
  | nil => rfl
  | cons c cs ih =>
    simp only [List.cons_append, strFeed]
    cases strStep s c with
    | more s' => exact ih s'
    | done x => rfl
    | fail => rfl

theorem strFeed_unicode (acc : List Char) (a b c d : Char) (va vb vc vd : Nat)
    (ha : hexVal a = some va) (hb : hexVal b = some vb) (hc : hexVal c = some vc)
    (hd : hexVal d = some vd)
    (hrr : ¬ (55296 ≤ ((va * 16 + vb) * 16 + vc) * 16 + vd ∧
      ((va * 16 + vb) * 16 + vc) * 16 + vd < 57344)) :
    strFeed (.plain acc) ['\\', 'u', a, b, c, d] =
      some (.plain (acc ++ [Char.ofNat (((va * 16 + vb) * 16 + vc) * 16 + vd)])) := by
  have h1 : strStep (.plain acc) '\\' = .more (.esc acc) := by
    simp [strStep, plainStep]
  have h2 : strStep (.esc acc) 'u' = .more (.hex acc none 0 0) := by
    simp [strStep, escStep]
  have h3 : strStep (.hex acc none 0 0) a = .more (.hex acc none va 1) := by
    simp [strStep, ha]
  have h4 : strStep (.hex acc none va 1) b = .more (.hex acc none (va * 16 + vb) 2) := by
    simp [strStep, hb]
  have h5 : strStep (.hex acc none (va * 16 + vb) 2) c =
      .more (.hex acc none ((va * 16 + vb) * 16 + vc) 3) := by
    simp [strStep, hc]
  have h6 : strStep (.hex acc none ((va * 16 + vb) * 16 + vc) 3) d =
      .more (.plain (acc ++ [Char.ofNat (((va * 16 + vb) * 16 + vc) * 16 + vd)])) := by
    simp only [strStep, hd, lt_irrefl, if_false, unitStep]
    rw [if_neg (by omega), if_neg (by omega)]
  simp only [strFeed, h1, h2, h3, h4, h5, h6]

theorem strFeed_simple (acc : List Char) (e c : Char) (he : e ≠ 'u')
    (hs : simpleEscape e = some c) :
    strFeed (.plain acc) ['\\', e] = some (.plain (acc ++ [c])) := by
  have h1 : strStep (.plain acc) '\\' = .more (.esc acc) := by
    simp [strStep, plainStep]
  have h2 : strStep (.esc acc) e = .more (.plain (acc ++ [c])) := by
    simp [strStep, escStep, he, hs]
  simp only [strFeed, h1, h2]

/-- Reading what was written for a character appends the character. -/
theorem strFeed_jsonChar (acc : List Char) (c : Char) :
    strFeed (.plain acc) (jsonChar c) = some (.plain (acc ++ [c])) := by
  have hc := Char.ofNat_toNat c
  unfold jsonChar
  by_cases hesc : needsEscape c = true
  · simp only [hesc, if_true]
    unfold escapeChars
    by_cases h1 : c = '"' ∨ c = '\\'
    · rw [if_pos h1]
      rcases h1 with rfl | rfl
      · exact strFeed_simple acc _ _ (by decide) (by decide)
      · exact strFeed_simple acc _ _ (by decide) (by decide)
    · rw [if_neg h1]
      by_cases h2 : c = '\n'
      · rw [if_pos h2, h2]
        exact strFeed_simple acc _ _ (by decide) (by decide)
      · rw [if_neg h2]
        by_cases h3 : c = '\r'
        · rw [if_pos h3, h3]
          exact strFeed_simple acc _ _ (by decide) (by decide)
        · rw [if_neg h3]
          by_cases h4 : c = '\t'
          · rw [if_pos h4, h4]
            exact strFeed_simple acc _ _ (by decide) (by decide)
          · rw [if_neg h4]
            by_cases h5 : c.toNat < 128
            · rw [if_pos h5]
              have hf := strFeed_unicode acc '0' '0' (hexDigit (c.toNat / 16))
                (hexDigit (c.toNat % 16)) 0 0 (c.toNat / 16) (c.toNat % 16) (by decide)
                (by decide) (hexVal_hexDigit _ (by omega)) (hexVal_hexDigit _ (by omega))
                (by omega)
              have hv : ((0 * 16 + 0) * 16 + c.toNat / 16) * 16 + c.toNat % 16 = c.toNat := by
                omega
              rw [hv, hc] at hf
              exact hf
            · rw [if_neg h5]
              have hn : c.toNat = 8232 ∨ c.toNat = 8233 := by
                simp only [needsEscape, Bool.or_eq_true, decide_eq_true_eq] at hesc
                rcases hesc with ((((((h | h) | h) | h) | h) | h) | h) | h
                · exact absurd (Or.inl h) h1
                · exact absurd (Or.inr h) h1
                · omega
                · rw [h] at h5; exact absurd (by decide) h5
                · rw [h] at h5; exact absurd (by decide) h5
                · rw [h] at h5; exact absurd (by decide) h5
                · exact Or.inl h
                · exact Or.inr h
              have hf := strFeed_unicode acc '2' '0' '2' (hexDigit (c.toNat % 16)) 2 0 2
                (c.toNat % 16) (by decide) (by decide) (by decide)
                (hexVal_hexDigit _ (by omega)) (by omega)
              have hv : ((2 * 16 + 0) * 16 + 2) * 16 + c.toNat % 16 = c.toNat := by omega
              rw [hv, hc] at hf
              exact hf
  · have hesc' : needsEscape c = false := by simpa using hesc
    simp only [hesc', Bool.false_eq_true, if_false]
    simp only [needsEscape, Bool.or_eq_false_iff, decide_eq_false_iff_not] at hesc'
    obtain ⟨⟨⟨⟨⟨⟨⟨hq, hb⟩, hctl⟩, _⟩, _⟩, _⟩, _⟩, _⟩ := hesc'
    simp [strFeed, strStep, plainStep, hq, hb, hctl]

theorem strFeed_jsonBody (acc cs : List Char) :
    strFeed (.plain acc) (jsonBody cs) = some (.plain (acc ++ cs)) := by
  induction cs generalizing acc with
  | nil => simp [jsonBody, strFeed]
  | cons c cs ih =>
    simp only [jsonBody, strFeed_append, strFeed_jsonChar, Option.some_bind, ih]
    simp

theorem foldl_inKey (m : GoMap String String) (s s' : StrState) (cs : List Char)
    (h : strFeed s cs = some s') : cs.foldl jsonStep (.inKey m s) = .inKey m s' := by
  induction cs generalizing s with
  | nil =>
    simp only [strFeed, Option.some.injEq] at h
    rw [h]
    rfl
  | cons c rest ih =>
    simp only [strFeed] at h
    cases hs : strStep s c with
    | more s'' =>
      rw [hs] at h
      simp only [List.foldl_cons, jsonStep, hs]
      exact ih s'' h
    | done x => simp [hs] at h
    | fail => simp [hs] at h

theorem foldl_inValue (m : GoMap String String) (key : String) (s s' : StrState)
    (cs : List Char) (h : strFeed s cs = some s') :
    cs.foldl jsonStep (.inValue m key s) = .inValue m key s' := by
  induction cs generalizing s with
  | nil =>
    simp only [strFeed, Option.some.injEq] at h
    rw [h]
    rfl
  | cons c rest ih =>
    simp only [strFeed] at h
    cases hs : strStep s c with
    | more s'' =>
      rw [hs] at h
      simp only [List.foldl_cons, jsonStep, hs]
      exact ih s'' h
    | done x => simp [hs] at h
    | fail => simp [hs] at h

/-- Reading one member stores its value under its key. -/
theorem foldl_jsonMember (m : GoMap String String) (e : String × String) (rest : List Char)
    (st : JState) (hst : st = .objOpen m ∨ st = .afterComma m) :
    (jsonMember e ++ rest).foldl jsonStep st =
      rest.foldl jsonStep (.afterValue (GoMap.store m e.1 e.2)) := by
  obtain ⟨⟨kd⟩, ⟨vd⟩⟩ := e
  have hopen : jsonStep st '"' = .inKey m (.plain []) := by
    rcases hst with rfl | rfl <;> simp [jsonStep, isJSONSpace]
  have hkey := foldl_inKey m _ _ _ (strFeed_jsonBody [] kd)
  have hval := foldl_inValue m ⟨kd⟩ _ _ _ (strFeed_jsonBody [] vd)
  simp only [List.nil_append] at hkey hval
  have s1 : jsonStep (.inKey m (.plain kd)) '"' = .afterKey m ⟨kd⟩ := by
    simp [jsonStep, strStep, plainStep]
  have s2 : jsonStep (.afterKey m ⟨kd⟩) ':' = .beforeValue m ⟨kd⟩ := by
    simp [jsonStep, isJSONSpace]
  have s3 : jsonStep (.beforeValue m ⟨kd⟩) '"' = .inValue m ⟨kd⟩ (.plain []) := by
    simp [jsonStep, isJSONSpace]
  have s4 : jsonStep (.inValue m ⟨kd⟩ (.plain vd)) '"' =
      .afterValue (GoMap.store m ⟨kd⟩ ⟨vd⟩) := by
    simp [jsonStep, strStep, plainStep]
  unfold jsonMember jsonQuote
  simp only [List.cons_append, List.append_assoc, List.foldl_cons, List.foldl_append, hopen,
    hkey, hval, List.nil_append, s1, s2, s3, s4]

theorem foldl_jsonMembers (m : GoMap String String) (fields : GoMap String String)
    (e : String × String) (rest : List Char) (st : JState)
    (hst : st = .objOpen m ∨ st = .afterComma m) :
    (jsonMembers (e :: fields) ++ rest).foldl jsonStep st =
      rest.foldl jsonStep (.afterValue (storeAll m (e :: fields))) := by
  induction fields generalizing m e st with
  | nil =>
    simp only [jsonMembers, storeAll, List.foldl_cons, List.foldl_nil]
    exact foldl_jsonMember m e rest st hst
  | cons e' fields' ih =>
    have hm : jsonMembers (e :: e' :: fields') = jsonMember e ++ ',' :: jsonMembers (e' :: fields') :=
      rfl
    rw [hm, List.append_assoc, foldl_jsonMember m e _ st hst]
    simp only [List.cons_append, List.foldl_cons]
    have hcomma : jsonStep (.afterValue (GoMap.store m e.1 e.2)) ',' =
        .afterComma (GoMap.store m e.1 e.2) := by
      simp [jsonStep, isJSONSpace]
    rw [hcomma, ih (GoMap.store m e.1 e.2) e' _ (Or.inr rfl)]
    rfl

/-- Reading the object of a list of fields stores the fields one after the other. -/
theorem foldl_jsonObject (fields : GoMap String String) :
    (jsonObject fields).foldl jsonStep .start = .done (storeAll [] fields) := by
  unfold jsonObject
  have hstart : jsonStep .start '{' = .objOpen [] := by
    simp [jsonStep, isJSONSpace]
  simp only [List.foldl_cons, hstart]
  cases fields with
  | nil => simp [jsonMembers, storeAll, jsonStep, isJSONSpace]
  | cons e rest =>
    rw [foldl_jsonMembers [] rest e _ _ (Or.inl rfl)]
    simp [jsonStep, isJSONSpace]

/-- The function `json.Unmarshal` reads back the fields that `json.Marshal` wrote. -/
theorem jsonUnmarshal_jsonMarshal (m : GoMap String String) :
    jsonUnmarshal (jsonMarshal (rawParameters m)) = some (storeAll [] (sortedFields m)) := by
  unfold jsonUnmarshal
  rw [jsonMarshal_rawParameters, runesOf_encodeRunes, foldl_jsonObject]

/-! ## The round trip through the cookie -/

theorem nodupKeys_storeAll (m fields : GoMap String String) (h : GoMap.NodupKeys m) :
    GoMap.NodupKeys (storeAll m fields) := by
  unfold storeAll
  induction fields generalizing m with
  | nil => exact h
  | cons e rest ih =>
    rw [List.foldl_cons]
    exact ih _ (GoMap.nodupKeys_store _ _ _ h)

theorem lookup_storeAll (m fields : GoMap String String) (h : GoMap.NodupKeys fields)
    (k : String) :
    GoMap.lookup (storeAll m fields) k =
      match GoMap.lookup fields k with
      | some v => some v
      | none => GoMap.lookup m k := by
  unfold storeAll
  induction fields generalizing m with
  | nil => rfl
  | cons e rest ih =>
    obtain ⟨a, b⟩ := e
    have hn : a ∉ GoMap.keys rest ∧ GoMap.NodupKeys rest := by
      simpa [GoMap.NodupKeys, GoMap.keys] using h
    rw [List.foldl_cons, ih _ hn.2]
    by_cases hk : a = k
    · subst hk
      have hnone : GoMap.lookup rest a = none := (GoMap.lookup_eq_none_iff _ _).mpr hn.1
      simp [hnone, GoMap.lookup, GoMap.lookup_store]
    · simp [GoMap.lookup, hk, GoMap.lookup_store]

/-- The fields read back from the JSON text of a ticket are the fields of the ticket. -/
theorem lookup_read_back (m : GoMap String String) (h : GoMap.NodupKeys m) (k : String) :
    GoMap.lookup (storeAll [] (sortedFields m)) k = GoMap.lookup m k := by
  have hs : GoMap.NodupKeys (sortedFields m) :=
    (List.Perm.nodup_iff ((sortedFields_perm m).map Prod.fst)).mpr h
  rw [lookup_storeAll _ _ hs, GoMap.lookup_perm _ _ (sortedFields_perm m) hs]
  cases GoMap.lookup m k <;> rfl

/-- C12, amended: for every normalized, well-formed ticket whose names and values are
valid UTF-8 text, parsing `String()` back through the cookie path (URL-unescape, JSON
parse, normalize, check of well-formedness) yields a ticket, and that ticket has the
same value as the original for every name. -/
theorem cookie_round_trip (t : AuthTicket) (hnd : GoMap.NodupKeys t.parameters)
    (hnorm : ∀ k ∈ GoMap.keys t.parameters, k ∈ AuthTicket.recognized)
    (hwf : t.areParametersWellFormed = true) :
    ∃ t', AuthTicketFromCookie (some t.String) = some t' ∧
      ∀ k, GoMap.lookup t'.parameters k = GoMap.lookup t.parameters k := by
  have hkeys : ∀ k, k ∈ GoMap.keys (storeAll [] (sortedFields t.parameters)) ↔
      k ∈ GoMap.keys t.parameters := by
    intro k
    rw [← GoMap.lookup_isSome_iff, ← GoMap.lookup_isSome_iff, lookup_read_back _ hnd]
  have hsan : (AuthTicket.mk (storeAll [] (sortedFields t.parameters))).sanitizeParameters =
      ⟨storeAll [] (sortedFields t.parameters)⟩ := by
    rw [sanitizeParameters_eq]
    simp only [AuthTicket.mk.injEq, List.filter_eq_self, decide_eq_true_eq]
    intro e he
    exact hnorm e.1 ((hkeys e.1).mp (List.mem_map_of_mem Prod.fst he))
  have hwf' : (AuthTicket.mk (storeAll [] (sortedFields t.parameters))).areParametersWellFormed =
      true := by
    rw [areParametersWellFormed_iff] at hwf ⊢
    simp only [hkeys]
    exact hwf
  refine ⟨⟨storeAll [] (sortedFields t.parameters)⟩, ?_, fun k => lookup_read_back _ hnd k⟩
  unfold AuthTicketFromCookie AuthTicket.String ticketString
  simp only [QueryUnescape_QueryEscape, jsonUnmarshal_jsonMarshal, hsan, hwf']
  rfl

/-- The sample ticket comes back from its cookie. -/
theorem cookie_round_trip_witness :
    (GoMap.NodupKeys sampleTicket.parameters ∧
      (∀ k ∈ GoMap.keys sampleTicket.parameters, k ∈ AuthTicket.recognized) ∧
      sampleTicket.areParametersWellFormed = true) ∧
    ∃ t', AuthTicketFromCookie (some sampleTicket.String) = some t' ∧
      ∀ k, GoMap.lookup t'.parameters k = GoMap.lookup sampleTicket.parameters k :=
  ⟨⟨by decide, by decide, by decide⟩,
    cookie_round_trip sampleTicket (by decide) (by decide) (by decide)⟩

/-- C12 fails as stated: the fields `invalidNameFields` are normalized and well-formed, and
the value of `first_name` is the byte 0xFF; `String()` writes the escape `\ufffd` for it, and the
ticket that comes back from the cookie has the three bytes of U+FFFD as its
`first_name`. -/
theorem cookie_round_trip_counterexample :
    (∀ k ∈ GoMap.keys invalidNameFields, k ∈ AuthTicket.recognized.map toBytes) ∧
    (∀ k ∈ ["id", "username", "auth_date", "hash"], toBytes k ∈ GoMap.keys invalidNameFields) ∧
    GoMap.lookup invalidNameFields (toBytes "first_name") = some [byte 255] ∧
    (AuthTicketFromCookie (some (ticketString invalidNameFields))).map
        (fun t => (GoMap.lookup t.parameters "first_name").map toBytes) =
      some (some [byte 239, byte 191, byte 189]) := by
  refine ⟨by decide, by decide, by decide, ?_⟩
  have hj : jsonUnmarshal (jsonMarshal invalidNameFields) =
      some [("auth_date", "1700000000"), ("first_name", "\uFFFD"), ("hash", "00"),
        ("id", "123"), ("username", "alice")] := by
    rfl
  unfold ticketString AuthTicketFromCookie
  simp only [QueryUnescape_QueryEscape, hj]
  rfl

end TgAuthProxy
